import Mathlib

/-! # N-queens: a shallow embedding of `main.c` and its verification

The C program counts the solutions of the N-queens problem in four ways: three
generate-and-test enumerators driven by an odometer (`nextCombination`) and a
recursive backtracking search (`solveBacktracking`).

Modelling conventions.

* C `int` values are modelled by `Int` (cell contents, the fields of the `positions`
  array, the counter `solutionCount`); the board size and the loop indices, which the
  code keeps in `[0, N]`, are modelled by `Nat`.
* An `int` has 32 bits.  Where the code applies arithmetic to values that need not be
  small, the result is reduced to the 32-bit two's-complement range by `wrap32`: the
  increment of `solutionCount` and the subtractions and `abs` of `isValidSolution`.
  (C leaves signed overflow undefined; wrapping is what the usual targets do.)  The
  increment of a column digit in `nextCombination` is exact: it agrees with the C one
  for every digit below `INT_MAX`, in particular for the digits in `[0, N)`.
* `int **chessBoard` is a list of rows, `int **positions` a list of
  `(row, column)` pairs (`positions[i][0]`, `positions[i][1]`).
* In-place updates are explicit state passing: a function that writes to an
  array returns the new array.
* Loops whose trip count is not evident from the syntax (the recursion of
  `solveBacktracking`, the `do ... while` of the enumerators) are driven by a
  fuel argument and return `none` when the fuel runs out.
-/

namespace NQueens

/-! ## Data model -/

/-- The chess board `int **chessBoard`: a list of rows of cells. -/
abbrev Board := List (List Int)

/-- The array `int **positions`: entry `i` is `(positions[i][0], positions[i][1])`,
that is the (row, column) of queen `i`. -/
abbrev Positions := List (Int × Int)

/-- Read access `chessBoard[i][j]`. -/
def cell (b : Board) (i j : Nat) : Int := (b.getD i []).getD j 0

/-- Write access `chessBoard[i][j] = v`. -/
def setCell (b : Board) (i j : Nat) (v : Int) : Board :=
  b.set i ((b.getD i []).set j v)

/-- Read access `positions[i]` (both fields). -/
def posAt (p : Positions) (i : Nat) : Int × Int := p.getD i (0, 0)

/-- Write access `positions[i][1] = v`. -/
def setCol (p : Positions) (i : Nat) (v : Int) : Positions :=
  p.set i ((posAt p i).1, v)

/-- The function `createChessBoard` on its successful path: `calloc` yields `N` rows
of `N` zero cells. -/
def createChessBoard (N : Nat) : Board := List.replicate N (List.replicate N 0)

/-- The value of `x` as a 32-bit two's-complement `int`: the representative of `x`
modulo `2 ^ 32` in `[-2147483648, 2147483647]`. -/
def wrap32 (x : Int) : Int := (x + 2147483648) % 4294967296 - 2147483648

/-- The function `abs` of the C library on a 32-bit `int`. -/
def iabs (x : Int) : Int := if x < 0 then wrap32 (-x) else x

/-! ## The exhaustive enumerators -/

/-- The test in the inner loop body of `isValidSolution`: same column or same diagonal.
The two differences are 32-bit subtractions. -/
def conflict (a b : Int × Int) : Bool :=
  decide (a.2 = b.2) || decide (iabs (wrap32 (a.1 - b.1)) = iabs (wrap32 (a.2 - b.2)))

/-- The function `isValidSolution`: the nested loops `for i in [0,N)`, `for j in [i+1,N)`
return 0 at the first conflicting pair; 1 is returned when both loops run out. -/
def isValidSolution (N : Nat) (positions : Positions) : Int :=
  if (List.range N).any (fun i =>
      (List.range' (i + 1) (N - (i + 1))).any (fun j =>
        conflict (posAt positions i) (posAt positions j)))
  then 0 else 1

/-- The `while` loop of `nextCombination`.  The loop variable `i` of the C code is
`k - 1` here, so that `i = -1` is `k = 0`: while `i >= 0` and `positions[i][1] == N - 1`
the digit is reset to 0 and `i` decremented.  Returns the final `k = i + 1` and the array. -/
def nextCombinationLoop (N : Nat) : Nat → Positions → Nat × Positions
  | 0, p => (0, p)
  | k + 1, p =>
    if (posAt p k).2 = (N : Int) - 1 then nextCombinationLoop N k (setCol p k 0)
    else (k + 1, p)

/-- The code of `nextCombination` after `i` has been initialised to `k - 1`.  The
increment `positions[i][1]++` is exact; it is the C increment for every digit below
`INT_MAX`, in particular for a digit in `[0, N)`. -/
def nextCombinationFrom (N : Nat) (k : Nat) (p : Positions) : Int × Positions :=
  match nextCombinationLoop N k p with
  | (0, q) => (0, q)
  | (i + 1, q) => (1, setCol q i ((posAt q i).2 + 1))

/-- The function `nextCombination`: returns the return value and the updated array. -/
def nextCombination (positions : Positions) (N : Nat) : Int × Positions :=
  nextCombinationFrom N N positions

/-- The `do ... while (nextCombination(positions, N))` loop shared by the three
enumerators.  The state is the array, the counter `solutionCount`, and a log of the
arrays handed to `isValidSolution` so far (the log is specification-only).  One unit of
fuel is one iteration of the loop; `solutionCount++` is a 32-bit increment. -/
def enumerate (N : Nat) : Nat → Positions → Int → List Positions → Option (Int × List Positions)
  | 0, _, _, _ => none
  | fuel + 1, positions, solutionCount, log =>
    let solutionCount1 :=
      if isValidSolution N positions ≠ 0 then wrap32 (solutionCount + 1) else solutionCount
    let r := nextCombination positions N
    if r.1 ≠ 0 then enumerate N fuel r.2 solutionCount1 (log ++ [positions])
    else some (solutionCount1, log ++ [positions])

/-- The initial array of `bruteForce` and `optimizedOne`: `positions[i] = (i, 0)`. -/
def seedZero (N : Nat) : Positions := (List.range N).map (fun (i : Nat) => ((i : Int), (0 : Int)))

/-- The initial array of `optimizedTwo`: `positions[i] = (i, i)`. -/
def seedDiag (N : Nat) : Positions := (List.range N).map (fun (i : Nat) => ((i : Int), (i : Int)))

/-- The function `bruteForce` run with the given fuel: final `solutionCount` and log. -/
def bruteForceRun (fuel N : Nat) : Option (Int × List Positions) :=
  enumerate N fuel (seedZero N) 0 []

/-- The function `optimizedOne` run with the given fuel (the same code as `bruteForce`). -/
def optimizedOneRun (fuel N : Nat) : Option (Int × List Positions) :=
  enumerate N fuel (seedZero N) 0 []

/-- The function `optimizedTwo` run with the given fuel. -/
def optimizedTwoRun (fuel N : Nat) : Option (Int × List Positions) :=
  enumerate N fuel (seedDiag N) 0 []

/-- The `solutionCount` that `bruteForce(N)` reports; `N ^ N` iterations are allowed. -/
def bruteForce (N : Nat) : Option Int := (bruteForceRun (N ^ N) N).map Prod.fst

/-- The `solutionCount` that `optimizedOne(N)` reports; `N ^ N` iterations are allowed. -/
def optimizedOne (N : Nat) : Option Int := (optimizedOneRun (N ^ N) N).map Prod.fst

/-- The `solutionCount` that `optimizedTwo(N)` reports; `N ^ N` iterations are allowed. -/
def optimizedTwo (N : Nat) : Option Int := (optimizedTwoRun (N ^ N) N).map Prod.fst

/-! ## Backtracking -/

/-- First loop of `isValidBacktracking`: is there a queen in `chessBoard[row][i]`
for some `i` in `[0, col)`? -/
def rowScan (b : Board) (row col : Nat) : Bool :=
  (List.range col).any (fun i => cell b row i == 1)

/-- Second loop of `isValidBacktracking`: starting at `(i, j) = (row, col)`, test the cell
and step to `(i - 1, j - 1)` while both stay non-negative. -/
def upLeftScan (b : Board) : Nat → Nat → Bool
  | 0, j => cell b 0 j == 1
  | i + 1, 0 => cell b (i + 1) 0 == 1
  | i + 1, j + 1 => cell b (i + 1) (j + 1) == 1 || upLeftScan b i j

/-- Third loop of `isValidBacktracking`: starting at `(i, j) = (row, col)`, while `i < N`
and `j >= 0` test the cell and step to `(i + 1, j - 1)`. -/
def downLeftScan (N : Nat) (b : Board) : Nat → Nat → Bool
  | i, 0 => decide (i < N) && cell b i 0 == 1
  | i, j + 1 => decide (i < N) && (cell b i (j + 1) == 1 || downLeftScan N b (i + 1) j)

/-- The function `isValidBacktracking`. -/
def isValidBacktracking (N : Nat) (b : Board) (row col : Nat) : Int :=
  if rowScan b row col then 0
  else if upLeftScan b row col then 0
  else if downLeftScan N b row col then 0
  else 1

/-- The body of the `for (row = 0; row < N; row++)` loop of `solveBacktracking`, with the
recursive call passed in as `call`.  The state is the board and `*solutionCount`. -/
def solveRow (N col : Nat) (call : Board → Int → Option (Int × Board × Int))
    (st : Board × Int) (row : Nat) : Option (Board × Int) :=
  if isValidBacktracking N st.1 row col ≠ 0 then
    match call (setCell st.1 row col 1) st.2 with
    | none => none
    | some (_, b, c) => some (setCell b row col 0, c)
  else some st

/-- The function `solveBacktracking`; one unit of fuel is one level of recursion.  The
result is the return value, the board and `*solutionCount` at return;
`(*solutionCount)++` is a 32-bit increment. -/
def solveBacktrackingFuel (N : Nat) : Nat → Board → Nat → Int → Option (Int × Board × Int)
  | 0, _, _, _ => none
  | fuel + 1, chessBoard, col, solutionCount =>
    if col ≥ N then some (1, chessBoard, wrap32 (solutionCount + 1))
    else
      ((List.range N).foldlM
          (solveRow N col (fun b c => solveBacktrackingFuel N fuel b (col + 1) c))
          (chessBoard, solutionCount)).map
        (fun st => (0, st.1, st.2))

/-- The function `solveBacktracking` with the recursion depth `N - col + 1` that a call at
column `col` needs. -/
def solveBacktracking (N : Nat) (chessBoard : Board) (col : Nat) (solutionCount : Int) :
    Option (Int × Board × Int) :=
  solveBacktrackingFuel N (N - col + 1) chessBoard col solutionCount

/-- The function `backtracking`: the board and the `solutionCount` it reports. -/
def backtracking (N : Nat) (chessBoard : Board) : Option (Board × Int) :=
  (solveBacktracking N chessBoard 0 0).map (fun r => (r.2.1, r.2.2))

/-- The function `resetChessBoard`: the nested loops over `i` and `j` in `[0, N)` write 0
to `chessBoard[i][j]`. -/
def resetChessBoard (N : Nat) (chessBoard : Board) : Board :=
  (List.range N).foldl
    (fun b i => (List.range N).foldl (fun b2 j => setCell b2 i j 0) b) chessBoard

/-- The body of the row loop of `solveBacktracking` with a log of the invocations: the
state carries, besides the board and `*solutionCount`, the list of the `(board, col)` with
which `solveBacktracking` has been entered so far (the log is specification-only). -/
def solveRowLog (N col : Nat)
    (call : Board → Int → Option (Int × Board × Int × List (Board × Nat)))
    (st : Board × Int × List (Board × Nat)) (row : Nat) :
    Option (Board × Int × List (Board × Nat)) :=
  if isValidBacktracking N st.1 row col ≠ 0 then
    match call (setCell st.1 row col 1) st.2.1 with
    | none => none
    | some (_, b, c, log) => some (setCell b row col 0, c, st.2.2 ++ log)
  else some st

/-- The function `solveBacktracking` with a log of its invocations: the same code as
`solveBacktrackingFuel`, which in addition records at entry the board and the column it
was called with, followed by the records of the nested calls in the order they happen. -/
def solveBacktrackingLog (N : Nat) :
    Nat → Board → Nat → Int → Option (Int × Board × Int × List (Board × Nat))
  | 0, _, _, _ => none
  | fuel + 1, chessBoard, col, solutionCount =>
    if col ≥ N then some (1, chessBoard, wrap32 (solutionCount + 1), [(chessBoard, col)])
    else
      ((List.range N).foldlM
          (solveRowLog N col (fun b c => solveBacktrackingLog N fuel b (col + 1) c))
          (chessBoard, solutionCount, [(chessBoard, col)])).map
        (fun st => (0, st.1, st.2.1, st.2.2))

/-- What `main` calls, in order; a strategy is recorded with the `solutionCount` that it
reports. -/
inductive Call where
  | createChessBoard (N : Nat)
  | resetChessBoard (N : Nat)
  | bruteForce (N : Nat) (solutionCount : Option Int)
  | optimizedOne (N : Nat) (solutionCount : Option Int)
  | optimizedTwo (N : Nat) (solutionCount : Option Int)
  | backtracking (N : Nat) (solutionCount : Option Int)

/-- The function `main`.  The two numbers read by `scanf` are the arguments `N` and `mode`;
`allocated` tells whether the `calloc` of the row pointers in `createChessBoard` succeeds,
which is the only failure that `main` tests for (the rows are then taken to be allocated).
The result is the return value and the calls made; prompts and timing are left out. -/
def main (N mode : Int) (allocated : Bool) : Int × List Call :=
  if N ≤ 3 then (-1, [])
  else if allocated = false then (-1, [Call.createChessBoard N.toNat])
  else if mode = 1 then
    (0, [Call.createChessBoard N.toNat, Call.bruteForce N.toNat (bruteForce N.toNat)])
  else if mode = 2 then
    (0, [Call.createChessBoard N.toNat, Call.optimizedOne N.toNat (optimizedOne N.toNat)])
  else if mode = 3 then
    (0, [Call.createChessBoard N.toNat, Call.optimizedTwo N.toNat (optimizedTwo N.toNat)])
  else if mode = 4 then
    (0, [Call.createChessBoard N.toNat,
      Call.backtracking N.toNat
        ((backtracking N.toNat (createChessBoard N.toNat)).map Prod.snd)])
  else if mode = 0 then
    (0, [Call.createChessBoard N.toNat,
      Call.bruteForce N.toNat (bruteForce N.toNat),
      Call.resetChessBoard N.toNat,
      Call.optimizedOne N.toNat (optimizedOne N.toNat),
      Call.resetChessBoard N.toNat,
      Call.optimizedTwo N.toNat (optimizedTwo N.toNat),
      Call.resetChessBoard N.toNat,
      Call.backtracking N.toNat
        ((backtracking N.toNat
          (resetChessBoard N.toNat (resetChessBoard N.toNat (resetChessBoard N.toNat
            (createChessBoard N.toNat))))).map Prod.snd)])
  else (0, [Call.createChessBoard N.toNat])


/-! ## Specification-side definitions -/

/-- The board has `N` rows of `N` cells. -/
def IsBoard (N : Nat) (b : Board) : Prop := b.length = N ∧ ∀ r ∈ b, r.length = N

/-- Attack condition of the conflict checker, with the diagonal offsets `k` ranging from
`k0` upwards: a queen (a cell equal to 1) at `(row, c)` for some `c < col`, or at
`(row - k, col - k)`, or at `(row + k, col - k)`, for some `k ≥ k0` with the cell inside
the `N × N` board. -/
def attackedFromLeft (k0 N : Nat) (b : Board) (row col : Nat) : Prop :=
  (∃ c, c < col ∧ cell b row c = 1) ∨
  (∃ k, k0 ≤ k ∧ k ≤ row ∧ k ≤ col ∧ cell b (row - k) (col - k) = 1) ∨
  (∃ k, k0 ≤ k ∧ row + k < N ∧ k ≤ col ∧ cell b (row + k) (col - k) = 1)

/-- The column digits `positions[i][1]` of the array, row 0 first. -/
def colsOf (p : Positions) : List Int := p.map Prod.snd

/-- The row fields `positions[i][0]` of the array. -/
def rowsOf (p : Positions) : List Int := p.map Prod.fst

/-- Every column digit of the array lies in `[0, N)`. -/
def InRange (N : Nat) (p : Positions) : Prop := ∀ x ∈ p, 0 ≤ x.2 ∧ x.2 < (N : Int)

/-- Value of a digit list in base `B`, most significant digit first. -/
def horner (B : Int) (l : List Int) : Int := l.foldl (fun acc d => acc * B + d) 0

/-- The value `v = Σ_i positions[i].col * N^(N-1-i)` of the array read as an `N`-digit
counter in base `N`, row `N - 1` least significant. -/
def value (N : Nat) (p : Positions) : Int :=
  ∑ i in Finset.range N, (posAt p i).2 * (N : Int) ^ (N - 1 - i)

/-- The array is a candidate of the enumerators: `N` entries, entry `i` has row `i`,
and every column digit lies in `[0, N)`. -/
def WellFormed (N : Nat) (p : Positions) : Prop :=
  p.length = N ∧ rowsOf p = (List.range N).map (fun (i : Nat) => (i : Int)) ∧ InRange N p

/-- The first `m` arrays seen when the odometer is called repeatedly from `p`:
`p` itself and the array after each of the first `m - 1` calls. -/
def trail (N : Nat) : Nat → Positions → List Positions
  | 0, _ => []
  | m + 1, p => p :: trail N m (nextCombination p N).2

/-- Number of arrays of the list that `isValidSolution` accepts. -/
def countValid (N : Nat) (l : List Positions) : Nat :=
  (l.filter (fun q => decide (isValidSolution N q ≠ 0))).length

/-- A partial placement `qs` (the queen of column `c` stands in row `qs[c]`, for the columns
`c < qs.length`) does not attack the cell `(row, qs.length)` along a row or a diagonal. -/
def safe (qs : List Nat) (row : Nat) : Prop :=
  ∀ c, c < qs.length →
    qs.getD c 0 ≠ row ∧ qs.getD c 0 + (qs.length - c) ≠ row ∧ row + (qs.length - c) ≠ qs.getD c 0

instance (qs : List Nat) (row : Nat) : Decidable (safe qs row) := by
  unfold safe; infer_instance

/-- The board holds exactly the queens of the partial placement `qs`. -/
def Represents (N : Nat) (b : Board) (qs : List Nat) : Prop :=
  IsBoard N b ∧ (∀ x ∈ qs, x < N) ∧
    ∀ r c, r < N → c < N → cell b r c = if c < qs.length ∧ qs.getD c 0 = r then 1 else 0

/-- All ways to extend the partial placement `qs` by `k` further columns, each new queen
in a row of `[0, N)` that the queens before it leave safe. -/
def extendAll (N : Nat) : Nat → List Nat → List (List Nat)
  | 0, qs => [qs]
  | k + 1, qs =>
    (List.range N).flatMap (fun row => if safe qs row then extendAll N k (qs ++ [row]) else [])

/-- No two queens of the placement share a row or a diagonal (the queen of column `c`
stands in row `l[c]`, so no two share a column). -/
def NonAttacking (l : List Nat) : Prop :=
  ∀ i j, i < j → j < l.length →
    l.getD i 0 ≠ l.getD j 0 ∧ l.getD i 0 + (j - i) ≠ l.getD j 0 ∧ l.getD j 0 + (j - i) ≠ l.getD i 0

/-- The number of N-queens solutions: maps `q` from columns `[0, N)` to rows `[0, N)` such
that for all columns `c1 ≠ c2`, `q c1 ≠ q c2` and `|q c1 - q c2| ≠ |c1 - c2|`. -/
def numQueenSolutions (N : Nat) : Nat :=
  (Finset.univ.filter (fun q : Fin N → Fin N =>
    ∀ c1 c2 : Fin N, c1 ≠ c2 →
      q c1 ≠ q c2 ∧
        |((q c1 : Nat) : Int) - ((q c2 : Nat) : Int)| ≠ |((c1 : Nat) : Int) - ((c2 : Nat) : Int)|)).card

/-- The number of valid full arrangements: column vectors `c` in `[0, N)^N` such that the
queens at `(i, c i)` are pairwise non-attacking, `c i ≠ c j` and `|i - j| ≠ |c i - c j|`
for all `i < j`. -/
def numValidArrangements (N : Nat) : Nat :=
  (Finset.univ.filter (fun c : Fin N → Fin N =>
    ∀ i j : Fin N, i < j →
      c i ≠ c j ∧
        |((i : Nat) : Int) - ((j : Nat) : Int)| ≠ |((c i : Nat) : Int) - ((c j : Nat) : Int)|)).card

/-- The array of the enumerators that holds the column vector `c`: entry `i` is `(i, c i)`. -/
def toPositions (N : Nat) (c : Fin N → Fin N) : Positions :=
  List.ofFn (fun i : Fin N => (((i : Nat) : Int), (((c i : Fin N) : Nat) : Int)))

/-- The placement list of a map from columns to rows. -/
def toPlacement (N : Nat) (q : Fin N → Fin N) : List Nat :=
  List.ofFn (fun c : Fin N => ((q c : Fin N) : Nat))

/-- The test `safe` on a placement stored last column first: `d` is the column distance
between the new queen and the head of the list. -/
def safeRev : List Nat → Nat → Nat → Bool
  | [], _, _ => true
  | q :: qs, row, d => q != row && (q + d != row && (row + d != q && safeRev qs row (d + 1)))

/-- The number of completions of a placement stored last column first by `k` further
columns; it equals the length of `extendAll` and is cheap to evaluate. -/
def countRev (N : Nat) : Nat → List Nat → Nat
  | 0, _ => 1
  | k + 1, qs =>
    ((List.range N).map (fun row => if safeRev qs row 1 then countRev N k (row :: qs) else 0)).sum

/-- The array after `k` calls of `nextCombination` starting from the all-zero seed. -/
def stateAfter (N : Nat) : Nat → Positions
  | 0 => seedZero N
  | k + 1 => (nextCombination (stateAfter N k) N).2

/-- The column vector `v` is an element of `[0, N)^N`. -/
def InCube (N : Nat) (v : List Int) : Prop :=
  v.length = N ∧ ∀ d ∈ v, 0 ≤ d ∧ d < (N : Int)

/-- The condition of the conflict checker as the claim words it: diagonal offsets `k ≥ 1`. -/
def attackedClaimed (N : Nat) (b : Board) (row col : Nat) : Prop :=
  attackedFromLeft 1 N b row col

/-- Number of times that `v` occurs in the list `l`. -/
def occurrences {α : Type} [DecidableEq α] (v : α) (l : List α) : Nat :=
  (l.filter (fun c => decide (c = v))).length

/-- Every cell of the `N × N` board is 0 or 1. -/
def Binary (N : Nat) (b : Board) : Prop :=
  ∀ r c, r < N → c < N → cell b r c = 0 ∨ cell b r c = 1

/-- The invariant of the backtracking search at an invocation with board `b` and column
`col`: `col ≤ N`, every column `c < col` holds exactly one queen, every column `c ≥ col`
is empty, and no two queens share a row or a diagonal. -/
def SearchInvariant (N : Nat) (b : Board) (col : Nat) : Prop :=
  col ≤ N ∧
  (∀ c, c < col → ∃ r, r < N ∧ cell b r c = 1 ∧ ∀ r2, r2 < N → cell b r2 c = 1 → r2 = r) ∧
  (∀ r c, r < N → col ≤ c → c < N → cell b r c = 0) ∧
  (∀ r1 c1 r2 c2, r1 < N → c1 < N → r2 < N → c2 < N →
    cell b r1 c1 = 1 → cell b r2 c2 = 1 → (r1 ≠ r2 ∨ c1 ≠ c2) →
      r1 ≠ r2 ∧ |(r1 : Int) - (r2 : Int)| ≠ |(c1 : Int) - (c2 : Int)|)

/-- Some queen of the `N × N` board attacks the cell `(row, col)`: an occupied cell `(r, c)`
with `r = row`, `c = col` or `|r - row| = |c - col|`. -/
def attackedByAny (N : Nat) (b : Board) (row col : Nat) : Prop :=
  ∃ r c, r < N ∧ c < N ∧ cell b r c = 1 ∧
    (r = row ∨ c = col ∨ |(r : Int) - (row : Int)| = |(c : Int) - (col : Int)|)

/-- The placement with the queen of column `i` in row `(a * i + b) mod p`. -/
def linearPlacement (p : Nat) (hp : 0 < p) (a b : Nat) : Fin p → Fin p :=
  fun i => ⟨(a * i.1 + b) % p, Nat.mod_lt _ hp⟩

/-! ## 32-bit arithmetic -/

theorem wrap32_of_small (x : Int) (h1 : -2147483648 ≤ x) (h2 : x < 2147483648) :
    wrap32 x = x := by
  unfold wrap32
  omega

theorem wrap32_bounds (x : Int) : -2147483648 ≤ wrap32 x ∧ wrap32 x < 2147483648 := by
  unfold wrap32
  omega

theorem wrap32_idem (x : Int) : wrap32 (wrap32 x) = wrap32 x := by
  have := wrap32_bounds x
  exact wrap32_of_small _ this.1 this.2

theorem wrap32_add_left (x y : Int) : wrap32 (wrap32 x + y) = wrap32 (x + y) := by
  unfold wrap32
  omega

/-- A count above `INT_MAX` is not the value of a 32-bit counter. -/
theorem wrap32_ne_of_large (x : Int) (h : 2147483648 ≤ x) : wrap32 x ≠ x := by
  have := wrap32_bounds x
  omega

theorem iabs_of_small (x : Int) (h1 : -2147483648 < x) (h2 : x < 2147483648) :
    iabs x = |x| := by
  unfold iabs
  split
  · rw [abs_of_neg (by assumption), wrap32_of_small _ (by omega) (by omega)]
  · rw [abs_of_nonneg (by omega)]

/-- The 32-bit absolute difference does not depend on the order of the operands. -/
theorem iabs_wrap32_sub_comm (x y : Int) :
    iabs (wrap32 (x - y)) = iabs (wrap32 (y - x)) := by
  unfold iabs wrap32
  split <;> split <;> omega

/-! ## The conflict checker `isValidBacktracking` -/

theorem rowScan_iff (b : Board) (row col : Nat) :
    rowScan b row col = true ↔ ∃ c, c < col ∧ cell b row c = 1 := by
  simp [rowScan, List.any_eq_true]

theorem upLeftScan_iff (b : Board) (i j : Nat) :
    upLeftScan b i j = true ↔ ∃ k, k ≤ i ∧ k ≤ j ∧ cell b (i - k) (j - k) = 1 := by
  induction i generalizing j with
  | zero =>
    simp only [upLeftScan, beq_iff_eq]
    constructor
    · intro h; exact ⟨0, le_refl _, Nat.zero_le _, by simpa using h⟩
    · rintro ⟨k, hk, -, h⟩
      have : k = 0 := by omega
      subst this; simpa using h
  | succ i ih =>
    cases j with
    | zero =>
      simp only [upLeftScan, beq_iff_eq]
      constructor
      · intro h; exact ⟨0, Nat.zero_le _, le_refl _, by simpa using h⟩
      · rintro ⟨k, -, hk, h⟩
        have : k = 0 := by omega
        subst this; simpa using h
    | succ j =>
      simp only [upLeftScan, Bool.or_eq_true, beq_iff_eq, ih]
      constructor
      · rintro (h | ⟨k, hk1, hk2, h⟩)
        · exact ⟨0, Nat.zero_le _, Nat.zero_le _, by simpa using h⟩
        · refine ⟨k + 1, by omega, by omega, ?_⟩
          rw [Nat.add_sub_add_right, Nat.add_sub_add_right]; exact h
      · rintro ⟨k, hk1, hk2, h⟩
        cases k with
        | zero => left; simpa using h
        | succ k =>
          right
          refine ⟨k, by omega, by omega, ?_⟩
          rw [Nat.add_sub_add_right, Nat.add_sub_add_right] at h; exact h

theorem downLeftScan_iff (N : Nat) (b : Board) (i j : Nat) :
    downLeftScan N b i j = true ↔ ∃ k, i + k < N ∧ k ≤ j ∧ cell b (i + k) (j - k) = 1 := by
  induction j generalizing i with
  | zero =>
    simp only [downLeftScan, Bool.and_eq_true, decide_eq_true_eq, beq_iff_eq]
    constructor
    · rintro ⟨h1, h2⟩; exact ⟨0, by simpa using h1, le_refl _, by simpa using h2⟩
    · rintro ⟨k, hk1, hk2, h⟩
      have : k = 0 := by omega
      subst this
      exact ⟨by simpa using hk1, by simpa using h⟩
  | succ j ih =>
    simp only [downLeftScan, Bool.and_eq_true, decide_eq_true_eq, Bool.or_eq_true, beq_iff_eq, ih]
    constructor
    · rintro ⟨h1, h | ⟨k, hk1, hk2, h⟩⟩
      · exact ⟨0, by simpa using h1, Nat.zero_le _, by simpa using h⟩
      · refine ⟨k + 1, by omega, by omega, ?_⟩
        rw [Nat.add_sub_add_right, ← Nat.add_assoc, Nat.add_right_comm]; exact h
    · rintro ⟨k, hk1, hk2, h⟩
      refine ⟨by omega, ?_⟩
      cases k with
      | zero => left; simpa using h
      | succ k =>
        right
        refine ⟨k, by omega, by omega, ?_⟩
        rw [Nat.add_sub_add_right, ← Nat.add_assoc, Nat.add_right_comm] at h; exact h

/-- The checker returns 0 exactly on the attack condition with offsets `k ≥ 0`. -/
theorem isValidBacktracking_eq_zero_iff (N : Nat) (b : Board) (row col : Nat) :
    isValidBacktracking N b row col = 0 ↔ attackedFromLeft 0 N b row col := by
  unfold isValidBacktracking attackedFromLeft
  simp only [Nat.zero_le, true_and, ← rowScan_iff, ← upLeftScan_iff, ← downLeftScan_iff]
  cases rowScan b row col <;> cases upLeftScan b row col <;>
    cases downLeftScan N b row col <;> simp

/-- The checker returns 0 or 1. -/
theorem isValidBacktracking_zero_or_one (N : Nat) (b : Board) (row col : Nat) :
    isValidBacktracking N b row col = 0 ∨ isValidBacktracking N b row col = 1 := by
  unfold isValidBacktracking
  split
  · exact Or.inl rfl
  · split
    · exact Or.inl rfl
    · split
      · exact Or.inl rfl
      · exact Or.inr rfl

/-! ## The validity test `isValidSolution` -/

theorem conflict_iff (a b : Int × Int) :
    conflict a b = true ↔
      (a.2 = b.2 ∨ iabs (wrap32 (a.1 - b.1)) = iabs (wrap32 (a.2 - b.2))) := by
  simp [conflict]

theorem conflict_of_col_eq (a b : Int × Int) (h : a.2 = b.2) : conflict a b = true :=
  (conflict_iff a b).2 (Or.inl h)

/-- When neither difference overflows, the test is the mathematical one. -/
theorem conflict_iff_of_small (a b : Int × Int) (h1 : |a.1 - b.1| < 2147483648)
    (h2 : |a.2 - b.2| < 2147483648) :
    conflict a b = true ↔ (a.2 = b.2 ∨ |a.1 - b.1| = |a.2 - b.2|) := by
  rw [conflict_iff]
  rw [abs_lt] at h1 h2
  rw [wrap32_of_small _ (by omega) (by omega), wrap32_of_small _ (by omega) (by omega),
    iabs_of_small _ (by omega) (by omega), iabs_of_small _ (by omega) (by omega)]

/-- The validity test returns 0 exactly when the test of the loop body succeeds for some
pair `i < j < N`. -/
theorem isValidSolution_eq_zero_iff_conflict (N : Nat) (p : Positions) :
    isValidSolution N p = 0 ↔
      ∃ i j, i < j ∧ j < N ∧ conflict (posAt p i) (posAt p j) = true := by
  unfold isValidSolution
  have key : ((List.range N).any (fun i =>
      (List.range' (i + 1) (N - (i + 1))).any (fun j =>
        conflict (posAt p i) (posAt p j))) = true) ↔
      ∃ i j, i < j ∧ j < N ∧ conflict (posAt p i) (posAt p j) = true := by
    simp only [List.any_eq_true, List.mem_range, List.mem_range']
    constructor
    · rintro ⟨i, hi, j, ⟨k, hk, rfl⟩, h⟩
      exact ⟨i, i + 1 + 1 * k, by omega, by omega, h⟩
    · rintro ⟨i, j, hij, hj, h⟩
      exact ⟨i, by omega, j, ⟨j - (i + 1), by omega, by omega⟩, h⟩
  rw [← key]
  split <;> simp_all

/-- When no difference of two row fields or two column fields overflows, the validity
test returns 0 exactly when some pair `i < j < N` shares a column or a diagonal. -/
theorem isValidSolution_eq_zero_iff (N : Nat) (p : Positions)
    (hsmall : ∀ i j, i < j → j < N →
      |(posAt p i).1 - (posAt p j).1| < 2147483648 ∧
      |(posAt p i).2 - (posAt p j).2| < 2147483648) :
    isValidSolution N p = 0 ↔
      ∃ i j, i < j ∧ j < N ∧ ((posAt p i).2 = (posAt p j).2 ∨
        |(posAt p i).1 - (posAt p j).1| = |(posAt p i).2 - (posAt p j).2|) := by
  rw [isValidSolution_eq_zero_iff_conflict]
  constructor
  · rintro ⟨i, j, hij, hj, h⟩
    exact ⟨i, j, hij, hj,
      (conflict_iff_of_small _ _ (hsmall i j hij hj).1 (hsmall i j hij hj).2).1 h⟩
  · rintro ⟨i, j, hij, hj, h⟩
    exact ⟨i, j, hij, hj,
      (conflict_iff_of_small _ _ (hsmall i j hij hj).1 (hsmall i j hij hj).2).2 h⟩

theorem isValidSolution_zero_or_one (N : Nat) (p : Positions) :
    isValidSolution N p = 0 ∨ isValidSolution N p = 1 := by
  unfold isValidSolution
  split
  · exact Or.inl rfl
  · exact Or.inr rfl

/-! ## The odometer `nextCombination` -/

theorem posAt_append_left (l s : Positions) (k : Nat) (h : k < l.length) :
    posAt (l ++ s) k = posAt l k := by
  unfold posAt
  exact List.getD_append l s (0, 0) k h

theorem posAt_append_length (l : Positions) (x : Int × Int) (s : Positions) :
    posAt (l ++ x :: s) l.length = x := by
  unfold posAt
  rw [List.getD_eq_getElem?_getD, List.getElem?_append_right (le_refl _)]
  simp

theorem setCol_append_left (l s : Positions) (k : Nat) (v : Int) (h : k < l.length) :
    setCol (l ++ s) k v = setCol l k v ++ s := by
  unfold setCol
  rw [posAt_append_left l s k h, List.set_append, if_pos h]

theorem setCol_append_length (l : Positions) (x : Int × Int) (v : Int) :
    setCol (l ++ [x]) l.length v = l ++ [(x.1, v)] := by
  unfold setCol
  rw [posAt_append_length, List.set_append]
  simp

theorem length_setCol (p : Positions) (k : Nat) (v : Int) : (setCol p k v).length = p.length := by
  simp [setCol]

theorem nextCombinationLoop_length (N : Nat) (k : Nat) (p : Positions) :
    (nextCombinationLoop N k p).2.length = p.length := by
  induction k generalizing p with
  | zero => simp [nextCombinationLoop]
  | succ k ih =>
    unfold nextCombinationLoop
    split
    · rw [ih, length_setCol]
    · rfl

theorem nextCombinationLoop_append (N : Nat) (k : Nat) (l s : Positions) (h : k ≤ l.length) :
    nextCombinationLoop N k (l ++ s) =
      ((nextCombinationLoop N k l).1, (nextCombinationLoop N k l).2 ++ s) := by
  induction k generalizing l with
  | zero => simp [nextCombinationLoop]
  | succ k ih =>
    unfold nextCombinationLoop
    rw [posAt_append_left l s k h]
    split
    · rw [setCol_append_left l s k 0 h, ih _ (by rw [length_setCol]; omega)]
    · rfl

theorem nextCombinationLoop_le (N : Nat) (k : Nat) (p : Positions) :
    (nextCombinationLoop N k p).1 ≤ k := by
  induction k generalizing p with
  | zero => simp [nextCombinationLoop]
  | succ k ih =>
    unfold nextCombinationLoop
    split
    · exact Nat.le_succ_of_le (ih _)
    · exact le_refl _

theorem nextCombinationFrom_append (N : Nat) (k : Nat) (l s : Positions) (h : k ≤ l.length) :
    nextCombinationFrom N k (l ++ s) =
      ((nextCombinationFrom N k l).1, (nextCombinationFrom N k l).2 ++ s) := by
  unfold nextCombinationFrom
  rw [nextCombinationLoop_append N k l s h]
  have hle := nextCombinationLoop_le N k l
  have hlen := nextCombinationLoop_length N k l
  rcases hr : nextCombinationLoop N k l with ⟨i, q⟩
  rw [hr] at hle hlen
  cases i with
  | zero => rfl
  | succ i =>
    simp only at hle hlen ⊢
    have hi : i < q.length := by omega
    rw [setCol_append_left q s i _ hi, posAt_append_left q s i hi]

theorem nextCombinationFrom_succ_wrap (N : Nat) (k : Nat) (p : Positions)
    (h : (posAt p k).2 = (N : Int) - 1) :
    nextCombinationFrom N (k + 1) p = nextCombinationFrom N k (setCol p k 0) := by
  simp [nextCombinationFrom, nextCombinationLoop, h]

theorem nextCombinationFrom_succ_step (N : Nat) (k : Nat) (p : Positions)
    (h : (posAt p k).2 ≠ (N : Int) - 1) :
    nextCombinationFrom N (k + 1) p = (1, setCol p k ((posAt p k).2 + 1)) := by
  simp [nextCombinationFrom, nextCombinationLoop, h]

theorem horner_append_singleton (B : Int) (l : List Int) (d : Int) :
    horner B (l ++ [d]) = horner B l * B + d := by
  simp [horner, List.foldl_append]

theorem colsOf_append (l s : Positions) : colsOf (l ++ s) = colsOf l ++ colsOf s := by
  simp [colsOf]

theorem rowsOf_append (l s : Positions) : rowsOf (l ++ s) = rowsOf l ++ rowsOf s := by
  simp [rowsOf]

theorem inRange_append (N : Nat) (l s : Positions) :
    InRange N (l ++ s) ↔ InRange N l ∧ InRange N s := by
  simp only [InRange, List.mem_append]
  constructor
  · intro h; exact ⟨fun x hx => h x (Or.inl hx), fun x hx => h x (Or.inr hx)⟩
  · rintro ⟨h1, h2⟩ x (hx | hx)
    · exact h1 x hx
    · exact h2 x hx

theorem inRange_singleton (N : Nat) (x : Int × Int) :
    InRange N [x] ↔ 0 ≤ x.2 ∧ x.2 < (N : Int) := by
  simp [InRange]

theorem inRange_iff_colsOf (N : Nat) (p : Positions) :
    InRange N p ↔ ∀ d ∈ colsOf p, 0 ≤ d ∧ d < (N : Int) := by
  simp only [InRange, colsOf, List.mem_map]
  constructor
  · rintro h d ⟨x, hx, rfl⟩; exact h x hx
  · intro h x hx; exact h x.2 ⟨x, hx, rfl⟩

/-- A list of base-`N` digits has a value in `[0, N ^ length)`. -/
theorem horner_digits_bounds (N : Nat) (l : List Int) (h : ∀ d ∈ l, 0 ≤ d ∧ d < (N : Int)) :
    0 ≤ horner N l ∧ horner N l + 1 ≤ (N : Int) ^ l.length := by
  induction l using List.reverseRecOn with
  | nil => simp [horner]
  | append_singleton l x ih =>
    have hl : ∀ d ∈ l, 0 ≤ d ∧ d < (N : Int) := fun d hd => h d (List.mem_append_left _ hd)
    obtain ⟨hx0, hx1⟩ := h x (by simp)
    obtain ⟨ih0, ih1⟩ := ih hl
    rw [horner_append_singleton, List.length_append, List.length_singleton, pow_succ]
    have hN : (0 : Int) ≤ N := Int.natCast_nonneg N
    constructor
    · have := mul_nonneg ih0 hN
      omega
    · have := mul_le_mul_of_nonneg_right ih1 hN
      rw [add_mul] at this
      omega

/-- In-range arrays have a value in `[0, N ^ length)`. -/
theorem horner_bounds (N : Nat) (p : Positions) (h : InRange N p) :
    0 ≤ horner N (colsOf p) ∧ horner N (colsOf p) + 1 ≤ (N : Int) ^ p.length := by
  have := horner_digits_bounds N (colsOf p) ((inRange_iff_colsOf N p).1 h)
  simpa [colsOf] using this

/-- One call of the odometer on an in-range array, as arithmetic on its value: either it
returns 1 and the value has grown by one, or the value was the largest one, it returns 0
and every digit is 0 afterwards.  Row fields, length and digit range are kept. -/
theorem nextCombinationFrom_spec (N : Nat) (p : Positions) (h : InRange N p) :
    rowsOf (nextCombinationFrom N p.length p).2 = rowsOf p ∧
    (nextCombinationFrom N p.length p).2.length = p.length ∧
    InRange N (nextCombinationFrom N p.length p).2 ∧
    (((nextCombinationFrom N p.length p).1 = 1 ∧
        horner N (colsOf (nextCombinationFrom N p.length p).2) = horner N (colsOf p) + 1) ∨
     ((nextCombinationFrom N p.length p).1 = 0 ∧
        horner N (colsOf p) + 1 = (N : Int) ^ p.length ∧
        ∀ x ∈ (nextCombinationFrom N p.length p).2, x.2 = 0)) := by
  induction p using List.reverseRecOn with
  | nil => simp [nextCombinationFrom, nextCombinationLoop, horner, colsOf, InRange]
  | append_singleton l x ih =>
    rw [inRange_append, inRange_singleton] at h
    obtain ⟨hl, hx0, hx1⟩ := h
    obtain ⟨ihr, ihlen, ihin, ihv⟩ := ih hl
    rw [List.length_append, List.length_singleton]
    have hx : posAt (l ++ [x]) l.length = x := posAt_append_length l x []
    by_cases hw : x.2 = (N : Int) - 1
    · rw [nextCombinationFrom_succ_wrap N l.length (l ++ [x]) (by rw [hx]; exact hw),
        setCol_append_length, nextCombinationFrom_append N l.length l _ (le_refl _)]
      simp only
      refine ⟨?_, ?_, ?_, ?_⟩
      · rw [rowsOf_append, rowsOf_append, ihr]; rfl
      · simp [ihlen]
      · rw [inRange_append, inRange_singleton]
        exact ⟨ihin, le_refl _, by simp only; omega⟩
      · rw [colsOf_append, colsOf_append, show colsOf [(x.1, (0 : Int))] = [0] from rfl,
          show colsOf [x] = [x.2] from rfl, horner_append_singleton, horner_append_singleton,
          pow_succ]
        rcases ihv with ⟨h1, h2⟩ | ⟨h1, h2, h3⟩
        · left
          refine ⟨h1, ?_⟩
          rw [h2, hw]; ring
        · right
          refine ⟨h1, ?_, ?_⟩
          · rw [← h2, hw]; ring
          · intro y hy
            rcases List.mem_append.1 hy with hy | hy
            · exact h3 y hy
            · simp only [List.mem_singleton] at hy
              rw [hy]
    · rw [nextCombinationFrom_succ_step N l.length (l ++ [x]) (by rw [hx]; exact hw), hx,
        setCol_append_length]
      simp only
      refine ⟨?_, ?_, ?_, ?_⟩
      · rw [rowsOf_append, rowsOf_append]; rfl
      · simp
      · rw [inRange_append, inRange_singleton]
        exact ⟨hl, by simp only; omega, by simp only; omega⟩
      · left
        refine ⟨trivial, ?_⟩
        rw [colsOf_append, colsOf_append, show colsOf [(x.1, x.2 + 1)] = [x.2 + 1] from rfl,
          show colsOf [x] = [x.2] from rfl, horner_append_singleton, horner_append_singleton]
        ring

/-! ## Positional values: order and injectivity -/

theorem horner_append (B : Int) (a b : List Int) :
    horner B (a ++ b) = horner B a * B ^ b.length + horner B b := by
  induction b using List.reverseRecOn with
  | nil => simp [horner]
  | append_singleton b d ih =>
    rw [← List.append_assoc, horner_append_singleton, ih, horner_append_singleton,
      List.length_append, List.length_singleton, pow_succ]
    ring

theorem horner_cons (B : Int) (d : Int) (l : List Int) :
    horner B (d :: l) = d * B ^ l.length + horner B l := by
  have := horner_append B [d] l
  simpa [horner] using this

/-- Two digit lists that first differ at one place compare like the digits there. -/
theorem horner_lt_of_first_diff (N : Nat) (pre sl ss : List Int) (x y : Int)
    (hlen : sl.length = ss.length)
    (hsl : ∀ d ∈ sl, 0 ≤ d ∧ d < (N : Int)) (hss : ∀ d ∈ ss, 0 ≤ d ∧ d < (N : Int))
    (hxy : x < y) :
    horner N (pre ++ x :: sl) < horner N (pre ++ y :: ss) := by
  rw [horner_append, horner_append, horner_cons, horner_cons, List.length_cons,
    List.length_cons, hlen]
  have h1 := (horner_digits_bounds N sl hsl).2
  have h2 := (horner_digits_bounds N ss hss).1
  rw [hlen] at h1
  have h3 : (x + 1) * (N : Int) ^ ss.length ≤ y * (N : Int) ^ ss.length :=
    mul_le_mul_of_nonneg_right (by omega) (pow_nonneg (Int.natCast_nonneg N) _)
  rw [add_mul, one_mul] at h3
  omega

/-- Two different lists of the same length split at their first difference. -/
theorem exists_first_diff {α : Type} (l s : List α) (hlen : l.length = s.length) (hne : l ≠ s) :
    ∃ pre x y sl ss, l = pre ++ x :: sl ∧ s = pre ++ y :: ss ∧ x ≠ y ∧
      sl.length = ss.length := by
  induction l generalizing s with
  | nil =>
    cases s with
    | nil => exact absurd rfl hne
    | cons b s => simp at hlen
  | cons a l ih =>
    cases s with
    | nil => simp at hlen
    | cons b s =>
      simp only [List.length_cons, Nat.add_right_cancel_iff] at hlen
      by_cases hab : a = b
      · subst hab
        have hne2 : l ≠ s := fun h => hne (by rw [h])
        obtain ⟨pre, x, y, sl, ss, h1, h2, h3, h4⟩ := ih s hlen hne2
        exact ⟨a :: pre, x, y, sl, ss, by rw [h1]; rfl, by rw [h2]; rfl, h3, h4⟩
      · exact ⟨[], a, b, l, s, rfl, rfl, hab, hlen⟩

/-- The value determines a digit list of given length. -/
theorem horner_injective (N : Nat) (l s : List Int) (hlen : l.length = s.length)
    (hl : ∀ d ∈ l, 0 ≤ d ∧ d < (N : Int)) (hs : ∀ d ∈ s, 0 ≤ d ∧ d < (N : Int))
    (hv : horner N l = horner N s) : l = s := by
  by_contra hne
  obtain ⟨pre, x, y, sl, ss, h1, h2, h3, h4⟩ := exists_first_diff l s hlen hne
  subst h1 h2
  have hsl : ∀ d ∈ sl, 0 ≤ d ∧ d < (N : Int) := fun d hd => hl d (by simp [hd])
  have hss : ∀ d ∈ ss, 0 ≤ d ∧ d < (N : Int) := fun d hd => hs d (by simp [hd])
  rcases lt_or_gt_of_ne h3 with h | h
  · have := horner_lt_of_first_diff N pre sl ss x y h4 hsl hss h
    omega
  · have := horner_lt_of_first_diff N pre ss sl y x h4.symm hss hsl h
    omega

theorem eq_of_rowsOf_colsOf (p q : Positions) (hr : rowsOf p = rowsOf q)
    (hc : colsOf p = colsOf q) : p = q := by
  induction p generalizing q with
  | nil =>
    cases q with
    | nil => rfl
    | cons b q => simp [rowsOf] at hr
  | cons a p ih =>
    cases q with
    | nil => simp [rowsOf] at hr
    | cons b q =>
      simp only [rowsOf, colsOf, List.map_cons, List.cons.injEq] at hr hc
      rw [ih q hr.2 hc.2, Prod.ext hr.1 hc.1]

/-- The sum formula for the value agrees with the Horner scheme. -/
theorem value_eq_horner (N : Nat) (p : Positions) (hlen : p.length = N) :
    value N p = horner N (colsOf p) := by
  unfold value
  have key : ∀ (B : Int) (q : Positions),
      ∑ i in Finset.range q.length, (posAt q i).2 * B ^ (q.length - 1 - i) =
        horner B (colsOf q) := by
    intro B q
    induction q using List.reverseRecOn with
    | nil => simp [horner, colsOf]
    | append_singleton l x ih =>
      rw [colsOf_append, show colsOf [x] = [x.2] from rfl, horner_append_singleton, ← ih,
        List.length_append, List.length_singleton, Finset.sum_range_succ, Finset.sum_mul,
        posAt_append_length]
      congr 1
      · apply Finset.sum_congr rfl
        intro i hi
        rw [Finset.mem_range] at hi
        rw [posAt_append_left l [x] i hi, mul_assoc, ← pow_succ]
        congr 2
        omega
      · simp
  rw [← key, hlen]

/-! ## The enumeration loop -/

theorem nextCombination_wellFormed (N : Nat) (p : Positions) (h : WellFormed N p) :
    WellFormed N (nextCombination p N).2 ∧
    (((nextCombination p N).1 = 1 ∧
        horner N (colsOf (nextCombination p N).2) = horner N (colsOf p) + 1) ∨
     ((nextCombination p N).1 = 0 ∧ horner N (colsOf p) + 1 = (N : Int) ^ N ∧
        ∀ x ∈ (nextCombination p N).2, x.2 = 0)) := by
  obtain ⟨hlen, hrows, hin⟩ := h
  have := nextCombinationFrom_spec N p hin
  rw [hlen] at this
  obtain ⟨h1, h2, h3, h4⟩ := this
  exact ⟨⟨h2, by rw [← hrows]; exact h1, h3⟩, h4⟩

theorem wellFormed_bounds (N : Nat) (p : Positions) (h : WellFormed N p) :
    0 ≤ horner N (colsOf p) ∧ horner N (colsOf p) + 1 ≤ (N : Int) ^ N := by
  have := horner_bounds N p h.2.2
  rwa [h.1] at this

theorem wellFormed_eq_of_horner (N : Nat) (p q : Positions) (hp : WellFormed N p)
    (hq : WellFormed N q) (hv : horner N (colsOf p) = horner N (colsOf q)) : p = q := by
  apply eq_of_rowsOf_colsOf
  · rw [hp.2.1, hq.2.1]
  · apply horner_injective N _ _ _ ((inRange_iff_colsOf N p).1 hp.2.2)
      ((inRange_iff_colsOf N q).1 hq.2.2) hv
    simp [colsOf, hp.1, hq.1]

theorem length_trail (N m : Nat) (p : Positions) : (trail N m p).length = m := by
  induction m generalizing p with
  | zero => rfl
  | succ m ih => simp [trail, ih]

/-- The arrays of a trail are candidates and their values are consecutive. -/
theorem trail_spec (N m : Nat) (p : Positions) (hp : WellFormed N p)
    (hm : horner N (colsOf p) + m ≤ (N : Int) ^ N) :
    (∀ q ∈ trail N m p, WellFormed N q) ∧
    (trail N m p).map (fun q => horner N (colsOf q)) =
      (List.range m).map (fun (k : Nat) => horner N (colsOf p) + (k : Int)) := by
  induction m generalizing p with
  | zero => simp [trail]
  | succ m ih =>
    obtain ⟨hwf, hcase⟩ := nextCombination_wellFormed N p hp
    cases m with
    | zero => simp [trail, hp, List.range_succ]
    | succ m =>
      have hval : horner N (colsOf (nextCombination p N).2) = horner N (colsOf p) + 1 := by
        rcases hcase with ⟨-, h⟩ | ⟨-, h, -⟩
        · exact h
        · push_cast at hm; omega
      obtain ⟨ih1, ih2⟩ := ih (nextCombination p N).2 hwf (by rw [hval]; push_cast at hm ⊢; omega)
      constructor
      · intro q hq
        rw [trail, List.mem_cons] at hq
        rcases hq with rfl | hq
        · exact hp
        · exact ih1 q hq
      · rw [trail, List.map_cons, ih2, List.range_succ_eq_map (m + 1), List.map_cons,
          List.map_map, hval]
        congr 1
        · simp
        · apply List.map_congr_left
          intro k _
          simp only [Function.comp, Nat.succ_eq_add_one]
          push_cast; ring

theorem mem_trail_iff (N m : Nat) (p : Positions) (hp : WellFormed N p)
    (hm : horner N (colsOf p) + m ≤ (N : Int) ^ N) (q : Positions) :
    q ∈ trail N m p ↔ WellFormed N q ∧ horner N (colsOf p) ≤ horner N (colsOf q) ∧
      horner N (colsOf q) < horner N (colsOf p) + m := by
  obtain ⟨h1, h2⟩ := trail_spec N m p hp hm
  constructor
  · intro hq
    have : horner N (colsOf q) ∈ (trail N m p).map (fun q => horner N (colsOf q)) :=
      List.mem_map_of_mem _ hq
    rw [h2, List.mem_map] at this
    obtain ⟨k, hk, hk2⟩ := this
    rw [List.mem_range] at hk
    exact ⟨h1 q hq, by omega, by omega⟩
  · rintro ⟨hq, hlo, hhi⟩
    have : horner N (colsOf q) ∈ (List.range m).map (fun (k : Nat) => horner N (colsOf p) + (k : Int)) := by
      rw [List.mem_map]
      refine ⟨(horner N (colsOf q) - horner N (colsOf p)).toNat, ?_, ?_⟩
      · rw [List.mem_range]; omega
      · omega
    rw [← h2, List.mem_map] at this
    obtain ⟨t, ht, htv⟩ := this
    rw [← wellFormed_eq_of_horner N t q (h1 t ht) hq htv]
    exact ht

theorem nodup_trail (N m : Nat) (p : Positions) (hp : WellFormed N p)
    (hm : horner N (colsOf p) + m ≤ (N : Int) ^ N) : (trail N m p).Nodup := by
  obtain ⟨-, h2⟩ := trail_spec N m p hp hm
  apply List.Nodup.of_map (fun q => horner N (colsOf q))
  rw [h2]
  apply List.Nodup.map _ (List.nodup_range m)
  intro a b hab
  simp only at hab
  omega

theorem countValid_append (N : Nat) (l s : List Positions) :
    countValid N (l ++ s) = countValid N l + countValid N s := by
  simp [countValid]

theorem countValid_singleton (N : Nat) (p : Positions) :
    countValid N [p] = if isValidSolution N p ≠ 0 then 1 else 0 := by
  by_cases hv : isValidSolution N p = 0 <;> simp [hv, countValid]

/-- One pass through the counting statement of the loop body. -/
theorem count_step (N : Nat) (p : Positions) (c : Int) (hc : wrap32 c = c) :
    wrap32 (if isValidSolution N p ≠ 0 then wrap32 (c + 1) else c) =
        (if isValidSolution N p ≠ 0 then wrap32 (c + 1) else c) ∧
    ∀ k : Nat, wrap32 ((if isValidSolution N p ≠ 0 then wrap32 (c + 1) else c) + (k : Int)) =
      wrap32 (c + ((countValid N [p] + k : Nat) : Int)) := by
  rw [countValid_singleton]
  by_cases hv : isValidSolution N p ≠ 0
  · rw [if_pos hv, if_pos hv]
    refine ⟨wrap32_idem _, ?_⟩
    intro k
    rw [wrap32_add_left]
    congr 1
    push_cast; ring
  · rw [if_neg hv, if_neg hv]
    refine ⟨hc, ?_⟩
    intro k
    congr 1
    push_cast; ring

/-- The loop started on a candidate with `m + 1` values left runs `m + 1` iterations: it
tests the trail of the candidate and counts the accepted arrays in a 32-bit counter. -/
theorem enumerate_eq (N m : Nat) (p : Positions) (hp : WellFormed N p)
    (hm : horner N (colsOf p) + ((m : Int) + 1) = (N : Int) ^ N)
    (fuel : Nat) (hfuel : m < fuel) (c : Int) (hc : wrap32 c = c) (log : List Positions) :
    enumerate N fuel p c log =
      some (wrap32 (c + ((countValid N (trail N (m + 1) p) : Nat) : Int)),
        log ++ trail N (m + 1) p) := by
  induction m generalizing p fuel c log with
  | zero =>
    obtain ⟨hwf, hcase⟩ := nextCombination_wellFormed N p hp
    have hret : (nextCombination p N).1 = 0 := by
      rcases hcase with ⟨-, h⟩ | ⟨h, -⟩
      · have := (wellFormed_bounds N _ hwf).2
        simp only [Nat.cast_zero, zero_add] at hm
        omega
      · exact h
    cases fuel with
    | zero => omega
    | succ fuel =>
      obtain ⟨h1, h2⟩ := count_step N p c hc
      have h3 := h2 0
      rw [Nat.cast_zero, add_zero, h1, Nat.add_zero] at h3
      simp only [enumerate, hret, ne_eq, not_true_eq_false, if_false, trail]
      rw [← h3]
  | succ m ih =>
    obtain ⟨hwf, hcase⟩ := nextCombination_wellFormed N p hp
    have hret : (nextCombination p N).1 = 1 ∧
        horner N (colsOf (nextCombination p N).2) = horner N (colsOf p) + 1 := by
      rcases hcase with h | ⟨-, h, -⟩
      · exact h
      · push_cast at hm; omega
    cases fuel with
    | zero => omega
    | succ fuel =>
      obtain ⟨h1, h2⟩ := count_step N p c hc
      rw [enumerate]
      simp only [hret.1, ne_eq, one_ne_zero, not_false_eq_true, if_true]
      rw [ih _ hwf (by rw [hret.2]; push_cast at hm ⊢; omega) fuel (by omega) _ h1]
      have htr : trail N (m + 1 + 1) p = [p] ++ trail N (m + 1) (nextCombination p N).2 := rfl
      rw [htr, countValid_append, List.append_assoc, h2]

/-! ## The seeds and the runs of the three enumerators -/

theorem posAt_snd (q : Positions) (k : Nat) : (posAt q k).2 = (colsOf q).getD k 0 := by
  unfold posAt colsOf
  rw [List.getD_eq_getElem?_getD, List.getD_eq_getElem?_getD, List.getElem?_map]
  cases q[k]? <;> rfl

theorem posAt_fst (q : Positions) (k : Nat) : (posAt q k).1 = (rowsOf q).getD k 0 := by
  unfold posAt rowsOf
  rw [List.getD_eq_getElem?_getD, List.getD_eq_getElem?_getD, List.getElem?_map]
  cases q[k]? <;> rfl

theorem getD_range_map_cast (N k : Nat) (h : k < N) :
    ((List.range N).map (fun (i : Nat) => (i : Int))).getD k 0 = (k : Int) := by
  rw [List.getD_eq_getElem?_getD, List.getElem?_map, List.getElem?_range h]
  rfl

theorem wellFormed_posAt_fst (N : Nat) (q : Positions) (h : WellFormed N q) (k : Nat)
    (hk : k < N) : (posAt q k).1 = (k : Int) := by
  rw [posAt_fst, h.2.1, getD_range_map_cast N k hk]

theorem wellFormed_seedZero (N : Nat) : WellFormed N (seedZero N) := by
  refine ⟨by simp [seedZero], by simp [seedZero, rowsOf], ?_⟩
  intro x hx
  simp only [seedZero, List.mem_map, List.mem_range] at hx
  obtain ⟨i, hi, rfl⟩ := hx
  simp only
  omega

theorem wellFormed_seedDiag (N : Nat) : WellFormed N (seedDiag N) := by
  refine ⟨by simp [seedDiag], by simp [seedDiag, rowsOf], ?_⟩
  intro x hx
  simp only [seedDiag, List.mem_map, List.mem_range] at hx
  obtain ⟨i, hi, rfl⟩ := hx
  simp only
  omega

theorem colsOf_seedDiag (N : Nat) :
    colsOf (seedDiag N) = (List.range N).map (fun (i : Nat) => (i : Int)) := by
  simp [seedDiag, colsOf]

theorem horner_seedZero (N : Nat) : horner N (colsOf (seedZero N)) = 0 := by
  have h : ∀ n : Nat, horner N ((List.range n).map (fun (_ : Nat) => (0 : Int))) = 0 := by
    intro n
    induction n with
    | zero => simp [horner]
    | succ n ih => rw [List.range_succ, List.map_append, List.map_singleton,
        horner_append_singleton, ih]; simp
  have hc : colsOf (seedZero N) = (List.range N).map (fun (_ : Nat) => (0 : Int)) := by
    simp only [seedZero, colsOf, List.map_map]
    rfl
  rw [hc, h]

/-- Number of loop iterations of `optimizedTwo`: the values from the seed's up to the
largest one. -/
theorem seedDiag_remaining (N : Nat) :
    horner N (colsOf (seedDiag N)) +
      (((((N : Int) ^ N - horner N (colsOf (seedDiag N)) - 1).toNat : Nat) : Int) + 1) =
      (N : Int) ^ N := by
  have := wellFormed_bounds N _ (wellFormed_seedDiag N)
  omega

theorem one_le_pow_self (N : Nat) : 1 ≤ N ^ N := by
  have := wellFormed_bounds N _ (wellFormed_seedZero N)
  rw [horner_seedZero] at this
  have h : (1 : Int) ≤ ((N ^ N : Nat) : Int) := by push_cast; omega
  exact_mod_cast h

theorem wrap32_zero : wrap32 0 = 0 := by decide

/-- With at least `N ^ N` units of fuel, `bruteForce` tests the whole trail of its seed
and reports the number of accepted arrays as a 32-bit value. -/
theorem bruteForceRun_eq (N fuel : Nat) (hfuel : N ^ N ≤ fuel) :
    bruteForceRun fuel N =
      some (wrap32 ((countValid N (trail N (N ^ N) (seedZero N)) : Nat) : Int),
        trail N (N ^ N) (seedZero N)) := by
  have h1 := one_le_pow_self N
  have := enumerate_eq N (N ^ N - 1) (seedZero N) (wellFormed_seedZero N)
    (by rw [horner_seedZero]; have : (((N ^ N - 1 : Nat) : Int) + 1) = ((N ^ N : Nat) : Int) := by
          omega
        rw [zero_add, this]; push_cast; rfl)
    fuel (by omega) 0 wrap32_zero []
  rw [show N ^ N - 1 + 1 = N ^ N by omega, zero_add] at this
  simpa [bruteForceRun] using this

/-- With at least `N ^ N` units of fuel, `optimizedTwo` tests the trail of its seed up to
the largest value and reports the number of accepted arrays as a 32-bit value. -/
theorem optimizedTwoRun_eq (N fuel : Nat) (hfuel : N ^ N ≤ fuel) :
    optimizedTwoRun fuel N =
      some (wrap32 ((countValid N (trail N
              (((N : Int) ^ N - horner N (colsOf (seedDiag N)) - 1).toNat + 1)
                (seedDiag N)) : Nat) : Int),
            trail N (((N : Int) ^ N - horner N (colsOf (seedDiag N)) - 1).toNat + 1)
              (seedDiag N)) := by
  have hb := wellFormed_bounds N _ (wellFormed_seedDiag N)
  have := enumerate_eq N (((N : Int) ^ N - horner N (colsOf (seedDiag N)) - 1).toNat)
    (seedDiag N) (wellFormed_seedDiag N) (seedDiag_remaining N) fuel
    (by
      have h : (((N ^ N : Nat) : Int)) = (N : Int) ^ N := by push_cast; rfl
      omega)
    0 wrap32_zero []
  rw [zero_add] at this
  simpa [optimizedTwoRun] using this

theorem mem_trail_seedZero (N : Nat) (q : Positions) :
    q ∈ trail N (N ^ N) (seedZero N) ↔ WellFormed N q := by
  rw [mem_trail_iff N (N ^ N) (seedZero N) (wellFormed_seedZero N)
    (by rw [horner_seedZero]; push_cast; omega)]
  rw [horner_seedZero]
  constructor
  · exact fun h => h.1
  · intro h
    have := wellFormed_bounds N q h
    refine ⟨h, this.1, ?_⟩
    push_cast; omega

theorem mem_trail_seedDiag (N : Nat) (q : Positions) :
    q ∈ trail N (((N : Int) ^ N - horner N (colsOf (seedDiag N)) - 1).toNat + 1) (seedDiag N) ↔
      WellFormed N q ∧ horner N (colsOf (seedDiag N)) ≤ horner N (colsOf q) := by
  have hb := wellFormed_bounds N _ (wellFormed_seedDiag N)
  rw [mem_trail_iff N _ (seedDiag N) (wellFormed_seedDiag N) (by push_cast; omega)]
  constructor
  · exact fun h => ⟨h.1, h.2.1⟩
  · rintro ⟨h1, h2⟩
    have := wellFormed_bounds N q h1
    refine ⟨h1, h2, ?_⟩
    push_cast; omega

/-- A candidate that `isValidSolution` accepts is not below the seed of `optimizedTwo`:
below the seed, the first digit that differs from the seed repeats an earlier digit. -/
theorem seedDiag_le_of_valid (N : Nat) (q : Positions) (hq : WellFormed N q)
    (hv : isValidSolution N q ≠ 0) :
    horner N (colsOf (seedDiag N)) ≤ horner N (colsOf q) := by
  by_contra hlt
  rw [not_le] at hlt
  have hqin := (inRange_iff_colsOf N q).1 hq.2.2
  have hsin := (inRange_iff_colsOf N _).1 (wellFormed_seedDiag N).2.2
  have hlenq : (colsOf q).length = N := by simp [colsOf, hq.1]
  have hlens : (colsOf (seedDiag N)).length = N := by simp [colsOf, (wellFormed_seedDiag N).1]
  have hne : colsOf q ≠ colsOf (seedDiag N) := fun h => by rw [h] at hlt; exact lt_irrefl _ hlt
  obtain ⟨pre, x, y, sl, ss, h1, h2, h3, h4⟩ :=
    exists_first_diff (colsOf q) (colsOf (seedDiag N)) (by rw [hlenq, hlens]) hne
  have hsl : ∀ d ∈ sl, 0 ≤ d ∧ d < (N : Int) := fun d hd => hqin d (by rw [h1]; simp [hd])
  have hss : ∀ d ∈ ss, 0 ≤ d ∧ d < (N : Int) := fun d hd => hsin d (by rw [h2]; simp [hd])
  have hxy : x < y := by
    rcases lt_or_gt_of_ne h3 with h | h
    · exact h
    · have := horner_lt_of_first_diff N pre ss sl y x h4.symm hss hsl h
      rw [← h1, ← h2] at this
      omega
  have hpreN : pre.length < N := by
    have : (colsOf q).length = pre.length + (sl.length + 1) := by rw [h1]; simp
    omega
  have hy : y = (pre.length : Int) := by
    have e1 : (colsOf (seedDiag N)).getD pre.length 0 = y := by
      rw [h2, List.getD_eq_getElem?_getD, List.getElem?_append_right (le_refl _)]; simp
    rw [← e1, colsOf_seedDiag, getD_range_map_cast N _ hpreN]
  have hx0 : 0 ≤ x := (hqin x (by rw [h1]; simp)).1
  have hj : x.toNat < pre.length := by omega
  have hqi : (posAt q pre.length).2 = x := by
    rw [posAt_snd, h1, List.getD_eq_getElem?_getD, List.getElem?_append_right (le_refl _)]; simp
  have hqj : (posAt q x.toNat).2 = x := by
    rw [posAt_snd, h1, List.getD_append _ _ _ _ hj, ← List.getD_append pre (y :: ss) 0 _ hj,
      ← h2, colsOf_seedDiag, getD_range_map_cast N _ (by omega)]
    omega
  apply hv
  rw [isValidSolution_eq_zero_iff_conflict]
  exact ⟨x.toNat, pre.length, hj, hpreN, conflict_of_col_eq _ _ (by rw [hqi, hqj])⟩

theorem countValid_eq_of_mem_iff (N : Nat) (l s : List Positions) (hl : l.Nodup) (hs : s.Nodup)
    (h : ∀ q, isValidSolution N q ≠ 0 → (q ∈ l ↔ q ∈ s)) :
    countValid N l = countValid N s := by
  unfold countValid
  apply List.Perm.length_eq
  rw [List.perm_ext_iff_of_nodup (hl.filter _) (hs.filter _)]
  intro q
  simp only [List.mem_filter, decide_eq_true_eq]
  constructor
  · rintro ⟨h1, h2⟩; exact ⟨(h q h2).1 h1, h2⟩
  · rintro ⟨h1, h2⟩; exact ⟨(h q h2).2 h1, h2⟩

/-- The counts of `bruteForce` and `optimizedTwo` agree: the candidates that the second
one leaves out are all rejected. -/
theorem countValid_seedDiag_eq (N : Nat) :
    countValid N (trail N (((N : Int) ^ N - horner N (colsOf (seedDiag N)) - 1).toNat + 1)
      (seedDiag N)) = countValid N (trail N (N ^ N) (seedZero N)) := by
  have hb := wellFormed_bounds N _ (wellFormed_seedDiag N)
  apply countValid_eq_of_mem_iff
  · exact nodup_trail N _ _ (wellFormed_seedDiag N) (by push_cast; omega)
  · exact nodup_trail N _ _ (wellFormed_seedZero N) (by rw [horner_seedZero]; push_cast; omega)
  · intro q hv
    rw [mem_trail_seedDiag, mem_trail_seedZero]
    constructor
    · exact fun h => h.1
    · exact fun h => ⟨h, seedDiag_le_of_valid N q h hv⟩

/-! ## Further facts about the odometer and the candidates tested -/

theorem stateAfter_spec (N k : Nat) (hk : k < N ^ N) :
    WellFormed N (stateAfter N k) ∧ horner N (colsOf (stateAfter N k)) = (k : Int) := by
  induction k with
  | zero => exact ⟨wellFormed_seedZero N, by simpa using horner_seedZero N⟩
  | succ k ih =>
    obtain ⟨hwf, hv⟩ := ih (by omega)
    obtain ⟨hwf2, hcase⟩ := nextCombination_wellFormed N _ hwf
    refine ⟨hwf2, ?_⟩
    have hpow : (((N ^ N : Nat) : Int)) = (N : Int) ^ N := by push_cast; rfl
    rcases hcase with ⟨-, h⟩ | ⟨-, h, -⟩
    · rw [stateAfter, h, hv]; push_cast; rfl
    · omega

/-- The return value of the call that follows `k` earlier calls from the all-zero seed. -/
theorem nextCombination_stateAfter (N k : Nat) (hk : k < N ^ N) :
    (nextCombination (stateAfter N k) N).1 = if k + 1 < N ^ N then 1 else 0 := by
  obtain ⟨hwf, hv⟩ := stateAfter_spec N k hk
  obtain ⟨hwf2, hcase⟩ := nextCombination_wellFormed N _ hwf
  have hb := wellFormed_bounds N _ hwf2
  have hpow : (((N ^ N : Nat) : Int)) = (N : Int) ^ N := by push_cast; rfl
  by_cases h : k + 1 < N ^ N
  · rw [if_pos h]
    rcases hcase with ⟨h1, -⟩ | ⟨-, h1, -⟩
    · exact h1
    · omega
  · rw [if_neg h]
    rcases hcase with ⟨-, h1⟩ | ⟨h1, -⟩
    · omega
    · exact h1

theorem inCube_colsOf (N : Nat) (p : Positions) (h : WellFormed N p) : InCube N (colsOf p) :=
  ⟨by simp [colsOf, h.1], (inRange_iff_colsOf N p).1 h.2.2⟩

theorem inCube_bounds (N : Nat) (v : List Int) (h : InCube N v) :
    0 ≤ horner N v ∧ horner N v + 1 ≤ (N : Int) ^ N := by
  have := horner_digits_bounds N v h.2
  rwa [h.1] at this

theorem occurrences_of_nodup {α : Type} [DecidableEq α] (v : α) (l : List α) (h : l.Nodup) :
    occurrences v l = if v ∈ l then 1 else 0 := by
  unfold occurrences
  induction l with
  | nil => simp
  | cons a l ih =>
    rw [List.nodup_cons] at h
    rw [List.filter_cons]
    by_cases hav : a = v
    · subst hav
      have h0 := ih h.2
      rw [if_neg h.1] at h0
      simp [h0]
    · have : ¬ (v = a ∨ v ∈ l) ↔ ¬ v ∈ l := by
        constructor
        · exact fun hh hm => hh (Or.inr hm)
        · rintro hh (he | hm)
          · exact hav he.symm
          · exact hh hm
      simp only [hav, decide_False, Bool.false_eq_true, if_false, ih h.2, List.mem_cons]
      by_cases hm : v ∈ l
      · rw [if_pos hm, if_pos (Or.inr hm)]
      · rw [if_neg hm, if_neg (this.2 hm)]

/-- Each element of `[0, N)^N` occurs among the column vectors of a trail once if its
value lies in the range of values of the trail, and not at all otherwise. -/
theorem count_trail_cols (N m : Nat) (p : Positions) (hp : WellFormed N p)
    (hm : horner N (colsOf p) + m ≤ (N : Int) ^ N) (v : List Int) (hv : InCube N v) :
    occurrences v ((trail N m p).map colsOf) =
      if horner N (colsOf p) ≤ horner N v ∧ horner N v < horner N (colsOf p) + m then 1
      else 0 := by
  obtain ⟨h1, h2⟩ := trail_spec N m p hp hm
  have hnd : ((trail N m p).map colsOf).Nodup := by
    apply List.Nodup.of_map (horner N)
    rw [List.map_map]
    have : (horner (N : Int) ∘ colsOf) = (fun q => horner N (colsOf q)) := rfl
    rw [this, h2]
    apply List.Nodup.map _ (List.nodup_range m)
    intro a b hab
    simp only at hab
    omega
  rw [occurrences_of_nodup v _ hnd]
  by_cases hr : horner N (colsOf p) ≤ horner N v ∧ horner N v < horner N (colsOf p) + m
  · rw [if_pos hr, if_pos]
    have : horner N v ∈ (List.range m).map (fun (k : Nat) => horner N (colsOf p) + (k : Int)) := by
      rw [List.mem_map]
      refine ⟨(horner N v - horner N (colsOf p)).toNat, ?_, ?_⟩
      · rw [List.mem_range]; omega
      · omega
    rw [← h2, List.mem_map] at this
    obtain ⟨t, ht, htv⟩ := this
    rw [List.mem_map]
    refine ⟨t, ht, ?_⟩
    have hc := inCube_colsOf N t (h1 t ht)
    exact horner_injective N _ _ (by rw [hc.1, hv.1]) hc.2 hv.2 htv
  · rw [if_neg hr, if_neg]
    intro hmem
    rw [List.mem_map] at hmem
    obtain ⟨t, ht, rfl⟩ := hmem
    exact hr ((mem_trail_iff N m p hp hm t).1 ht).2

theorem horner_replicate_max (N n : Nat) :
    horner N (List.replicate n ((N : Int) - 1)) = (N : Int) ^ n - 1 := by
  induction n with
  | zero => simp [horner]
  | succ n ih =>
    rw [List.replicate_succ', horner_append_singleton, ih, pow_succ]
    ring

/-- The largest value belongs to the array whose digits are all `N - 1`. -/
theorem horner_eq_max_iff (N : Nat) (hN : 1 ≤ N) (p : Positions) (h : InRange N p) :
    horner N (colsOf p) = (N : Int) ^ p.length - 1 ↔ ∀ x ∈ p, x.2 = (N : Int) - 1 := by
  constructor
  · intro hv x hx
    have hc : colsOf p = List.replicate p.length ((N : Int) - 1) := by
      apply horner_injective N _ _ (by simp [colsOf]) ((inRange_iff_colsOf N p).1 h)
      · intro d hd
        rw [List.mem_replicate] at hd
        omega
      · rw [hv, horner_replicate_max]
    have : x.2 ∈ colsOf p := List.mem_map_of_mem _ hx
    rw [hc, List.mem_replicate] at this
    exact this.2
  · intro hall
    have hc : colsOf p = List.replicate p.length ((N : Int) - 1) := by
      rw [List.eq_replicate_iff]
      refine ⟨by simp [colsOf], ?_⟩
      intro d hd
      simp only [colsOf, List.mem_map] at hd
      obtain ⟨x, hx, rfl⟩ := hd
      exact hall x hx
    rw [hc, horner_replicate_max]

/-! ## Boards -/

theorem set_getD_self {α : Type} (l : List α) (i : Nat) (d : α) (h : i < l.length) :
    l.set i (l.getD i d) = l := by
  apply List.ext_getElem?
  intro j
  rw [List.getElem?_set]
  by_cases hij : i = j
  · subst hij
    rw [if_pos rfl, if_pos h, List.getD_eq_getElem _ _ h, List.getElem?_eq_getElem h]
  · rw [if_neg hij]

theorem isBoard_row_length (N : Nat) (b : Board) (h : IsBoard N b) (i : Nat) (hi : i < N) :
    (b.getD i []).length = N := by
  have hi2 : i < b.length := by rw [h.1]; exact hi
  rw [List.getD_eq_getElem _ _ hi2]
  exact h.2 _ (List.getElem_mem hi2)

theorem isBoard_setCell (N : Nat) (b : Board) (h : IsBoard N b) (i j : Nat) (v : Int)
    (hi : i < N) : IsBoard N (setCell b i j v) := by
  refine ⟨by simp [setCell, h.1], ?_⟩
  intro r hr
  unfold setCell at hr
  rcases List.mem_or_eq_of_mem_set hr with hr | rfl
  · exact h.2 r hr
  · rw [List.length_set]; exact isBoard_row_length N b h i hi

theorem cell_setCell (N : Nat) (b : Board) (h : IsBoard N b) (i j : Nat) (v : Int)
    (hi : i < N) (hj : j < N) (r c : Nat) :
    cell (setCell b i j v) r c = if r = i ∧ c = j then v else cell b r c := by
  have hi2 : i < b.length := by rw [h.1]; exact hi
  have hrow := isBoard_row_length N b h i hi
  unfold cell setCell
  rw [List.getD_eq_getElem?_getD (b.set i _), List.getElem?_set]
  by_cases hri : i = r
  · subst hri
    rw [if_pos rfl, if_pos hi2, Option.getD_some, List.getD_eq_getElem?_getD (List.set _ _ _),
      List.getElem?_set]
    by_cases hcj : j = c
    · subst hcj
      rw [if_pos rfl, if_pos (by rw [hrow]; exact hj), if_pos ⟨rfl, rfl⟩, Option.getD_some]
    · rw [if_neg hcj, if_neg (fun hh => hcj hh.2.symm), ← List.getD_eq_getElem?_getD]
  · rw [if_neg hri, if_neg (fun hh => hri hh.1.symm), ← List.getD_eq_getElem?_getD]

/-- Writing a cell and then writing its old content back restores the board. -/
theorem setCell_restore (N : Nat) (b : Board) (h : IsBoard N b) (i j : Nat) (v : Int)
    (hi : i < N) (hj : j < N) :
    setCell (setCell b i j v) i j (cell b i j) = b := by
  have hi2 : i < b.length := by rw [h.1]; exact hi
  have hrow := isBoard_row_length N b h i hi
  have e : (b.set i ((b.getD i []).set j v)).getD i [] = (b.getD i []).set j v := by
    rw [List.getD_eq_getElem?_getD, List.getElem?_set, if_pos rfl, if_pos hi2, Option.getD_some]
  unfold setCell cell
  rw [e, List.set_set, List.set_set, set_getD_self _ _ _ (by rw [hrow]; exact hj),
    set_getD_self _ _ _ hi2]

theorem isBoard_createChessBoard (N : Nat) : IsBoard N (createChessBoard N) := by
  refine ⟨by simp [createChessBoard], ?_⟩
  intro r hr
  rw [createChessBoard, List.mem_replicate] at hr
  rw [hr.2, List.length_replicate]

theorem cell_createChessBoard (N r c : Nat) : cell (createChessBoard N) r c = 0 := by
  unfold cell createChessBoard
  rw [List.getD_eq_getElem?_getD, List.getD_eq_getElem?_getD, List.getElem?_replicate]
  by_cases hr : r < N
  · rw [if_pos hr, Option.getD_some, List.getElem?_replicate]
    by_cases hc : c < N
    · rw [if_pos hc]; rfl
    · rw [if_neg hc]; rfl
  · rw [if_neg hr]; rfl

theorem represents_createChessBoard (N : Nat) : Represents N (createChessBoard N) [] := by
  refine ⟨isBoard_createChessBoard N, by simp, ?_⟩
  intro r c _ _
  simp [cell_createChessBoard]

theorem getD_append_length_nat (qs : List Nat) (row : Nat) :
    (qs ++ [row]).getD qs.length 0 = row := by
  rw [List.getD_eq_getElem?_getD, List.getElem?_append_right (le_refl _)]; simp

/-- Placing a queen in the first free column extends the represented placement. -/
theorem represents_setCell (N : Nat) (b : Board) (qs : List Nat) (h : Represents N b qs)
    (row : Nat) (hrow : row < N) (hcol : qs.length < N) :
    Represents N (setCell b row qs.length 1) (qs ++ [row]) := by
  obtain ⟨hb, hq, hc⟩ := h
  refine ⟨isBoard_setCell N b hb _ _ _ hrow, ?_, ?_⟩
  · intro x hx
    rcases List.mem_append.1 hx with hx | hx
    · exact hq x hx
    · rw [List.mem_singleton] at hx; omega
  · intro r c hr hcN
    rw [cell_setCell N b hb _ _ _ hrow hcol, hc r c hr hcN, List.length_append,
      List.length_singleton]
    by_cases hcl : c < qs.length
    · rw [List.getD_append _ _ _ _ hcl]
      have : ¬ (r = row ∧ c = qs.length) := fun hh => by omega
      rw [if_neg this]
      by_cases hqr : qs.getD c 0 = r
      · rw [if_pos ⟨hcl, hqr⟩, if_pos ⟨by omega, hqr⟩]
      · rw [if_neg (fun hh => hqr hh.2), if_neg (fun hh => hqr hh.2)]
    · by_cases hce : c = qs.length
      · subst hce
        rw [getD_append_length_nat]
        by_cases hrr : r = row
        · rw [if_pos ⟨hrr, rfl⟩, if_pos ⟨by omega, hrr.symm⟩]
        · rw [if_neg (fun hh => hrr hh.1), if_neg (fun hh => hcl hh.1),
            if_neg (fun hh => hrr hh.2.symm)]
      · rw [if_neg (fun hh => hce hh.2), if_neg (fun hh => hcl hh.1),
          if_neg (fun hh => by omega)]

/-- On a board that holds a partial placement, the checker accepts a cell of the first
free column exactly when the placement leaves it safe. -/
theorem isValidBacktracking_represents (N : Nat) (b : Board) (qs : List Nat)
    (h : Represents N b qs) (row : Nat) (hrow : row < N) (hcol : qs.length < N) :
    isValidBacktracking N b row qs.length ≠ 0 ↔ safe qs row := by
  obtain ⟨hb, hq, hc⟩ := h
  rw [Ne, isValidBacktracking_eq_zero_iff]
  unfold attackedFromLeft safe
  constructor
  · intro hna c hcl
    have hqc : qs.getD c 0 < N := by
      rw [List.getD_eq_getElem _ _ hcl]; exact hq _ (List.getElem_mem hcl)
    refine ⟨?_, ?_, ?_⟩
    · intro he
      apply hna
      left
      exact ⟨c, hcl, by rw [hc row c hrow (by omega), if_pos ⟨hcl, he⟩]⟩
    · intro he
      apply hna
      right; left
      refine ⟨qs.length - c, Nat.zero_le _, by omega, by omega, ?_⟩
      rw [hc _ _ (by omega) (by omega), if_pos]
      refine ⟨by omega, ?_⟩
      rw [show qs.length - (qs.length - c) = c by omega]; omega
    · intro he
      apply hna
      right; right
      refine ⟨qs.length - c, Nat.zero_le _, by omega, by omega, ?_⟩
      rw [hc _ _ (by omega) (by omega), if_pos]
      refine ⟨by omega, ?_⟩
      rw [show qs.length - (qs.length - c) = c by omega]; omega
  · intro hs hatt
    rcases hatt with ⟨c, hcl, h1⟩ | ⟨k, -, hk1, hk2, h1⟩ | ⟨k, -, hk1, hk2, h1⟩
    · rw [hc row c hrow (by omega)] at h1
      by_cases hh : c < qs.length ∧ qs.getD c 0 = row
      · exact (hs c hcl).1 hh.2
      · rw [if_neg hh] at h1; exact absurd h1 (by decide)
    · rw [hc _ _ (by omega) (by omega)] at h1
      by_cases hh : qs.length - k < qs.length ∧ qs.getD (qs.length - k) 0 = row - k
      · exact (hs _ hh.1).2.1 (by omega)
      · rw [if_neg hh] at h1; exact absurd h1 (by decide)
    · rw [hc _ _ (by omega) (by omega)] at h1
      by_cases hh : qs.length - k < qs.length ∧ qs.getD (qs.length - k) 0 = row + k
      · exact (hs _ hh.1).2.2 (by omega)
      · rw [if_neg hh] at h1; exact absurd h1 (by decide)

/-! ## The backtracking search -/

/-- One iteration of the row loop, given what the recursive call does on the boards that
extend the placement by a safe row. -/
theorem solveRow_eq (N : Nat) (b : Board) (qs : List Nat) (h : Represents N b qs)
    (hcol : qs.length < N) (call : Board → Int → Option (Int × Board × Int))
    (ret : Int) (cnt : Nat → Nat)
    (hcall : ∀ row, row < N → safe qs row → ∀ c, wrap32 c = c →
      call (setCell b row qs.length 1) c =
        some (ret, setCell b row qs.length 1, wrap32 (c + (cnt row : Int))))
    (row : Nat) (hrow : row < N) (c : Int) (hc : wrap32 c = c) :
    solveRow N qs.length call (b, c) row =
      some (b, wrap32 (c + ((if safe qs row then cnt row else 0 : Nat) : Int))) := by
  unfold solveRow
  by_cases hs : safe qs row
  · rw [if_pos ((isValidBacktracking_represents N b qs h row hrow hcol).2 hs), if_pos hs]
    simp only
    rw [hcall row hrow hs c hc]
    simp only
    have h0 : cell b row qs.length = 0 := by
      rw [h.2.2 row qs.length hrow hcol, if_neg (fun hh => lt_irrefl _ hh.1)]
    have := setCell_restore N b h.1 row qs.length 1 hrow hcol
    rw [h0] at this
    rw [this]
  · rw [if_neg (fun hh => hs ((isValidBacktracking_represents N b qs h row hrow hcol).1 hh)),
      if_neg hs, Nat.cast_zero, add_zero, hc]

/-- The row loop over a list of rows: the board is restored and the 32-bit counter grows
by the number of completions found through each safe row. -/
theorem solveRows_eq (N : Nat) (b : Board) (qs : List Nat) (h : Represents N b qs)
    (hcol : qs.length < N) (call : Board → Int → Option (Int × Board × Int))
    (ret : Int) (cnt : Nat → Nat)
    (hcall : ∀ row, row < N → safe qs row → ∀ c, wrap32 c = c →
      call (setCell b row qs.length 1) c =
        some (ret, setCell b row qs.length 1, wrap32 (c + (cnt row : Int))))
    (rs : List Nat) (hrs : ∀ row ∈ rs, row < N) (c : Int) (hc : wrap32 c = c) :
    rs.foldlM (solveRow N qs.length call) (b, c) =
      some (b, wrap32 (c +
        (((rs.map (fun row => if safe qs row then cnt row else 0)).sum : Nat) : Int))) := by
  induction rs generalizing c with
  | nil => simp [hc]
  | cons row rs ih =>
    rw [List.foldlM_cons, solveRow_eq N b qs h hcol call ret cnt hcall row
      (hrs row (List.mem_cons_self _ _)) c hc]
    simp only [Option.bind_eq_bind, Option.some_bind]
    rw [ih (fun r hr => hrs r (List.mem_cons_of_mem _ hr)) _ (wrap32_idem _), wrap32_add_left]
    simp only [List.map_cons, List.sum_cons]
    congr 3
    push_cast; ring

theorem length_extendAll_succ (N k : Nat) (qs : List Nat) :
    (extendAll N (k + 1) qs).length =
      ((List.range N).map (fun row =>
        if safe qs row then (extendAll N k (qs ++ [row])).length else 0)).sum := by
  rw [extendAll, List.length_flatMap]
  congr 1
  apply List.map_congr_left
  intro row _
  simp only [Function.comp]
  split <;> simp

/-- The search started on a board that holds a partial placement of `N - k` columns, with
more than `k` levels of recursion available, restores the board and adds the number of
completions of the placement to the 32-bit counter. -/
theorem solveBacktrackingFuel_eq (N k : Nat) (qs : List Nat) (b : Board) (c : Int)
    (fuel : Nat) (h : Represents N b qs) (hk : qs.length + k = N) (hfuel : k < fuel)
    (hc : wrap32 c = c) :
    solveBacktrackingFuel N fuel b qs.length c =
      some (if k = 0 then 1 else 0, b, wrap32 (c + ((extendAll N k qs).length : Int))) := by
  induction k generalizing qs b c fuel with
  | zero =>
    cases fuel with
    | zero => omega
    | succ fuel =>
      rw [solveBacktrackingFuel, if_pos (by omega)]
      simp [extendAll]
  | succ k ih =>
    cases fuel with
    | zero => omega
    | succ fuel =>
      have hcol : qs.length < N := by omega
      rw [solveBacktrackingFuel, if_neg (by omega)]
      have hcall : ∀ row, row < N → safe qs row → ∀ c', wrap32 c' = c' →
          (fun b' c'' => solveBacktrackingFuel N fuel b' (qs.length + 1) c'')
              (setCell b row qs.length 1) c' =
            some (if k = 0 then 1 else 0, setCell b row qs.length 1,
              wrap32 (c' + (((extendAll N k (qs ++ [row])).length : Nat) : Int))) := by
        intro row hrow _ c' hc'
        have := ih (qs ++ [row]) (setCell b row qs.length 1) c' fuel
          (represents_setCell N b qs h row hrow hcol) (by simp; omega) (by omega) hc'
        simpa using this
      rw [solveRows_eq N b qs h hcol
        (fun b' c'' => solveBacktrackingFuel N fuel b' (qs.length + 1) c'')
        (if k = 0 then 1 else 0)
        (fun row => (extendAll N k (qs ++ [row])).length) hcall (List.range N)
        (fun row hr => List.mem_range.1 hr) c hc, length_extendAll_succ]
      simp

/-- The function `backtracking` on the empty board: it returns the empty board and, as a
32-bit value, the number of complete placements built column by column through safe
rows. -/
theorem backtracking_eq (N : Nat) :
    backtracking N (createChessBoard N) =
      some (createChessBoard N, wrap32 ((extendAll N N []).length : Int)) := by
  unfold backtracking solveBacktracking
  have := solveBacktrackingFuel_eq N N [] (createChessBoard N) 0 (N - 0 + 1)
    (represents_createChessBoard N) (by simp) (by omega) (by decide)
  simp only [List.length_nil, zero_add] at this
  rw [this]
  simp

/-! ## Complete placements -/

theorem getD_take_of_lt (l : List Nat) (j c : Nat) (hc : c < j) :
    (l.take j).getD c 0 = l.getD c 0 := by
  rw [List.getD_eq_getElem?_getD, List.getD_eq_getElem?_getD, List.getElem?_take_of_lt hc]

theorem safe_take_iff (l : List Nat) (j : Nat) (hj : j < l.length) :
    safe (l.take j) (l.getD j 0) ↔
      ∀ i, i < j → l.getD i 0 ≠ l.getD j 0 ∧ l.getD i 0 + (j - i) ≠ l.getD j 0 ∧
        l.getD j 0 + (j - i) ≠ l.getD i 0 := by
  unfold safe
  rw [List.length_take, Nat.min_eq_left (le_of_lt hj)]
  constructor
  · intro h i hi
    have := h i hi
    rwa [getD_take_of_lt l j i hi] at this
  · intro h i hi
    rw [getD_take_of_lt l j i hi]
    exact h i hi

theorem nonAttacking_iff_safe (l : List Nat) :
    NonAttacking l ↔ ∀ j, j < l.length → safe (l.take j) (l.getD j 0) := by
  unfold NonAttacking
  constructor
  · intro h j hj
    rw [safe_take_iff l j hj]
    exact fun i hi => h i j hi hj
  · intro h i j hij hj
    exact (safe_take_iff l j hj).1 (h j hj) i hij

/-- Membership in `extendAll`: the placement `qs` followed by `k` rows below `N`, each safe
with respect to everything before it. -/
theorem mem_extendAll_iff (N k : Nat) (qs l : List Nat) :
    l ∈ extendAll N k qs ↔
      ∃ t, l = qs ++ t ∧ t.length = k ∧ (∀ x ∈ t, x < N) ∧
        ∀ j, j < k → safe (qs ++ t.take j) (t.getD j 0) := by
  induction k generalizing qs with
  | zero =>
    simp only [extendAll, List.mem_singleton]
    constructor
    · rintro rfl
      exact ⟨[], by simp, rfl, by simp, fun j hj => absurd hj (Nat.not_lt_zero _)⟩
    · rintro ⟨t, rfl, ht, -, -⟩
      rw [List.length_eq_zero] at ht
      rw [ht, List.append_nil]
  | succ k ih =>
    simp only [extendAll, List.mem_flatMap, List.mem_range]
    constructor
    · rintro ⟨row, hrow, hl⟩
      by_cases hs : safe qs row
      · rw [if_pos hs, ih] at hl
        obtain ⟨t, rfl, ht1, ht2, ht3⟩ := hl
        refine ⟨row :: t, by simp, by simp [ht1], ?_, ?_⟩
        · intro x hx
          rcases List.mem_cons.1 hx with rfl | hx
          · exact hrow
          · exact ht2 x hx
        · intro j hj
          cases j with
          | zero => simpa using hs
          | succ j =>
            have := ht3 j (by omega)
            simpa using this
      · rw [if_neg hs] at hl
        exact absurd hl (List.not_mem_nil _)
    · rintro ⟨t, rfl, ht1, ht2, ht3⟩
      cases t with
      | nil => simp at ht1
      | cons row t =>
        have hs : safe qs row := by simpa using ht3 0 (by omega)
        refine ⟨row, ht2 row (List.mem_cons_self _ _), ?_⟩
        rw [if_pos hs, ih]
        refine ⟨t, by simp, by simpa using ht1, fun x hx => ht2 x (List.mem_cons_of_mem _ hx), ?_⟩
        intro j hj
        have := ht3 (j + 1) (by omega)
        simpa using this

theorem nodup_extendAll (N k : Nat) (qs : List Nat) : (extendAll N k qs).Nodup := by
  induction k generalizing qs with
  | zero => simp [extendAll]
  | succ k ih =>
    rw [extendAll, List.nodup_flatMap]
    constructor
    · intro row _
      split
      · exact ih _
      · exact List.nodup_nil
    · apply (List.nodup_range N).pairwise_of_forall_ne
      intro a _ b _ hab
      simp only [Function.onFun]
      intro l hla hlb
      apply hab
      by_cases hsa : safe qs a
      · by_cases hsb : safe qs b
        · rw [if_pos hsa, mem_extendAll_iff] at hla
          rw [if_pos hsb, mem_extendAll_iff] at hlb
          obtain ⟨t, rfl, -⟩ := hla
          obtain ⟨s, hs, -⟩ := hlb
          rw [List.append_assoc, List.append_assoc, List.append_cancel_left_eq] at hs
          simp only [List.singleton_append, List.cons.injEq] at hs
          exact hs.1
        · rw [if_neg hsb] at hlb
          exact absurd hlb (List.not_mem_nil _)
      · rw [if_neg hsa] at hla
        exact absurd hla (List.not_mem_nil _)

/-- The complete placements found by the search are the lists of `N` rows below `N` in
which no two queens attack each other. -/
theorem mem_extendAll_nil_iff (N : Nat) (l : List Nat) :
    l ∈ extendAll N N [] ↔ l.length = N ∧ (∀ x ∈ l, x < N) ∧ NonAttacking l := by
  rw [mem_extendAll_iff, nonAttacking_iff_safe]
  constructor
  · rintro ⟨t, rfl, h1, h2, h3⟩
    simp only [List.nil_append] at h3 ⊢
    exact ⟨h1, h2, fun j hj => h3 j (by omega)⟩
  · rintro ⟨h1, h2, h3⟩
    exact ⟨l, by simp, h1, h2, fun j hj => by simpa using h3 j (by omega)⟩

/-! ## Counting -/

theorem card_filter_eq_length {α : Type} [DecidableEq α] (N : Nat)
    (P : (Fin N → Fin N) → Prop) [DecidablePred P] (f : (Fin N → Fin N) → α)
    (hinj : Function.Injective f) (L : List α) (hnd : L.Nodup)
    (hmem : ∀ a, a ∈ L ↔ ∃ q, P q ∧ f q = a) :
    (Finset.univ.filter P).card = L.length := by
  rw [← List.toFinset_card_of_nodup hnd, ← Finset.card_image_of_injective _ hinj]
  congr 1
  ext a
  simp [hmem]

theorem toPlacement_injective (N : Nat) : Function.Injective (toPlacement N) := by
  intro q1 q2 h
  have := List.ofFn_injective h
  funext c
  exact Fin.ext (congrFun this c)

theorem getD_toPlacement (N : Nat) (q : Fin N → Fin N) (i : Nat) (hi : i < N) :
    (toPlacement N q).getD i 0 = ((q ⟨i, hi⟩ : Fin N) : Nat) := by
  unfold toPlacement
  rw [List.getD_eq_getElem _ _ (by simpa using hi), List.getElem_ofFn]

theorem abs_sub_ne_iff (a b : Int) (d : Nat) :
    |a - b| ≠ |(d : Int)| ↔ (a + d ≠ b ∧ b + d ≠ a) := by
  rw [Ne, abs_eq_abs]
  constructor
  · intro h
    constructor
    · intro h1; apply h; right; omega
    · intro h1; apply h; left; omega
  · rintro ⟨h1, h2⟩ (h | h)
    · apply h2; omega
    · apply h1; omega

theorem nonAttacking_toPlacement_iff (N : Nat) (q : Fin N → Fin N) :
    NonAttacking (toPlacement N q) ↔
      ∀ c1 c2 : Fin N, c1 ≠ c2 →
        q c1 ≠ q c2 ∧
          |((q c1 : Nat) : Int) - ((q c2 : Nat) : Int)| ≠
            |((c1 : Nat) : Int) - ((c2 : Nat) : Int)| := by
  have hlen : (toPlacement N q).length = N := by simp [toPlacement]
  unfold NonAttacking
  rw [hlen]
  constructor
  · intro h c1 c2 hne
    have key : ∀ a b : Fin N, a < b → q a ≠ q b ∧
        |((q a : Nat) : Int) - ((q b : Nat) : Int)| ≠ |((a : Nat) : Int) - ((b : Nat) : Int)| := by
      intro a b hab
      have := h a.1 b.1 hab b.2
      rw [getD_toPlacement N q a.1 a.2, getD_toPlacement N q b.1 b.2] at this
      have hab2 : (a : Nat) < (b : Nat) := hab
      refine ⟨fun he => this.1 (by rw [show (⟨a.1, a.2⟩ : Fin N) = a from rfl,
        show (⟨b.1, b.2⟩ : Fin N) = b from rfl, he]), ?_⟩
      rw [abs_sub_comm ((a : Nat) : Int), show ((b : Nat) : Int) - ((a : Nat) : Int) =
        (((b : Nat) - (a : Nat) : Nat) : Int) by omega, abs_sub_ne_iff]
      have h2 := this.2.1
      have h3 := this.2.2
      simp only [Fin.eta] at h2 h3
      constructor
      · intro hh; apply h2; omega
      · intro hh; apply h3; omega
    rcases lt_or_gt_of_ne hne with hlt | hgt
    · exact key c1 c2 hlt
    · have := key c2 c1 hgt
      refine ⟨fun he => this.1 he.symm, ?_⟩
      rw [abs_sub_comm, abs_sub_comm ((c1 : Nat) : Int)]
      exact this.2
  · intro h i j hij hj
    have hi : i < N := by omega
    have := h ⟨i, hi⟩ ⟨j, hj⟩ (by intro he; simp only [Fin.mk.injEq] at he; omega)
    rw [getD_toPlacement N q i hi, getD_toPlacement N q j hj]
    obtain ⟨h1, h2⟩ := this
    simp only at h2
    rw [abs_sub_comm ((i : Nat) : Int), show ((j : Nat) : Int) - ((i : Nat) : Int) =
        (((j - i : Nat)) : Int) by omega, abs_sub_ne_iff] at h2
    refine ⟨fun he => h1 (Fin.ext he), ?_, ?_⟩
    · intro hh; apply h2.1; omega
    · intro hh; apply h2.2; omega

/-- The complete placements found by the search are in bijection with the N-queens
solutions. -/
theorem length_extendAll_eq (N : Nat) : (extendAll N N []).length = numQueenSolutions N := by
  unfold numQueenSolutions
  symm
  apply card_filter_eq_length N _ (toPlacement N) (toPlacement_injective N) _
    (nodup_extendAll N N [])
  intro a
  rw [mem_extendAll_nil_iff]
  constructor
  · rintro ⟨h1, h2, h3⟩
    have hb : ∀ c : Fin N, a.getD c.1 0 < N := by
      intro c
      rw [List.getD_eq_getElem _ _ (by rw [h1]; exact c.2)]
      exact h2 _ (List.getElem_mem _)
    have hq : toPlacement N (fun c => ⟨a.getD c.1 0, hb c⟩) = a := by
      apply List.ext_getElem
      · simp [toPlacement, h1]
      · intro i hi1 hi2
        simp only [toPlacement, List.getElem_ofFn]
        rw [List.getD_eq_getElem _ _ hi2]
    refine ⟨fun c => ⟨a.getD c.1 0, hb c⟩, ?_, hq⟩
    rw [← nonAttacking_toPlacement_iff, hq]
    exact h3
  · rintro ⟨q, hq, rfl⟩
    refine ⟨by simp [toPlacement], ?_, (nonAttacking_toPlacement_iff N q).2 hq⟩
    intro x hx
    simp only [toPlacement, List.mem_ofFn, Set.mem_range] at hx
    obtain ⟨c, rfl⟩ := hx
    exact (q c).2

theorem toPositions_injective (N : Nat) : Function.Injective (toPositions N) := by
  intro c1 c2 h
  have := List.ofFn_injective h
  funext i
  have h2 := congrFun this i
  simp only [Prod.mk.injEq, true_and] at h2
  exact Fin.ext (by exact_mod_cast h2)

theorem posAt_toPositions (N : Nat) (c : Fin N → Fin N) (i : Nat) (hi : i < N) :
    posAt (toPositions N c) i = ((i : Int), (((c ⟨i, hi⟩ : Fin N) : Nat) : Int)) := by
  unfold posAt toPositions
  rw [List.getD_eq_getElem _ _ (by simpa using hi), List.getElem_ofFn]

theorem wellFormed_toPositions (N : Nat) (c : Fin N → Fin N) :
    WellFormed N (toPositions N c) := by
  refine ⟨by simp [toPositions], ?_, ?_⟩
  · apply List.ext_getElem
    · simp [rowsOf, toPositions]
    · intro i h1 h2
      simp [rowsOf, toPositions]
  · intro x hx
    simp only [toPositions, List.mem_ofFn, Set.mem_range] at hx
    obtain ⟨i, rfl⟩ := hx
    simp only
    have := (c i).2
    omega

theorem exists_toPositions (N : Nat) (a : Positions) (h : WellFormed N a) :
    ∃ c, toPositions N c = a := by
  have hb : ∀ i : Fin N, (posAt a i.1).2.toNat < N := by
    intro i
    have hi : i.1 < a.length := by rw [h.1]; exact i.2
    have := h.2.2 (posAt a i.1) (by
      unfold posAt
      rw [List.getD_eq_getElem _ _ hi]
      exact List.getElem_mem _)
    omega
  refine ⟨fun i => ⟨(posAt a i.1).2.toNat, hb i⟩, ?_⟩
  apply List.ext_getElem
  · simp [toPositions, h.1]
  · intro i h1 h2
    have hiN : i < N := by rw [← h.1]; exact h2
    have hin := h.2.2 a[i] (List.getElem_mem _)
    have hrow := wellFormed_posAt_fst N a h i hiN
    have hp : posAt a i = a[i] := by
      unfold posAt
      rw [List.getD_eq_getElem _ _ h2]
    rw [hp] at hrow
    simp only [toPositions, List.getElem_ofFn, hp]
    apply Prod.ext
    · exact hrow.symm
    · simp only
      omega

theorem toPositions_small (N : Nat) (hN : N ≤ 2147483648) (c : Fin N → Fin N) :
    ∀ i j, i < j → j < N →
      |(posAt (toPositions N c) i).1 - (posAt (toPositions N c) j).1| < 2147483648 ∧
      |(posAt (toPositions N c) i).2 - (posAt (toPositions N c) j).2| < 2147483648 := by
  intro i j hij hj
  have hi : i < N := by omega
  rw [posAt_toPositions N c i hi, posAt_toPositions N c j hj]
  have h1 := (c ⟨i, hi⟩).2
  have h2 := (c ⟨j, hj⟩).2
  simp only
  constructor <;> rw [abs_lt] <;> omega

/-- For a board size that fits an `int`, the test accepts the array of a column vector
exactly when the vector is a valid arrangement. -/
theorem isValidSolution_toPositions (N : Nat) (hN : N ≤ 2147483648) (c : Fin N → Fin N) :
    isValidSolution N (toPositions N c) ≠ 0 ↔
      ∀ i j : Fin N, i < j →
        c i ≠ c j ∧
          |((i : Nat) : Int) - ((j : Nat) : Int)| ≠
            |((c i : Nat) : Int) - ((c j : Nat) : Int)| := by
  rw [Ne, isValidSolution_eq_zero_iff N _ (toPositions_small N hN c)]
  constructor
  · intro h i j hij
    have hij2 : (i : Nat) < (j : Nat) := hij
    constructor
    · intro he
      apply h
      refine ⟨i.1, j.1, hij2, j.2, Or.inl ?_⟩
      rw [posAt_toPositions N c i.1 i.2, posAt_toPositions N c j.1 j.2]
      simp only [Fin.eta, he]
    · intro he
      apply h
      refine ⟨i.1, j.1, hij2, j.2, Or.inr ?_⟩
      rw [posAt_toPositions N c i.1 i.2, posAt_toPositions N c j.1 j.2]
      simpa only [Fin.eta] using he
  · rintro h ⟨i, j, hij, hj, hc⟩
    have hi : i < N := by omega
    have := h ⟨i, hi⟩ ⟨j, hj⟩ hij
    rw [posAt_toPositions N c i hi, posAt_toPositions N c j hj] at hc
    simp only at hc this
    rcases hc with hc | hc
    · exact this.1 (Fin.ext (by exact_mod_cast hc))
    · exact this.2 hc

/-- For a board size that fits an `int`, the candidates that `bruteForce` accepts are in
bijection with the valid full arrangements. -/
theorem countValid_trail_eq (N : Nat) (hN : N ≤ 2147483648) :
    countValid N (trail N (N ^ N) (seedZero N)) = numValidArrangements N := by
  unfold numValidArrangements countValid
  symm
  apply card_filter_eq_length N _ (toPositions N) (toPositions_injective N) _
    ((nodup_trail N _ _ (wellFormed_seedZero N)
      (by rw [horner_seedZero]; push_cast; omega)).filter _)
  intro a
  rw [List.mem_filter, mem_trail_seedZero, decide_eq_true_eq]
  constructor
  · rintro ⟨h1, h2⟩
    obtain ⟨c, rfl⟩ := exists_toPositions N a h1
    exact ⟨c, (isValidSolution_toPositions N hN c).1 h2, rfl⟩
  · rintro ⟨c, hc, rfl⟩
    exact ⟨wellFormed_toPositions N c, (isValidSolution_toPositions N hN c).2 hc⟩

/-- The two ways of counting N-queens solutions agree. -/
theorem numValidArrangements_eq (N : Nat) : numValidArrangements N = numQueenSolutions N := by
  unfold numValidArrangements numQueenSolutions
  congr 1
  apply Finset.filter_congr
  intro q _
  constructor
  · intro h c1 c2 hne
    rcases lt_or_gt_of_ne hne with hlt | hgt
    · have := h c1 c2 hlt
      exact ⟨this.1, fun he => this.2 he.symm⟩
    · have := h c2 c1 hgt
      refine ⟨fun he => this.1 he.symm, fun he => this.2 ?_⟩
      rw [abs_sub_comm, he.symm, abs_sub_comm]
  · intro h i j hij
    have := h i j (ne_of_lt hij)
    exact ⟨this.1, fun he => this.2 he.symm⟩

/-! ## A fast count of the complete placements -/

theorem safeRev_iff (l : List Nat) (row d : Nat) :
    safeRev l row d = true ↔
      ∀ i, i < l.length →
        l.getD i 0 ≠ row ∧ l.getD i 0 + (d + i) ≠ row ∧ row + (d + i) ≠ l.getD i 0 := by
  induction l generalizing d with
  | nil => simp [safeRev]
  | cons q l ih =>
    simp only [safeRev, Bool.and_eq_true, bne_iff_ne, ne_eq, ih, List.length_cons]
    constructor
    · rintro ⟨h1, h2, h3, h4⟩ i hi
      cases i with
      | zero => exact ⟨by simpa using h1, by simpa using h2, by simpa using h3⟩
      | succ i =>
        have := h4 i (by omega)
        simp only [List.getD_cons_succ]
        refine ⟨this.1, ?_, ?_⟩
        · intro hh; apply this.2.1; omega
        · intro hh; apply this.2.2; omega
    · intro h
      have h0 := h 0 (by omega)
      refine ⟨by simpa using h0.1, by simpa using h0.2.1, by simpa using h0.2.2, ?_⟩
      intro i hi
      have := h (i + 1) (by omega)
      simp only [List.getD_cons_succ] at this
      refine ⟨this.1, ?_, ?_⟩
      · intro hh; apply this.2.1; omega
      · intro hh; apply this.2.2; omega

theorem getD_reverse_nat (l : List Nat) (i : Nat) (hi : i < l.length) :
    l.reverse.getD i 0 = l.getD (l.length - 1 - i) 0 := by
  rw [List.getD_eq_getElem _ _ (by simpa using hi), List.getD_eq_getElem _ _ (by omega),
    List.getElem_reverse]

theorem safeRev_reverse_iff (qs : List Nat) (row : Nat) :
    safeRev qs.reverse row 1 = true ↔ safe qs row := by
  rw [safeRev_iff]
  unfold safe
  rw [List.length_reverse]
  constructor
  · intro h c hc
    have := h (qs.length - 1 - c) (by omega)
    rw [getD_reverse_nat qs _ (by omega), show qs.length - 1 - (qs.length - 1 - c) = c by omega,
      show 1 + (qs.length - 1 - c) = qs.length - c by omega] at this
    exact this
  · intro h i hi
    have := h (qs.length - 1 - i) (by omega)
    rw [getD_reverse_nat qs _ hi, show 1 + i = qs.length - (qs.length - 1 - i) by omega]
    exact this

theorem countRev_eq (N k : Nat) (qs : List Nat) :
    countRev N k qs.reverse = (extendAll N k qs).length := by
  induction k generalizing qs with
  | zero => simp [countRev, extendAll]
  | succ k ih =>
    rw [countRev, length_extendAll_succ]
    congr 1
    apply List.map_congr_left
    intro row _
    by_cases hs : safe qs row
    · rw [if_pos hs, if_pos ((safeRev_reverse_iff qs row).2 hs), ← ih]
      simp
    · rw [if_neg hs, if_neg (fun hh => hs ((safeRev_reverse_iff qs row).1 hh))]

/-- The count that `backtracking` reports on the empty board, in computable form. -/
theorem backtracking_count_eq (N : Nat) :
    (backtracking N (createChessBoard N)).map Prod.snd =
      some (wrap32 ((countRev N N [] : Nat) : Int)) := by
  rw [backtracking_eq, ← countRev_eq N N []]
  rfl

/-! ## Resetting the board -/

/-- Two `N × N` boards with the same cells are equal. -/
theorem board_ext (N : Nat) (b1 b2 : Board) (h1 : IsBoard N b1) (h2 : IsBoard N b2)
    (h : ∀ i j, i < N → j < N → cell b1 i j = cell b2 i j) : b1 = b2 := by
  apply List.ext_getElem
  · rw [h1.1, h2.1]
  · intro i hi1 hi2
    have hiN : i < N := by rw [← h1.1]; exact hi1
    have hl1 : (b1[i]).length = N := h1.2 _ (List.getElem_mem _)
    have hl2 : (b2[i]).length = N := h2.2 _ (List.getElem_mem _)
    apply List.ext_getElem
    · rw [hl1, hl2]
    · intro j hj1 hj2
      have hjN : j < N := by rw [← hl1]; exact hj1
      have := h i j hiN hjN
      unfold cell at this
      rw [List.getD_eq_getElem _ _ hi1, List.getD_eq_getElem _ _ hi2,
        List.getD_eq_getElem _ _ hj1, List.getD_eq_getElem _ _ hj2] at this
      exact this

theorem resetRow_spec (N : Nat) (i : Nat) (hi : i < N) (js : List Nat)
    (hjs : ∀ j ∈ js, j < N) (b : Board) (hb : IsBoard N b) :
    IsBoard N (js.foldl (fun b2 j => setCell b2 i j 0) b) ∧
    ∀ r c, cell (js.foldl (fun b2 j => setCell b2 i j 0) b) r c =
      if r = i ∧ c ∈ js then 0 else cell b r c := by
  induction js generalizing b with
  | nil => simp [hb]
  | cons j js ih =>
    have hj : j < N := hjs j (List.mem_cons_self _ _)
    obtain ⟨ih1, ih2⟩ := ih (fun x hx => hjs x (List.mem_cons_of_mem _ hx))
      (setCell b i j 0) (isBoard_setCell N b hb i j 0 hi)
    refine ⟨ih1, ?_⟩
    intro r c
    rw [List.foldl_cons, ih2 r c, cell_setCell N b hb i j 0 hi hj]
    by_cases h1 : r = i ∧ c ∈ js
    · rw [if_pos h1, if_pos ⟨h1.1, List.mem_cons_of_mem _ h1.2⟩]
    · rw [if_neg h1]
      by_cases h2 : r = i ∧ c = j
      · rw [if_pos h2, if_pos ⟨h2.1, by rw [h2.2]; exact List.mem_cons_self _ _⟩]
      · rw [if_neg h2, if_neg]
        rintro ⟨h3, h4⟩
        rcases List.mem_cons.1 h4 with h5 | h5
        · exact h2 ⟨h3, h5⟩
        · exact h1 ⟨h3, h5⟩

theorem resetRows_spec (N : Nat) (is : List Nat) (his : ∀ i ∈ is, i < N) (b : Board)
    (hb : IsBoard N b) :
    IsBoard N (is.foldl
      (fun b i => (List.range N).foldl (fun b2 j => setCell b2 i j 0) b) b) ∧
    ∀ r c, cell (is.foldl
        (fun b i => (List.range N).foldl (fun b2 j => setCell b2 i j 0) b) b) r c =
      if r ∈ is ∧ c < N then 0 else cell b r c := by
  induction is generalizing b with
  | nil => simp [hb]
  | cons i is ih =>
    have hi : i < N := his i (List.mem_cons_self _ _)
    obtain ⟨hr1, hr2⟩ := resetRow_spec N i hi (List.range N)
      (fun j hj => List.mem_range.1 hj) b hb
    obtain ⟨ih1, ih2⟩ := ih (fun x hx => his x (List.mem_cons_of_mem _ hx)) _ hr1
    refine ⟨ih1, ?_⟩
    intro r c
    rw [List.foldl_cons, ih2 r c, hr2 r c]
    by_cases h1 : r ∈ is ∧ c < N
    · rw [if_pos h1, if_pos ⟨List.mem_cons_of_mem _ h1.1, h1.2⟩]
    · rw [if_neg h1]
      by_cases h2 : r = i ∧ c ∈ List.range N
      · rw [if_pos h2, if_pos ⟨by rw [h2.1]; exact List.mem_cons_self _ _,
          List.mem_range.1 h2.2⟩]
      · rw [if_neg h2, if_neg]
        rintro ⟨h3, h4⟩
        rcases List.mem_cons.1 h3 with h5 | h5
        · exact h2 ⟨h5, List.mem_range.2 h4⟩
        · exact h1 ⟨h5, h4⟩

/-- After `resetChessBoard` the board is an `N × N` board whose cells are all 0. -/
theorem resetChessBoard_spec (N : Nat) (b : Board) (hb : IsBoard N b) :
    IsBoard N (resetChessBoard N b) ∧
      ∀ i j, i < N → j < N → cell (resetChessBoard N b) i j = 0 := by
  obtain ⟨h1, h2⟩ := resetRows_spec N (List.range N) (fun i hi => List.mem_range.1 hi) b hb
  refine ⟨h1, ?_⟩
  intro i j hi hj
  unfold resetChessBoard
  rw [h2 i j, if_pos ⟨List.mem_range.2 hi, hj⟩]

theorem resetChessBoard_eq (N : Nat) (b : Board) (hb : IsBoard N b) :
    resetChessBoard N b = createChessBoard N := by
  obtain ⟨h1, h2⟩ := resetChessBoard_spec N b hb
  apply board_ext N _ _ h1 (isBoard_createChessBoard N)
  intro i j hi hj
  rw [h2 i j hi hj, cell_createChessBoard]

/-! ## The search with a log of its invocations -/

theorem solveRowLog_valid (N col : Nat)
    (callL : Board → Int → Option (Int × Board × Int × List (Board × Nat)))
    (st : Board × Int × List (Board × Nat)) (row : Nat)
    (hv : isValidBacktracking N st.1 row col ≠ 0) :
    solveRowLog N col callL st row =
      (callL (setCell st.1 row col 1) st.2.1).map
        (fun r => (setCell r.2.1 row col 0, r.2.2.1, st.2.2 ++ r.2.2.2)) := by
  unfold solveRowLog
  rw [if_pos hv]
  cases callL (setCell st.1 row col 1) st.2.1 <;> rfl

theorem solveRowLog_invalid (N col : Nat)
    (callL : Board → Int → Option (Int × Board × Int × List (Board × Nat)))
    (st : Board × Int × List (Board × Nat)) (row : Nat)
    (hv : ¬ isValidBacktracking N st.1 row col ≠ 0) :
    solveRowLog N col callL st row = some st := by
  unfold solveRowLog
  rw [if_neg hv]

theorem solveRow_valid (N col : Nat) (call : Board → Int → Option (Int × Board × Int))
    (st : Board × Int) (row : Nat) (hv : isValidBacktracking N st.1 row col ≠ 0) :
    solveRow N col call st row =
      (call (setCell st.1 row col 1) st.2).map (fun r => (setCell r.2.1 row col 0, r.2.2)) := by
  unfold solveRow
  rw [if_pos hv]
  cases call (setCell st.1 row col 1) st.2 <;> rfl

theorem solveRow_invalid (N col : Nat) (call : Board → Int → Option (Int × Board × Int))
    (st : Board × Int) (row : Nat) (hv : ¬ isValidBacktracking N st.1 row col ≠ 0) :
    solveRow N col call st row = some st := by
  unfold solveRow
  rw [if_neg hv]

theorem solveRowsLog_erase (N col : Nat)
    (callL : Board → Int → Option (Int × Board × Int × List (Board × Nat)))
    (call : Board → Int → Option (Int × Board × Int))
    (herase : ∀ b c, (callL b c).map (fun r => (r.1, r.2.1, r.2.2.1)) = call b c)
    (rs : List Nat) (b : Board) (c : Int) (log : List (Board × Nat)) :
    (rs.foldlM (solveRowLog N col callL) (b, c, log)).map (fun s => (s.1, s.2.1)) =
      rs.foldlM (solveRow N col call) (b, c) := by
  induction rs generalizing b c log with
  | nil => simp
  | cons row rs ih =>
    rw [List.foldlM_cons, List.foldlM_cons]
    by_cases hv : isValidBacktracking N b row col ≠ 0
    · rw [solveRowLog_valid N col callL (b, c, log) row hv,
        solveRow_valid N col call (b, c) row hv, ← herase]
      rcases callL (setCell b row col 1) c with _ | ⟨r, b2, c2, lg⟩
      · rfl
      · simp only [Option.map_some', Option.bind_eq_bind, Option.some_bind]
        exact ih _ _ _
    · rw [solveRowLog_invalid N col callL (b, c, log) row hv,
        solveRow_invalid N col call (b, c) row hv]
      simp only [Option.bind_eq_bind, Option.some_bind]
      exact ih _ _ _

/-- Dropping the log of `solveBacktrackingLog` gives `solveBacktrackingFuel`. -/
theorem solveBacktrackingLog_erase (N fuel : Nat) (b : Board) (col : Nat) (c : Int) :
    (solveBacktrackingLog N fuel b col c).map (fun r => (r.1, r.2.1, r.2.2.1)) =
      solveBacktrackingFuel N fuel b col c := by
  induction fuel generalizing b col c with
  | zero => rfl
  | succ fuel ih =>
    rw [solveBacktrackingLog, solveBacktrackingFuel]
    by_cases hc : col ≥ N
    · rw [if_pos hc, if_pos hc]; rfl
    · rw [if_neg hc, if_neg hc]
      rw [← solveRowsLog_erase N col
        (fun b c => solveBacktrackingLog N fuel b (col + 1) c)
        (fun b c => solveBacktrackingFuel N fuel b (col + 1) c)
        (fun b c => ih b (col + 1) c) (List.range N) b c [(b, col)]]
      rw [Option.map_map, Option.map_map]
      rfl

/-- The row loop with a log, for an invariant `P` of the invocations that a valid
placement carries over to the next column and that forces the cell tried to be empty. -/
theorem solveRowsLog_inv (N col : Nat) (P : Board → Nat → Prop)
    (callL : Board → Int → Option (Int × Board × Int × List (Board × Nat)))
    (b : Board) (hb : IsBoard N b) (hcol : col < N)
    (hcall : ∀ row, row < N → isValidBacktracking N b row col ≠ 0 → ∀ c,
      ∃ ret c2 log, callL (setCell b row col 1) c = some (ret, setCell b row col 1, c2, log) ∧
        ∀ e ∈ log, P e.1 e.2 ∧ col ≤ e.2 ∧ e.2 ≤ N)
    (hzero : ∀ row, row < N → isValidBacktracking N b row col ≠ 0 → cell b row col = 0)
    (rs : List Nat) (hrs : ∀ row ∈ rs, row < N) (c : Int) (log0 : List (Board × Nat))
    (hlog0 : ∀ e ∈ log0, P e.1 e.2 ∧ col ≤ e.2 ∧ e.2 ≤ N) :
    ∃ c2 log, rs.foldlM (solveRowLog N col callL) (b, c, log0) = some (b, c2, log) ∧
      ∀ e ∈ log, P e.1 e.2 ∧ col ≤ e.2 ∧ e.2 ≤ N := by
  induction rs generalizing c log0 with
  | nil => exact ⟨c, log0, rfl, hlog0⟩
  | cons row rs ih =>
    have hrow : row < N := hrs row (List.mem_cons_self _ _)
    rw [List.foldlM_cons]
    by_cases hv : isValidBacktracking N b row col ≠ 0
    · obtain ⟨ret, c2, log, hL, hlog⟩ := hcall row hrow hv c
      rw [solveRowLog_valid N col callL (b, c, log0) row hv, hL]
      have hrest := setCell_restore N b hb row col 1 hrow hcol
      rw [hzero row hrow hv] at hrest
      simp only [Option.map_some', Option.bind_eq_bind, Option.some_bind]
      rw [hrest]
      apply ih (fun r hr => hrs r (List.mem_cons_of_mem _ hr))
      intro e he
      rcases List.mem_append.1 he with he | he
      · exact hlog0 e he
      · exact hlog e he
    · rw [solveRowLog_invalid N col callL (b, c, log0) row hv]
      simp only [Option.bind_eq_bind, Option.some_bind]
      exact ih (fun r hr => hrs r (List.mem_cons_of_mem _ hr)) c log0 hlog0

/-- The search with a log, for an invariant `P` of the invocations: if `P` holds at
the call, the search returns the board unchanged and `P` holds at every invocation. -/
theorem solveBacktrackingLog_inv (N : Nat) (P : Board → Nat → Prop)
    (hP1 : ∀ b col, P b col → IsBoard N b)
    (hP2 : ∀ b col row, P b col → col < N → row < N →
      isValidBacktracking N b row col ≠ 0 →
        cell b row col = 0 ∧ P (setCell b row col 1) (col + 1))
    (k : Nat) (b : Board) (col : Nat) (c : Int) (fuel : Nat) (hb : P b col) (hk : col + k = N)
    (hfuel : k < fuel) :
    ∃ ret c2 log, solveBacktrackingLog N fuel b col c = some (ret, b, c2, log) ∧
      ∀ e ∈ log, P e.1 e.2 ∧ col ≤ e.2 ∧ e.2 ≤ N := by
  induction k generalizing b col c fuel with
  | zero =>
    cases fuel with
    | zero => omega
    | succ fuel =>
      rw [solveBacktrackingLog, if_pos (by omega)]
      refine ⟨1, wrap32 (c + 1), [(b, col)], rfl, ?_⟩
      intro e he
      rw [List.mem_singleton] at he
      subst he
      exact ⟨hb, le_refl _, by simp only; omega⟩
  | succ k ih =>
    cases fuel with
    | zero => omega
    | succ fuel =>
      have hcol : col < N := by omega
      rw [solveBacktrackingLog, if_neg (by omega)]
      have hcall : ∀ row, row < N → isValidBacktracking N b row col ≠ 0 → ∀ c',
          ∃ ret c2 log, (fun b' c'' => solveBacktrackingLog N fuel b' (col + 1) c'')
              (setCell b row col 1) c' = some (ret, setCell b row col 1, c2, log) ∧
            ∀ e ∈ log, P e.1 e.2 ∧ col ≤ e.2 ∧ e.2 ≤ N := by
        intro row hrow hv c'
        obtain ⟨ret, c2, log, h1, h2⟩ := ih (setCell b row col 1) (col + 1) c' fuel
          (hP2 b col row hb hcol hrow hv).2 (by omega) (by omega)
        refine ⟨ret, c2, log, h1, ?_⟩
        intro e he
        have := h2 e he
        exact ⟨this.1, by omega, this.2.2⟩
      obtain ⟨c2, log, h1, h2⟩ := solveRowsLog_inv N col P
        (fun b' c'' => solveBacktrackingLog N fuel b' (col + 1) c'') b (hP1 b col hb) hcol hcall
        (fun row hrow hv => (hP2 b col row hb hcol hrow hv).1) (List.range N)
        (fun row hr => List.mem_range.1 hr) c [(b, col)]
        (by
          intro e he
          rw [List.mem_singleton] at he
          subst he
          exact ⟨hb, le_refl _, by simp only; omega⟩)
      rw [h1]
      exact ⟨0, c2, log, rfl, h2⟩

theorem solveRowsLog_total (N col : Nat)
    (callL : Board → Int → Option (Int × Board × Int × List (Board × Nat)))
    (hcall : ∀ b c, ∃ r, callL b c = some r ∧ ∀ e ∈ r.2.2.2, col < e.2 ∧ e.2 ≤ N)
    (rs : List Nat) (b : Board) (c : Int) (hd : Board × Nat) (tl : List (Board × Nat))
    (htl : ∀ e ∈ tl, col < e.2 ∧ e.2 ≤ N) :
    ∃ b2 c2 tl2, rs.foldlM (solveRowLog N col callL) (b, c, hd :: tl) = some (b2, c2, hd :: tl2) ∧
      ∀ e ∈ tl2, col < e.2 ∧ e.2 ≤ N := by
  induction rs generalizing b c tl with
  | nil => exact ⟨b, c, tl, rfl, htl⟩
  | cons row rs ih =>
    rw [List.foldlM_cons]
    by_cases hv : isValidBacktracking N b row col ≠ 0
    · obtain ⟨⟨ret, b2, c2, log⟩, hL, hlog⟩ := hcall (setCell b row col 1) c
      rw [solveRowLog_valid N col callL (b, c, hd :: tl) row hv, hL]
      simp only [Option.map_some', Option.bind_eq_bind, Option.some_bind, List.cons_append]
      apply ih
      intro e he
      rcases List.mem_append.1 he with he | he
      · exact htl e he
      · exact hlog e he
    · rw [solveRowLog_invalid N col callL (b, c, hd :: tl) row hv]
      simp only [Option.bind_eq_bind, Option.some_bind]
      exact ih b c tl htl

/-- On any board, the search called at a column `col ≤ N` with more than `N - col` levels
of recursion available returns; its log starts with the call itself, and every nested
invocation has a column in `(col, N]`. -/
theorem solveBacktrackingLog_total (N : Nat) (fuel : Nat) (b : Board) (col : Nat) (c : Int)
    (hcol : col ≤ N) (hfuel : N - col < fuel) :
    ∃ ret b2 c2 rest, solveBacktrackingLog N fuel b col c = some (ret, b2, c2, (b, col) :: rest) ∧
      ∀ e ∈ rest, col < e.2 ∧ e.2 ≤ N := by
  induction fuel generalizing b col c with
  | zero => omega
  | succ fuel ih =>
    rw [solveBacktrackingLog]
    by_cases hc : col ≥ N
    · rw [if_pos hc]
      exact ⟨1, b, wrap32 (c + 1), [], rfl, fun e he => absurd he (List.not_mem_nil _)⟩
    · rw [if_neg hc]
      have hcall : ∀ b' c', ∃ r,
          (fun b2 c2 => solveBacktrackingLog N fuel b2 (col + 1) c2) b' c' = some r ∧
            ∀ e ∈ r.2.2.2, col < e.2 ∧ e.2 ≤ N := by
        intro b' c'
        obtain ⟨ret, b2, c2, rest, h1, h2⟩ := ih b' (col + 1) c' (by omega) (by omega)
        refine ⟨_, h1, ?_⟩
        intro e he
        simp only [List.mem_cons] at he
        rcases he with rfl | he
        · exact ⟨by simp only; omega, by simp only; omega⟩
        · exact ⟨by have := (h2 e he).1; omega, (h2 e he).2⟩
      obtain ⟨b2, c2, tl2, h1, h2⟩ := solveRowsLog_total N col
        (fun b2 c2 => solveBacktrackingLog N fuel b2 (col + 1) c2) hcall (List.range N)
        b c (b, col) [] (fun e he => absurd he (List.not_mem_nil _))
      rw [h1]
      exact ⟨0, b2, c2, tl2, rfl, h2⟩

/-! ## Invariants of the search -/

theorem cell_eq_zero_of_valid (N : Nat) (b : Board) (hbin : Binary N b) (row col : Nat)
    (hrow : row < N) (hcol : col < N) (hv : isValidBacktracking N b row col ≠ 0) :
    cell b row col = 0 := by
  rcases hbin row col hrow hcol with h | h
  · exact h
  · exfalso
    apply hv
    rw [isValidBacktracking_eq_zero_iff]
    right; left
    exact ⟨0, le_refl _, Nat.zero_le _, Nat.zero_le _, by simpa using h⟩

theorem binary_setCell (N : Nat) (b : Board) (hb : IsBoard N b) (hbin : Binary N b)
    (row col : Nat) (hrow : row < N) (hcol : col < N) : Binary N (setCell b row col 1) := by
  intro r c hr hc
  rw [cell_setCell N b hb row col 1 hrow hcol]
  split
  · exact Or.inr rfl
  · exact hbin r c hr hc

/-- On a 0/1 board the search returns the board it was called with. -/
theorem solveBacktrackingFuel_frame (N : Nat) (b : Board) (col : Nat) (c : Int) (fuel : Nat)
    (hb : IsBoard N b) (hbin : Binary N b) (hcol : col ≤ N) (hfuel : N - col < fuel) :
    ∃ ret c2, solveBacktrackingFuel N fuel b col c = some (ret, b, c2) := by
  obtain ⟨ret, c2, log, h1, -⟩ := solveBacktrackingLog_inv N
    (fun b' _ => IsBoard N b' ∧ Binary N b') (fun b' _ h => h.1)
    (fun b' col' row h hc hr hv =>
      ⟨cell_eq_zero_of_valid N b' h.2 row col' hr hc hv,
        isBoard_setCell N b' h.1 row col' 1 hr, binary_setCell N b' h.1 h.2 row col' hr hc⟩)
    (N - col) b col c fuel ⟨hb, hbin⟩ (by omega) hfuel
  refine ⟨ret, c2, ?_⟩
  rw [← solveBacktrackingLog_erase, h1]
  rfl

theorem nonAttacking_append (qs : List Nat) (row : Nat) (h : NonAttacking qs)
    (hs : safe qs row) : NonAttacking (qs ++ [row]) := by
  rw [nonAttacking_iff_safe] at h ⊢
  intro j hj
  rw [List.length_append, List.length_singleton] at hj
  by_cases hjl : j < qs.length
  · rw [List.take_append_of_le_length (le_of_lt hjl), List.getD_append _ _ _ _ hjl]
    exact h j hjl
  · have : j = qs.length := by omega
    subst this
    rw [List.take_left, getD_append_length_nat]
    exact hs

theorem getD_lt_of_represents (N : Nat) (b : Board) (qs : List Nat) (h : Represents N b qs)
    (c : Nat) (hc : c < qs.length) : qs.getD c 0 < N := by
  rw [List.getD_eq_getElem _ _ hc]
  exact h.2.1 _ (List.getElem_mem _)

/-- A board that holds a non-attacking partial placement of `col ≤ N` columns satisfies
the invariant of the search. -/
theorem searchInvariant_of_represents (N : Nat) (b : Board) (qs : List Nat)
    (h : Represents N b qs) (hna : NonAttacking qs) (hlen : qs.length ≤ N) :
    SearchInvariant N b qs.length := by
  have hcell := h.2.2
  have hq : ∀ r c, r < N → c < N → (cell b r c = 1 ↔ c < qs.length ∧ qs.getD c 0 = r) := by
    intro r c hr hc
    rw [hcell r c hr hc]
    by_cases hh : c < qs.length ∧ qs.getD c 0 = r
    · simp [hh]
    · simp only [hh, if_false, iff_false]
      decide
  refine ⟨hlen, ?_, ?_, ?_⟩
  · intro c hc
    have hlt := getD_lt_of_represents N b qs h c hc
    refine ⟨qs.getD c 0, hlt, (hq _ c hlt (by omega)).2 ⟨hc, rfl⟩, ?_⟩
    intro r2 hr2 h2
    exact ((hq r2 c hr2 (by omega)).1 h2).2.symm
  · intro r c hr hc1 hc2
    rw [hcell r c hr hc2, if_neg (fun hh => by omega)]
  · intro r1 c1 r2 c2 hr1 hc1 hr2 hc2 h1 h2 hne
    obtain ⟨hl1, e1⟩ := (hq r1 c1 hr1 hc1).1 h1
    obtain ⟨hl2, e2⟩ := (hq r2 c2 hr2 hc2).1 h2
    have hcne : c1 ≠ c2 := by
      intro he
      subst he
      rcases hne with hne | hne
      · exact hne (by rw [← e1, ← e2])
      · exact hne rfl
    rcases lt_or_gt_of_ne hcne with hlt | hgt
    · have := hna c1 c2 hlt hl2
      rw [e1, e2] at this
      refine ⟨this.1, ?_⟩
      intro habs
      rcases abs_eq_abs.1 habs with hh | hh
      · apply this.2.1; omega
      · apply this.2.2; omega
    · have := hna c2 c1 hgt hl1
      rw [e1, e2] at this
      refine ⟨fun he => this.1 he.symm, ?_⟩
      intro habs
      rcases abs_eq_abs.1 habs with hh | hh
      · apply this.2.2; omega
      · apply this.2.1; omega

/-- The search started on the empty board: every invocation sees a board that satisfies
the invariant. -/
theorem solveBacktrackingLog_invariant (N : Nat) :
    ∃ ret c log, solveBacktrackingLog N (N + 1) (createChessBoard N) 0 0 =
        some (ret, createChessBoard N, c, log) ∧
      ∀ e ∈ log, SearchInvariant N e.1 e.2 := by
  obtain ⟨ret, c2, log, h1, h2⟩ := solveBacktrackingLog_inv N
    (fun b col => ∃ qs, Represents N b qs ∧ qs.length = col ∧ NonAttacking qs)
    (fun b _ h => by obtain ⟨qs, hr, -, -⟩ := h; exact hr.1)
    (fun b col row h hc hr hv => by
      obtain ⟨qs, hrep, hlen, hna⟩ := h
      subst hlen
      have hs := (isValidBacktracking_represents N b qs hrep row hr hc).1 hv
      refine ⟨?_, qs ++ [row], represents_setCell N b qs hrep row hr hc, by simp,
        nonAttacking_append qs row hna hs⟩
      rw [hrep.2.2 row qs.length hr hc, if_neg (fun hh => lt_irrefl _ hh.1)])
    N (createChessBoard N) 0 0 (N + 1)
    ⟨[], represents_createChessBoard N, rfl, fun i j _ hj => absurd hj (Nat.not_lt_zero _)⟩
    (by omega) (by omega)
  refine ⟨ret, c2, log, h1, ?_⟩
  intro e he
  obtain ⟨⟨qs, hrep, hlen, hna⟩, -, hle⟩ := h2 e he
  rw [← hlen]
  exact searchInvariant_of_represents N e.1 qs hrep hna (by omega)

/-! ## Termination of the search -/

theorem solveRows_mono (N col : Nat) (call1 call2 : Board → Int → Option (Int × Board × Int))
    (h : ∀ b c r, call1 b c = some r → call2 b c = some r)
    (rs : List Nat) (st st2 : Board × Int)
    (h1 : rs.foldlM (solveRow N col call1) st = some st2) :
    rs.foldlM (solveRow N col call2) st = some st2 := by
  induction rs generalizing st with
  | nil => exact h1
  | cons row rs ih =>
    rw [List.foldlM_cons] at h1 ⊢
    by_cases hv : isValidBacktracking N st.1 row col ≠ 0
    · rw [solveRow_valid N col call1 st row hv] at h1
      rw [solveRow_valid N col call2 st row hv]
      rcases hc : call1 (setCell st.1 row col 1) st.2 with _ | r
      · rw [hc] at h1
        simp at h1
      · rw [hc] at h1
        rw [h _ _ r hc]
        simp only [Option.map_some', Option.bind_eq_bind, Option.some_bind] at h1 ⊢
        exact ih _ h1
    · rw [solveRow_invalid N col call1 st row hv] at h1
      rw [solveRow_invalid N col call2 st row hv]
      simp only [Option.bind_eq_bind, Option.some_bind] at h1 ⊢
      exact ih _ h1

/-- More levels of recursion do not change a result. -/
theorem solveBacktrackingFuel_succ (N fuel : Nat) (b : Board) (col : Nat) (c : Int)
    (r : Int × Board × Int) (h : solveBacktrackingFuel N fuel b col c = some r) :
    solveBacktrackingFuel N (fuel + 1) b col c = some r := by
  induction fuel generalizing b col c r with
  | zero => simp [solveBacktrackingFuel] at h
  | succ fuel ih =>
    rw [solveBacktrackingFuel] at h ⊢
    by_cases hc : col ≥ N
    · rw [if_pos hc] at h ⊢
      exact h
    · rw [if_neg hc] at h ⊢
      rcases hf : (List.range N).foldlM
          (solveRow N col (fun b c => solveBacktrackingFuel N fuel b (col + 1) c)) (b, c)
        with _ | st2
      · rw [hf] at h
        simp at h
      · rw [hf] at h
        rw [solveRows_mono N col _
          (fun b c => solveBacktrackingFuel N (fuel + 1) b (col + 1) c)
          (fun b' c' r' hr => ih b' (col + 1) c' r' hr) (List.range N) (b, c) st2 hf]
        exact h

theorem solveBacktrackingFuel_mono (N fuel fuel2 : Nat) (hle : fuel ≤ fuel2) (b : Board)
    (col : Nat) (c : Int) (r : Int × Board × Int)
    (h : solveBacktrackingFuel N fuel b col c = some r) :
    solveBacktrackingFuel N fuel2 b col c = some r := by
  induction fuel2 with
  | zero =>
    have : fuel = 0 := by omega
    subst this
    exact h
  | succ fuel2 ih =>
    by_cases he : fuel = fuel2 + 1
    · subst he; exact h
    · exact solveBacktrackingFuel_succ N fuel2 b col c r (ih (by omega))

/-! ## Reordering the positions -/

theorem conflict_comm (a b : Int × Int) : conflict a b = conflict b a := by
  rw [Bool.eq_iff_iff, conflict_iff, conflict_iff, iabs_wrap32_sub_comm a.1,
    iabs_wrap32_sub_comm a.2]
  constructor
  · rintro (h | h)
    · exact Or.inl h.symm
    · exact Or.inr h
  · rintro (h | h)
    · exact Or.inl h.symm
    · exact Or.inr h

/-- The validity test accepts a list of `N` pairs exactly when no two of its entries
conflict. -/
theorem isValidSolution_eq_zero_iff_pairwise (N : Nat) (p : Positions) (hlen : p.length = N) :
    isValidSolution N p = 0 ↔ ¬ p.Pairwise (fun a b => conflict a b = false) := by
  rw [isValidSolution_eq_zero_iff_conflict, List.pairwise_iff_getElem]
  constructor
  · rintro ⟨i, j, hij, hj, hc⟩ hall
    have hj2 : j < p.length := by rw [hlen]; exact hj
    have hi2 : i < p.length := by omega
    have := hall i j hi2 hj2 hij
    unfold posAt at hc
    rw [List.getD_eq_getElem _ _ hi2, List.getD_eq_getElem _ _ hj2, this] at hc
    exact absurd hc (by decide)
  · intro hn
    by_contra hne
    apply hn
    intro i j hi hj hij
    by_contra hc
    apply hne
    refine ⟨i, j, hij, by rw [← hlen]; exact hj, ?_⟩
    unfold posAt
    rw [List.getD_eq_getElem _ _ hi, List.getD_eq_getElem _ _ hj]
    simpa using hc

theorem isValidSolution_perm (N : Nat) (p q : Positions) (hlen : p.length = N)
    (hperm : p.Perm q) : isValidSolution N q = isValidSolution N p := by
  have hq : q.length = N := by rw [← hperm.length_eq]; exact hlen
  have hiff : isValidSolution N q = 0 ↔ isValidSolution N p = 0 := by
    rw [isValidSolution_eq_zero_iff_pairwise N q hq, isValidSolution_eq_zero_iff_pairwise N p hlen,
      List.Perm.pairwise_iff (fun {x y} h => by rw [conflict_comm]; exact h) hperm]
  rcases isValidSolution_zero_or_one N p with h | h
  · rw [h, hiff.2 h]
  · rcases isValidSolution_zero_or_one N q with h2 | h2
    · rw [hiff.1 h2] at h
      exact absurd h (by decide)
    · rw [h, h2]

/-! ## Row fields under the odometer -/

theorem rowsOf_setCol (p : Positions) (k : Nat) (v : Int) : rowsOf (setCol p k v) = rowsOf p := by
  unfold setCol rowsOf
  rw [List.map_set]
  by_cases hk : k < p.length
  · have : (posAt p k).1 = (List.map Prod.fst p).getD k 0 := posAt_fst p k
    simp only
    rw [this, set_getD_self _ _ _ (by simpa using hk)]
  · rw [List.set_eq_of_length_le (by simp; omega)]

theorem rowsOf_nextCombinationLoop (N k : Nat) (p : Positions) :
    rowsOf (nextCombinationLoop N k p).2 = rowsOf p := by
  induction k generalizing p with
  | zero => rfl
  | succ k ih =>
    unfold nextCombinationLoop
    split
    · rw [ih, rowsOf_setCol]
    · rfl

/-- The odometer keeps the length and the row fields of any array. -/
theorem nextCombinationFrom_rows (N k : Nat) (p : Positions) :
    (nextCombinationFrom N k p).2.length = p.length ∧
      rowsOf (nextCombinationFrom N k p).2 = rowsOf p ∧
      ((nextCombinationFrom N k p).1 = 0 ∨ (nextCombinationFrom N k p).1 = 1) := by
  unfold nextCombinationFrom
  have h1 := nextCombinationLoop_length N k p
  have h2 := rowsOf_nextCombinationLoop N k p
  rcases hr : nextCombinationLoop N k p with ⟨i, q⟩
  rw [hr] at h1 h2
  cases i with
  | zero => exact ⟨h1, h2, Or.inl rfl⟩
  | succ i =>
    simp only at h1 h2 ⊢
    exact ⟨by rw [length_setCol, h1], by rw [rowsOf_setCol, h2], Or.inr trivial⟩

/-! ## The conflict checker in the states of the search -/

/-- When all queens lie in columns left of `col`, the left-looking test of the checker
is the full attack test. -/
theorem attackedFromLeft_iff_attackedByAny (N : Nat) (b : Board) (row col : Nat)
    (hrow : row < N) (hcol : col < N)
    (hq : ∀ r c, r < N → c < N → cell b r c = 1 → c < col) :
    attackedFromLeft 0 N b row col ↔ attackedByAny N b row col := by
  unfold attackedFromLeft attackedByAny
  constructor
  · rintro (⟨c, hc, h⟩ | ⟨k, -, h1, h2, h⟩ | ⟨k, -, h1, h2, h⟩)
    · exact ⟨row, c, hrow, by omega, h, Or.inl rfl⟩
    · refine ⟨row - k, col - k, by omega, by omega, h, Or.inr (Or.inr ?_)⟩
      rw [abs_eq_abs]
      left; omega
    · refine ⟨row + k, col - k, h1, by omega, h, Or.inr (Or.inr ?_)⟩
      rw [abs_eq_abs]
      right; omega
  · rintro ⟨r, c, hr, hc, h, hatt⟩
    have hlt := hq r c hr hc h
    rcases hatt with rfl | rfl | habs
    · exact Or.inl ⟨c, hlt, h⟩
    · exact absurd hlt (lt_irrefl _)
    · rcases abs_eq_abs.1 habs with hh | hh
      · right; left
        refine ⟨col - c, Nat.zero_le _, by omega, by omega, ?_⟩
        rw [show row - (col - c) = r by omega, show col - (col - c) = c by omega]
        exact h
      · right; right
        refine ⟨col - c, Nat.zero_le _, by omega, by omega, ?_⟩
        rw [show row + (col - c) = r by omega, show col - (col - c) = c by omega]
        exact h

/-! ## The candidates of `optimizedTwo` -/

theorem posAt_seedDiag (N i : Nat) (hi : i < N) : posAt (seedDiag N) i = ((i : Int), (i : Int)) := by
  unfold posAt seedDiag
  rw [List.getD_eq_getElem?_getD, List.getElem?_map, List.getElem?_range hi]
  rfl

theorem value_seedDiag (N : Nat) :
    value N (seedDiag N) = ∑ i in Finset.range N, (i : Int) * (N : Int) ^ (N - 1 - i) := by
  unfold value
  apply Finset.sum_congr rfl
  intro i hi
  rw [posAt_seedDiag N i (Finset.mem_range.1 hi)]

theorem wellFormed_value (N : Nat) (p : Positions) (h : WellFormed N p) :
    value N p = horner N (colsOf p) := value_eq_horner N p h.1

/-- The values of the arrays of a trail, in the order of the trail. -/
theorem trail_values (N m : Nat) (p : Positions) (hp : WellFormed N p)
    (hm : horner N (colsOf p) + m ≤ (N : Int) ^ N) :
    (trail N m p).map (value N) =
      (List.range m).map (fun (k : Nat) => value N p + (k : Int)) := by
  obtain ⟨h1, h2⟩ := trail_spec N m p hp hm
  rw [wellFormed_value N p hp, ← h2]
  apply List.map_congr_left
  intro q hq
  exact wellFormed_value N q (h1 q hq)

/-! ## Many solutions on a board of prime size -/

theorem not_prime_dvd_of_small (p : Nat) (x : Int) (hx0 : x ≠ 0) (hx : |x| < (p : Int)) :
    ¬ (p : Int) ∣ x := fun h => hx0 (Int.eq_zero_of_abs_lt_dvd h hx)

theorem linearPlacement_sub (p : Nat) (hp : 0 < p) (a b : Nat) (c1 c2 : Fin p) :
    (p : Int) ∣ (((linearPlacement p hp a b c1 : Fin p) : Nat) : Int) -
      (((linearPlacement p hp a b c2 : Fin p) : Nat) : Int) -
      (a : Int) * (((c1 : Nat) : Int) - ((c2 : Nat) : Int)) := by
  simp only [linearPlacement]
  push_cast
  have h1 := Int.emod_add_ediv ((a : Int) * (c1 : Nat) + b) p
  have h2 := Int.emod_add_ediv ((a : Int) * (c2 : Nat) + b) p
  refine ⟨((a : Int) * (c2 : Nat) + b) / p - ((a : Int) * (c1 : Nat) + b) / p, ?_⟩
  linear_combination h1 - h2

/-- For a prime `p` and a slope `a` with `2 ≤ a ≤ p - 2`, the linear placement is an
N-queens solution. -/
theorem linearPlacement_valid (p : Nat) (hp : p.Prime) (a b : Nat) (ha : 2 ≤ a)
    (ha2 : a + 2 ≤ p) (c1 c2 : Fin p) (hne : c1 ≠ c2) :
    linearPlacement p hp.pos a b c1 ≠ linearPlacement p hp.pos a b c2 ∧
      |(((linearPlacement p hp.pos a b c1 : Fin p) : Nat) : Int) -
          (((linearPlacement p hp.pos a b c2 : Fin p) : Nat) : Int)| ≠
        |((c1 : Nat) : Int) - ((c2 : Nat) : Int)| := by
  have hpi : Prime (p : Int) := Nat.prime_iff_prime_int.mp hp
  have hdvd := linearPlacement_sub p hp.pos a b c1 c2
  have hc1 := c1.2
  have hc2 := c2.2
  have hcne : ((c1 : Nat) : Int) - ((c2 : Nat) : Int) ≠ 0 := by
    intro h
    apply hne
    apply Fin.ext
    omega
  have hcsmall : |((c1 : Nat) : Int) - ((c2 : Nat) : Int)| < (p : Int) := by
    rw [abs_lt]; omega
  have hnc := not_prime_dvd_of_small p _ hcne hcsmall
  constructor
  · intro he
    rw [he, sub_self, zero_sub, dvd_neg] at hdvd
    rcases hpi.dvd_or_dvd hdvd with h | h
    · exact not_prime_dvd_of_small p (a : Int) (by omega) (by rw [abs_lt]; omega) h
    · exact hnc h
  · intro habs
    rcases abs_eq_abs.1 habs with h | h
    · rw [h] at hdvd
      have : (p : Int) ∣ (1 - (a : Int)) * (((c1 : Nat) : Int) - ((c2 : Nat) : Int)) := by
        have e : (1 - (a : Int)) * (((c1 : Nat) : Int) - ((c2 : Nat) : Int)) =
            ((c1 : Nat) : Int) - ((c2 : Nat) : Int) -
              (a : Int) * (((c1 : Nat) : Int) - ((c2 : Nat) : Int)) := by ring
        rw [e]; exact hdvd
      rcases hpi.dvd_or_dvd this with h2 | h2
      · exact not_prime_dvd_of_small p (1 - (a : Int)) (by omega) (by rw [abs_lt]; omega) h2
      · exact hnc h2
    · rw [h] at hdvd
      have : (p : Int) ∣ (1 + (a : Int)) * (((c1 : Nat) : Int) - ((c2 : Nat) : Int)) := by
        have e : (1 + (a : Int)) * (((c1 : Nat) : Int) - ((c2 : Nat) : Int)) =
            -(-(((c1 : Nat) : Int) - ((c2 : Nat) : Int)) -
              (a : Int) * (((c1 : Nat) : Int) - ((c2 : Nat) : Int))) := by ring
        rw [e, dvd_neg]; exact hdvd
      rcases hpi.dvd_or_dvd this with h2 | h2
      · exact not_prime_dvd_of_small p (1 + (a : Int)) (by omega) (by rw [abs_lt]; omega) h2
      · exact hnc h2

/-- Slope and offset below `p` are determined by the linear placement. -/
theorem linearPlacement_injOn (p : Nat) (hp : 2 ≤ p) (hpos : 0 < p) (a b a2 b2 : Nat)
    (ha : a < p) (hb : b < p) (ha2 : a2 < p) (hb2 : b2 < p)
    (h : linearPlacement p hpos a b = linearPlacement p hpos a2 b2) : a = a2 ∧ b = b2 := by
  have h0 := congrArg (fun (x : Fin p) => (x : Nat)) (congrFun h ⟨0, hpos⟩)
  have h1 := congrArg (fun (x : Fin p) => (x : Nat)) (congrFun h ⟨1, by omega⟩)
  simp only [linearPlacement, Nat.mul_zero, Nat.zero_add, Nat.mul_one] at h0 h1
  rw [Nat.mod_eq_of_lt hb, Nat.mod_eq_of_lt hb2] at h0
  subst h0
  refine ⟨?_, rfl⟩
  have hm : (a + b) ≡ (a2 + b) [MOD p] := h1
  have hd := (Nat.modEq_iff_dvd.1 (Nat.ModEq.add_right_cancel' b hm))
  have := Int.eq_zero_of_abs_lt_dvd hd (by rw [abs_lt]; omega)
  omega

/-- A board of prime size `p ≥ 5` has at least `(p - 3) * p` N-queens solutions. -/
theorem numQueenSolutions_prime_ge (p : Nat) (hp : p.Prime) (h5 : 5 ≤ p) :
    (p - 3) * p ≤ numQueenSolutions p := by
  have hcard : ((Finset.Icc 2 (p - 2)) ×ˢ (Finset.range p)).card = (p - 3) * p := by
    rw [Finset.card_product, Nat.card_Icc, Finset.card_range]
    have : p - 2 + 1 - 2 = p - 3 := by omega
    rw [this]
  rw [← hcard]
  unfold numQueenSolutions
  apply Finset.card_le_card_of_injOn (fun ab => linearPlacement p hp.pos ab.1 ab.2)
  · intro ab hab
    simp only [Finset.mem_product, Finset.mem_Icc, Finset.mem_range] at hab
    simp only [Finset.mem_filter, Finset.mem_univ, true_and]
    intro c1 c2 hne
    exact linearPlacement_valid p hp ab.1 ab.2 hab.1.1 (by omega) c1 c2 hne
  · intro ab hab ab2 hab2 h
    simp only [Finset.mem_coe, Finset.mem_product, Finset.mem_Icc, Finset.mem_range] at hab hab2
    have := linearPlacement_injOn p (by omega) hp.pos ab.1 ab.2 ab2.1 ab2.2 (by omega) hab.2
      (by omega) hab2.2 h
    exact Prod.ext this.1 this.2

theorem prime_46349 : Nat.Prime 46349 := by norm_num

/-- The board of size 46349 has more N-queens solutions than an `int` can count. -/
theorem numQueenSolutions_46349 : (2147483648 : Int) ≤ ((numQueenSolutions 46349 : Nat) : Int) := by
  have h := numQueenSolutions_prime_ge 46349 prime_46349 (by norm_num)
  have h2 : (46349 - 3) * 46349 = 2148090754 := by norm_num
  rw [h2] at h
  have : ((2148090754 : Nat) : Int) ≤ ((numQueenSolutions 46349 : Nat) : Int) :=
    Int.ofNat_le.2 h
  have h3 : ((2148090754 : Nat) : Int) = 2148090754 := by norm_num
  rw [h3] at this
  exact le_trans (by norm_num) this

/-! ## The reported counts as 32-bit values -/

theorem numQueenSolutions_eq_countRev (N : Nat) : numQueenSolutions N = countRev N N [] := by
  rw [← length_extendAll_eq, ← countRev_eq N N []]
  rfl

/-- The function `backtracking` on the empty board reports the number of N-queens
solutions reduced to a 32-bit value. -/
theorem backtracking_eq_wrap (N : Nat) :
    backtracking N (createChessBoard N) =
      some (createChessBoard N, wrap32 ((numQueenSolutions N : Nat) : Int)) := by
  rw [backtracking_eq, length_extendAll_eq]

/-- For a board size that fits an `int`, `bruteForce` reports the number of valid
arrangements reduced to a 32-bit value. -/
theorem bruteForce_eq_wrap (N : Nat) (hN : N ≤ 2147483648) :
    bruteForce N = some (wrap32 ((numValidArrangements N : Nat) : Int)) := by
  rw [bruteForce, bruteForceRun_eq N _ (le_refl _), Option.map_some', countValid_trail_eq N hN]

/-! ## The claims -/

/-- C1, as stated, fails: `solutionCount` is a 32-bit `int`.  The board of size 46349 has
more than 2147483647 N-queens solutions, so the count that `backtracking` reports for it
is not the number of solutions. -/
theorem backtracking_count_overflows :
    (backtracking 46349 (createChessBoard 46349)).map Prod.snd ≠
      some ((numQueenSolutions 46349 : Nat) : Int) := by
  intro h
  rw [backtracking_eq_wrap, Option.map_some'] at h
  exact wrap32_ne_of_large _ numQueenSolutions_46349 (Option.some.inj h)

/-- C1, amended: for every board size `N ≥ 0` whose number of N-queens solutions is at
most `INT_MAX = 2147483647`, the count that `backtracking` obtains from
`solveBacktracking` at column 0 with the counter at 0 on the empty `N × N` board is the
number of N-queens solutions, that is the number of maps `q` from columns to rows with
`q c1 ≠ q c2` and `|q c1 - q c2| ≠ |c1 - c2|` for all `c1 ≠ c2`. -/
theorem backtracking_counts_queen_solutions (N : Nat)
    (hQ : numQueenSolutions N ≤ 2147483647) :
    solveBacktracking N (createChessBoard N) 0 0 =
        some (if N = 0 then 1 else 0, createChessBoard N,
          ((numQueenSolutions N : Nat) : Int)) ∧
    backtracking N (createChessBoard N) =
      some (createChessBoard N, ((numQueenSolutions N : Nat) : Int)) := by
  have hw : wrap32 ((numQueenSolutions N : Nat) : Int) = ((numQueenSolutions N : Nat) : Int) :=
    wrap32_of_small _ (by omega) (by omega)
  constructor
  · have := solveBacktrackingFuel_eq N N [] (createChessBoard N) 0 (N - 0 + 1)
      (represents_createChessBoard N) (by simp) (by omega) (by decide)
    rw [length_extendAll_eq, zero_add, hw] at this
    simpa [solveBacktracking] using this
  · rw [backtracking_eq_wrap, hw]

/-- Witness for the amended C1 at `N = 4`, which has 2 solutions. -/
theorem backtracking_counts_queen_solutions_witness :
    numQueenSolutions 4 ≤ 2147483647 ∧
    backtracking 4 (createChessBoard 4) =
      some (createChessBoard 4, ((numQueenSolutions 4 : Nat) : Int)) :=
  have hQ : numQueenSolutions 4 ≤ 2147483647 := by
    rw [numQueenSolutions_eq_countRev]
    decide
  ⟨hQ, (backtracking_counts_queen_solutions 4 hQ).2⟩

/-- C2: for `N = 4, 5, 6, 7, 8`, backtracking on the empty board reports exactly
2, 10, 4, 40 and 92 solutions. -/
theorem backtracking_known_counts :
    (backtracking 4 (createChessBoard 4)).map Prod.snd = some 2 ∧
    (backtracking 5 (createChessBoard 5)).map Prod.snd = some 10 ∧
    (backtracking 6 (createChessBoard 6)).map Prod.snd = some 4 ∧
    (backtracking 7 (createChessBoard 7)).map Prod.snd = some 40 ∧
    (backtracking 8 (createChessBoard 8)).map Prod.snd = some 92 := by
  simp only [backtracking_count_eq]
  set_option maxRecDepth 1000000 in
  set_option maxHeartbeats 40000000 in
  decide

/-- C3: for every `N` in `{4, ..., 8}`, each of `bruteForce`, `optimizedOne` and
`optimizedTwo` ends with the same `solutionCount` as `backtracking` on the empty board. -/
theorem enumerators_agree_with_backtracking (N : Nat) (_h4 : 4 ≤ N) (h8 : N ≤ 8) :
    ∃ c, (backtracking N (createChessBoard N)).map Prod.snd = some c ∧
      bruteForce N = some c ∧ optimizedOne N = some c ∧ optimizedTwo N = some c := by
  have hN : N ≤ 2147483648 := by omega
  refine ⟨wrap32 ((numQueenSolutions N : Nat) : Int), ?_, ?_, ?_, ?_⟩
  · rw [backtracking_eq_wrap]; rfl
  · rw [bruteForce_eq_wrap N hN, numValidArrangements_eq]
  · rw [optimizedOne, show optimizedOneRun (N ^ N) N = bruteForceRun (N ^ N) N from rfl,
      bruteForceRun_eq N _ (le_refl _), Option.map_some', countValid_trail_eq N hN,
      numValidArrangements_eq]
  · rw [optimizedTwo, optimizedTwoRun_eq N _ (le_refl _), Option.map_some',
      countValid_seedDiag_eq, countValid_trail_eq N hN, numValidArrangements_eq]

/-- Witness for C3 at `N = 4`. -/
theorem enumerators_agree_with_backtracking_witness :
    4 ≤ 4 ∧ 4 ≤ 8 ∧
      ∃ c, (backtracking 4 (createChessBoard 4)).map Prod.snd = some c ∧
        bruteForce 4 = some c ∧ optimizedOne 4 = some c ∧ optimizedTwo 4 = some c :=
  ⟨by decide, by decide, enumerators_agree_with_backtracking 4 (by decide) (by decide)⟩

/-- C4, as stated, fails: on the `1 × 1` board that holds a queen, the checker called at
`(0, 0)` returns 0 although no queen stands in the row to the left or on a left-going
diagonal at an offset `k ≥ 1`; on the empty `1 × 1` board it returns 1, so the content of
the cell `(row, col)` itself does affect the result. -/
theorem isValidBacktracking_reads_own_cell :
    IsBoard 1 [[1]] ∧ isValidBacktracking 1 [[1]] 0 0 = 0 ∧ ¬ attackedClaimed 1 [[1]] 0 0 ∧
      isValidBacktracking 1 [[0]] 0 0 = 1 := by
  refine ⟨by simp [IsBoard], by decide, ?_, by decide⟩
  unfold attackedClaimed attackedFromLeft
  rintro (⟨c, hc, -⟩ | ⟨k, h1, h2, -⟩ | ⟨k, h1, h2, -⟩) <;> omega

/-- C4, amended: on an `N × N` board and for `row, col < N`, the checker returns 0 if and
only if the board holds a queen at `(row, c)` for some `c < col`, or at `(row - k, col - k)`
or `(row + k, col - k)` for some `k ≥ 0` with the cell in bounds (`k = 0` is the cell
`(row, col)` itself); in every other case it returns 1.  Hence a board that agrees with
the first one on the columns `< col` and on the cell `(row, col)` gets the same result. -/
theorem isValidBacktracking_iff_attacked (N : Nat) (b : Board) (row col : Nat)
    (_hb : IsBoard N b) (hrow : row < N) (_hcol : col < N) :
    (isValidBacktracking N b row col = 0 ↔ attackedFromLeft 0 N b row col) ∧
    (isValidBacktracking N b row col = 1 ↔ ¬ attackedFromLeft 0 N b row col) ∧
    (∀ b2 : Board, IsBoard N b2 → (∀ r c, r < N → c < col → cell b2 r c = cell b r c) →
      cell b2 row col = cell b row col →
      isValidBacktracking N b2 row col = isValidBacktracking N b row col) := by
  have h0 := isValidBacktracking_eq_zero_iff N b row col
  have h01 := isValidBacktracking_zero_or_one N b row col
  refine ⟨h0, ?_, ?_⟩
  · constructor
    · intro h1 ha
      rw [← h0, h1] at ha
      exact absurd ha (by decide)
    · intro hna
      rcases h01 with h | h
      · exact absurd (h0.1 h) hna
      · exact h
  · intro b2 _ hleft hown
    have key : attackedFromLeft 0 N b2 row col ↔ attackedFromLeft 0 N b row col := by
      have hcell : ∀ r c, r < N → c ≤ col → (c = col → r = row) → cell b2 r c = cell b r c := by
        intro r c hr hc hrc
        rcases Nat.lt_or_eq_of_le hc with hlt | heq
        · exact hleft r c hr hlt
        · subst heq
          rw [hrc rfl]; exact hown
      unfold attackedFromLeft
      constructor
      · rintro (⟨c, hc, h⟩ | ⟨k, h1, h2, h3, h⟩ | ⟨k, h1, h2, h3, h⟩)
        · exact Or.inl ⟨c, hc, by rw [← hcell row c hrow (by omega) (by omega)]; exact h⟩
        · exact Or.inr (Or.inl ⟨k, h1, h2, h3,
            by rw [← hcell _ _ (by omega) (by omega) (by omega)]; exact h⟩)
        · exact Or.inr (Or.inr ⟨k, h1, h2, h3,
            by rw [← hcell _ _ (by omega) (by omega) (by omega)]; exact h⟩)
      · rintro (⟨c, hc, h⟩ | ⟨k, h1, h2, h3, h⟩ | ⟨k, h1, h2, h3, h⟩)
        · exact Or.inl ⟨c, hc, by rw [hcell row c hrow (by omega) (by omega)]; exact h⟩
        · exact Or.inr (Or.inl ⟨k, h1, h2, h3,
            by rw [hcell _ _ (by omega) (by omega) (by omega)]; exact h⟩)
        · exact Or.inr (Or.inr ⟨k, h1, h2, h3,
            by rw [hcell _ _ (by omega) (by omega) (by omega)]; exact h⟩)
    rcases isValidBacktracking_zero_or_one N b2 row col with h2 | h2
    · rw [h2, (isValidBacktracking_eq_zero_iff N b row col).2
        (key.1 ((isValidBacktracking_eq_zero_iff N b2 row col).1 h2))]
    · rcases h01 with h | h
      · have := (isValidBacktracking_eq_zero_iff N b2 row col).2 (key.2 (h0.1 h))
        rw [this] at h2
        exact absurd h2 (by decide)
      · rw [h2, h]

/-- Witness for the amended C4: the `2 × 2` board with a queen at `(0, 0)`, asked about
the cell `(1, 1)`. -/
theorem isValidBacktracking_iff_attacked_witness :
    IsBoard 2 [[1, 0], [0, 0]] ∧ 1 < 2 ∧
      (isValidBacktracking 2 [[1, 0], [0, 0]] 1 1 = 0 ↔
        attackedFromLeft 0 2 [[1, 0], [0, 0]] 1 1) :=
  ⟨by simp [IsBoard], by decide,
    (isValidBacktracking_iff_attacked 2 [[1, 0], [0, 0]] 1 1 (by simp [IsBoard]) (by decide)
      (by decide)).1⟩

/-- C5: for every `N ≥ 0`, starting from the all-zero seed, the first `N ^ N - 1` calls of
`nextCombination` return 1 and the `N ^ N`-th call returns 0; the `N ^ N` column vectors
seen (the seed and the array after each successful call) are pairwise distinct and are
exactly the elements of `[0, N)^N`. -/
theorem nextCombination_enumerates_cube (N : Nat) :
    (∀ k, k + 1 < N ^ N → (nextCombination (stateAfter N k) N).1 = 1) ∧
    (nextCombination (stateAfter N (N ^ N - 1)) N).1 = 0 ∧
    (∀ i j, i < N ^ N → j < N ^ N →
      colsOf (stateAfter N i) = colsOf (stateAfter N j) → i = j) ∧
    (∀ k, k < N ^ N → InCube N (colsOf (stateAfter N k))) ∧
    (∀ v, InCube N v → ∃ k, k < N ^ N ∧ colsOf (stateAfter N k) = v) := by
  have hpos := one_le_pow_self N
  have hpow : (((N ^ N : Nat) : Int)) = (N : Int) ^ N := by push_cast; rfl
  refine ⟨?_, ?_, ?_, ?_, ?_⟩
  · intro k hk
    rw [nextCombination_stateAfter N k (by omega), if_pos hk]
  · rw [nextCombination_stateAfter N _ (by omega), if_neg (by omega)]
  · intro i j hi hj h
    have h1 := (stateAfter_spec N i hi).2
    have h2 := (stateAfter_spec N j hj).2
    rw [h] at h1
    omega
  · intro k hk
    exact inCube_colsOf N _ (stateAfter_spec N k hk).1
  · intro v hv
    have hb := inCube_bounds N v hv
    have hlt : (horner N v).toNat < N ^ N := by omega
    refine ⟨(horner N v).toNat, hlt, ?_⟩
    obtain ⟨hwf, hval⟩ := stateAfter_spec N _ hlt
    have hc := inCube_colsOf N _ hwf
    apply horner_injective N _ _ (by rw [hc.1, hv.1]) hc.2 hv.2
    rw [hval]
    omega

/-- C6, as stated, fails for `optimizedTwo`: for `N = 4` it hands 229 arrays to
`isValidSolution`, not `4 ^ 4 = 256`, and the all-zero element of `[0, 4)^4` is not
among them. -/
theorem optimizedTwo_skips_candidates :
    (optimizedTwoRun (4 ^ 4) 4).map (fun r => r.2.length) = some 229 ∧
    (optimizedTwoRun (4 ^ 4) 4).map (fun r => occurrences [0, 0, 0, 0] (r.2.map colsOf)) =
      some 0 ∧
    InCube 4 [0, 0, 0, 0] ∧ (229 : Nat) ≠ 4 ^ 4 := by
  have hseed : horner ((4 : Nat) : Int) (colsOf (seedDiag 4)) = 27 := by decide
  have hcube : InCube 4 [0, 0, 0, 0] := by
    refine ⟨rfl, ?_⟩
    intro d hd
    simp only [List.mem_cons, List.mem_singleton, List.not_mem_nil, or_false, or_self] at hd
    subst hd
    decide
  refine ⟨?_, ?_, hcube, by decide⟩
  · rw [optimizedTwoRun_eq 4 _ (le_refl _), Option.map_some', length_trail, hseed]
    rfl
  · rw [optimizedTwoRun_eq 4 _ (le_refl _), Option.map_some',
      count_trail_cols 4 _ _ (wellFormed_seedDiag 4) (by rw [hseed]; decide) _ hcube, hseed]
    rfl

/-- C6, amended: for every `N ≥ 4`, `bruteForce` and `optimizedOne` pass every element of
`[0, N)^N` to `isValidSolution` exactly once and nothing else, `N ^ N` candidates each;
`optimizedTwo` passes only elements of `[0, N)^N`, each at most once, namely exactly those
whose base-`N` value (row 0 most significant) is at least the value of its seed
`column[i] = i`, which makes `N ^ N` minus the seed value candidates: its seed changes
which candidates are visited. -/
theorem enumerators_candidates_tested (N : Nat) (_hN : 4 ≤ N) :
    (∃ c log, bruteForceRun (N ^ N) N = some (c, log) ∧ log.length = N ^ N ∧
      (∀ p ∈ log, InCube N (colsOf p)) ∧
      ∀ v, InCube N v → occurrences v (log.map colsOf) = 1) ∧
    (∃ c log, optimizedOneRun (N ^ N) N = some (c, log) ∧ log.length = N ^ N ∧
      (∀ p ∈ log, InCube N (colsOf p)) ∧
      ∀ v, InCube N v → occurrences v (log.map colsOf) = 1) ∧
    (∃ c log, optimizedTwoRun (N ^ N) N = some (c, log) ∧
      (log.length : Int) = (N : Int) ^ N - horner N (colsOf (seedDiag N)) ∧
      (∀ p ∈ log, InCube N (colsOf p)) ∧
      ∀ v, InCube N v → occurrences v (log.map colsOf) =
        if horner N (colsOf (seedDiag N)) ≤ horner N v then 1 else 0) := by
  have hz : horner N (colsOf (seedZero N)) + ((N ^ N : Nat) : Int) ≤ (N : Int) ^ N := by
    rw [horner_seedZero]; push_cast; omega
  have hbrute : ∃ c log, bruteForceRun (N ^ N) N = some (c, log) ∧ log.length = N ^ N ∧
      (∀ p ∈ log, InCube N (colsOf p)) ∧
      ∀ v, InCube N v → occurrences v (log.map colsOf) = 1 := by
    refine ⟨_, _, bruteForceRun_eq N _ (le_refl _), length_trail _ _ _, ?_, ?_⟩
    · intro p hp
      exact inCube_colsOf N p ((mem_trail_seedZero N p).1 hp)
    · intro v hv
      have hb := inCube_bounds N v hv
      rw [count_trail_cols N _ _ (wellFormed_seedZero N) hz v hv, horner_seedZero, if_pos]
      refine ⟨hb.1, ?_⟩
      push_cast; omega
  refine ⟨hbrute, hbrute, ?_⟩
  have hsb := wellFormed_bounds N _ (wellFormed_seedDiag N)
  have hd : horner N (colsOf (seedDiag N)) +
      (((((N : Int) ^ N - horner N (colsOf (seedDiag N)) - 1).toNat + 1 : Nat)) : Int) ≤
        (N : Int) ^ N := by
    push_cast; omega
  refine ⟨_, _, optimizedTwoRun_eq N _ (le_refl _), ?_, ?_, ?_⟩
  · rw [length_trail]; push_cast; omega
  · intro p hp
    exact inCube_colsOf N p ((mem_trail_seedDiag N p).1 hp).1
  · intro v hv
    have hb := inCube_bounds N v hv
    rw [count_trail_cols N _ _ (wellFormed_seedDiag N) hd v hv]
    by_cases hle : horner N (colsOf (seedDiag N)) ≤ horner N v
    · rw [if_pos hle, if_pos]
      refine ⟨hle, ?_⟩
      push_cast; omega
    · rw [if_neg hle, if_neg (fun hh => hle hh.1)]

/-- Witness for the amended C6 at `N = 4`. -/
theorem enumerators_candidates_tested_witness :
    4 ≤ 4 ∧
    ∃ c log, bruteForceRun (4 ^ 4) 4 = some (c, log) ∧ log.length = 4 ^ 4 ∧
      (∀ p ∈ log, InCube 4 (colsOf p)) ∧
      ∀ v, InCube 4 v → occurrences v (log.map colsOf) = 1 :=
  ⟨by decide, (enumerators_candidates_tested 4 (by decide)).1⟩

/-- C7: for every `N ≥ 0`, `bruteForce`, `optimizedOne` and `optimizedTwo` end with
identical `solutionCount` values. -/
theorem enumerators_same_count (N : Nat) :
    ∃ c, bruteForce N = some c ∧ optimizedOne N = some c ∧ optimizedTwo N = some c := by
  refine ⟨wrap32 ((countValid N (trail N (N ^ N) (seedZero N)) : Nat) : Int), ?_, ?_, ?_⟩
  · rw [bruteForce, bruteForceRun_eq N _ (le_refl _), Option.map_some']
  · rw [optimizedOne, show optimizedOneRun (N ^ N) N = bruteForceRun (N ^ N) N from rfl,
      bruteForceRun_eq N _ (le_refl _), Option.map_some']
  · rw [optimizedTwo, optimizedTwoRun_eq N _ (le_refl _), Option.map_some',
      countValid_seedDiag_eq]

/-- C8, as stated, fails: `solutionCount` is a 32-bit `int`.  There are more than
2147483647 valid arrangements on the board of size 46349, so the count that `bruteForce`
computes for it is not their number. -/
theorem bruteForce_count_overflows :
    bruteForce 46349 ≠ some ((numValidArrangements 46349 : Nat) : Int) := by
  intro h
  rw [bruteForce_eq_wrap 46349 (by norm_num), numValidArrangements_eq] at h
  exact wrap32_ne_of_large _ numQueenSolutions_46349 (Option.some.inj h)

/-- C8, amended: for every `N` in the range of an `int` for which the number of column
vectors `c` in `[0, N)^N` with pairwise non-attacking queens at `(i, c i)` is at most
`INT_MAX = 2147483647`, the `solutionCount` computed by `bruteForce` equals that number. -/
theorem bruteForce_counts_valid_arrangements (N : Nat) (hN : N ≤ 2147483647)
    (hQ : numValidArrangements N ≤ 2147483647) :
    bruteForce N = some ((numValidArrangements N : Nat) : Int) := by
  rw [bruteForce_eq_wrap N (by omega), wrap32_of_small _ (by omega) (by omega)]

/-- Witness for the amended C8 at `N = 4`, which has 2 valid arrangements. -/
theorem bruteForce_counts_valid_arrangements_witness :
    4 ≤ 2147483647 ∧ numValidArrangements 4 ≤ 2147483647 ∧
    bruteForce 4 = some ((numValidArrangements 4 : Nat) : Int) :=
  have hQ : numValidArrangements 4 ≤ 2147483647 := by
    rw [numValidArrangements_eq, numQueenSolutions_eq_countRev]
    decide
  ⟨by decide, hQ, bruteForce_counts_valid_arrangements 4 (by decide) hQ⟩

/-- C9, as stated, fails: the differences are 32-bit subtractions.  For the two entries
`(2147483647, 2147483647)` and `(-2, 0)`, whose fields are all `int` values, the row
difference `2147483649` wraps to `-2147483647`, whose absolute value is the column
difference: `isValidSolution` returns 0 although the columns differ and
`|row_0 - row_1| = 2147483649` is not `|col_0 - col_1| = 2147483647`. -/
theorem isValidSolution_overflow :
    isValidSolution 2 [(2147483647, 2147483647), (-2, 0)] = 0 ∧
    ¬ ∃ i j, i < j ∧ j < 2 ∧
      ((posAt [(2147483647, 2147483647), (-2, 0)] i).2 =
          (posAt [(2147483647, 2147483647), (-2, 0)] j).2 ∨
        |(posAt [(2147483647, 2147483647), (-2, 0)] i).1 -
            (posAt [(2147483647, 2147483647), (-2, 0)] j).1| =
          |(posAt [(2147483647, 2147483647), (-2, 0)] i).2 -
            (posAt [(2147483647, 2147483647), (-2, 0)] j).2|) := by
  refine ⟨by decide, ?_⟩
  rintro ⟨i, j, hij, hj, h⟩
  have hi0 : i = 0 := by omega
  have hj1 : j = 1 := by omega
  subst hi0 hj1
  have e0 : posAt [(2147483647, 2147483647), (-2, 0)] 0 = (2147483647, 2147483647) := rfl
  have e1 : posAt [(2147483647, 2147483647), (-2, 0)] 1 = (-2, 0) := rfl
  rw [e0, e1] at h
  rcases h with h | h
  · simp only at h
    omega
  · simp only at h
    rcases abs_eq_abs.1 h with h2 | h2 <;> omega

/-- C9, amended: for every `N ≥ 0` and every list of `N` (row, col) pairs in which no two
row fields and no two column fields differ by more than `INT_MAX = 2147483647` (so that no
subtraction overflows), `isValidSolution` returns 0 if and only if there are indices
`i < j < N` with equal columns or with `|row_i - row_j| = |col_i - col_j|`; otherwise it
returns 1. -/
theorem isValidSolution_iff_conflict (N : Nat) (positions : Positions)
    (_hlen : positions.length = N)
    (hsmall : ∀ i j, i < j → j < N →
      |(posAt positions i).1 - (posAt positions j).1| ≤ 2147483647 ∧
      |(posAt positions i).2 - (posAt positions j).2| ≤ 2147483647) :
    (isValidSolution N positions = 0 ↔
      ∃ i j, i < j ∧ j < N ∧ ((posAt positions i).2 = (posAt positions j).2 ∨
        |(posAt positions i).1 - (posAt positions j).1| =
          |(posAt positions i).2 - (posAt positions j).2|)) ∧
    (isValidSolution N positions = 1 ↔
      ¬ ∃ i j, i < j ∧ j < N ∧ ((posAt positions i).2 = (posAt positions j).2 ∨
        |(posAt positions i).1 - (posAt positions j).1| =
          |(posAt positions i).2 - (posAt positions j).2|)) := by
  have h0 := isValidSolution_eq_zero_iff N positions
    (fun i j hij hj => ⟨by have := (hsmall i j hij hj).1; omega,
      by have := (hsmall i j hij hj).2; omega⟩)
  refine ⟨h0, ?_⟩
  constructor
  · intro h1 hc
    rw [← h0, h1] at hc
    exact absurd hc (by decide)
  · intro hn
    rcases isValidSolution_zero_or_one N positions with h | h
    · exact absurd (h0.1 h) hn
    · exact h

/-- Witness for the amended C9: two queens on a diagonal of the `2 × 2` board. -/
theorem isValidSolution_iff_conflict_witness :
    ([((0 : Int), (0 : Int)), (1, 1)] : Positions).length = 2 ∧
    (∀ i j, i < j → j < 2 →
      |(posAt [(0, 0), (1, 1)] i).1 - (posAt [(0, 0), (1, 1)] j).1| ≤ 2147483647 ∧
      |(posAt [(0, 0), (1, 1)] i).2 - (posAt [(0, 0), (1, 1)] j).2| ≤ 2147483647) ∧
    (isValidSolution 2 [(0, 0), (1, 1)] = 0 ↔
      ∃ i j, i < j ∧ j < 2 ∧
        ((posAt [(0, 0), (1, 1)] i).2 = (posAt [(0, 0), (1, 1)] j).2 ∨
          |(posAt [(0, 0), (1, 1)] i).1 - (posAt [(0, 0), (1, 1)] j).1| =
            |(posAt [(0, 0), (1, 1)] i).2 - (posAt [(0, 0), (1, 1)] j).2|)) :=
  have hsmall : ∀ i j, i < j → j < 2 →
      |(posAt [(0, 0), (1, 1)] i).1 - (posAt [(0, 0), (1, 1)] j).1| ≤ 2147483647 ∧
      |(posAt [(0, 0), (1, 1)] i).2 - (posAt [(0, 0), (1, 1)] j).2| ≤ 2147483647 := by
    intro i j hij hj
    have hi0 : i = 0 := by omega
    have hj1 : j = 1 := by omega
    subst hi0 hj1
    decide
  ⟨rfl, hsmall, (isValidSolution_iff_conflict 2 [(0, 0), (1, 1)] rfl hsmall).1⟩

/-- C10: for every `N ≥ 1` and every array of length `N` whose column digits lie in
`[0, N)`, with value `v`: if `v < N ^ N - 1` then `nextCombination` returns 1 and the
column digits afterwards are the `N`-digit base-`N` representation of `v + 1`; if
`v = N ^ N - 1`, which is the case exactly when every digit is `N - 1`, then it returns 0
and every column digit afterwards is 0. -/
theorem nextCombination_increments_value (N : Nat) (hN : 1 ≤ N) (positions : Positions)
    (hlen : positions.length = N) (hdig : ∀ x ∈ positions, 0 ≤ x.2 ∧ x.2 < (N : Int)) :
    (value N positions < (N : Int) ^ N - 1 →
      (nextCombination positions N).1 = 1 ∧
      (nextCombination positions N).2.length = N ∧
      (∀ x ∈ (nextCombination positions N).2, 0 ≤ x.2 ∧ x.2 < (N : Int)) ∧
      value N (nextCombination positions N).2 = value N positions + 1) ∧
    (value N positions = (N : Int) ^ N - 1 →
      (nextCombination positions N).1 = 0 ∧
      (nextCombination positions N).2.length = N ∧
      ∀ x ∈ (nextCombination positions N).2, x.2 = 0) ∧
    (value N positions = (N : Int) ^ N - 1 ↔ ∀ x ∈ positions, x.2 = (N : Int) - 1) ∧
    value N positions ≤ (N : Int) ^ N - 1 := by
  have hspec := nextCombinationFrom_spec N positions hdig
  rw [hlen] at hspec
  obtain ⟨-, h2, h3, h4⟩ := hspec
  have hb := horner_bounds N positions hdig
  have hb2 := horner_bounds N _ h3
  rw [hlen] at hb
  rw [h2] at hb2
  have hv := value_eq_horner N positions hlen
  have hv2 := value_eq_horner N (nextCombinationFrom N N positions).2 h2
  have hmax := horner_eq_max_iff N hN positions hdig
  rw [hlen] at hmax
  unfold nextCombination
  rw [hv, hv2]
  refine ⟨?_, ?_, hmax, by omega⟩
  · intro hlt
    rcases h4 with ⟨h5, h6⟩ | ⟨-, h6, -⟩
    · exact ⟨h5, h2, h3, h6⟩
    · omega
  · intro heq
    rcases h4 with ⟨-, h6⟩ | ⟨h5, -, h7⟩
    · omega
    · exact ⟨h5, h2, h7⟩

/-- Witness for C10: the array with digits `0, 1` in base 2 has value 1, below the
largest value 3; the call returns 1 and leaves the digits `1, 0` of value 2. -/
theorem nextCombination_increments_value_witness :
    1 ≤ 2 ∧ ([((0 : Int), (0 : Int)), (1, 1)] : Positions).length = 2 ∧
    (∀ x ∈ ([((0 : Int), (0 : Int)), (1, 1)] : Positions), 0 ≤ x.2 ∧ x.2 < ((2 : Nat) : Int)) ∧
    value 2 [(0, 0), (1, 1)] < ((2 : Nat) : Int) ^ 2 - 1 ∧
    (nextCombination [(0, 0), (1, 1)] 2).1 = 1 ∧
    value 2 (nextCombination [(0, 0), (1, 1)] 2).2 = value 2 [(0, 0), (1, 1)] + 1 :=
  have hv : value 2 [(0, 0), (1, 1)] < ((2 : Nat) : Int) ^ 2 - 1 := by decide
  have h := (nextCombination_increments_value 2 (by decide) [(0, 0), (1, 1)] rfl
    (by decide)).1 hv
  ⟨by decide, rfl, by decide, hv, h.1, h.2.2.2⟩

/-- C11: for every `N` and every list of `N` (row, col) pairs, `isValidSolution` gives the
same verdict on the list and on every permutation of the list. -/
theorem isValidSolution_permutation_invariant (N : Nat) (positions reordered : Positions)
    (hlen : positions.length = N) (hperm : positions.Perm reordered) :
    isValidSolution N reordered = isValidSolution N positions :=
  isValidSolution_perm N positions reordered hlen hperm

/-- Witness for C11: two queens on a diagonal, in both orders. -/
theorem isValidSolution_permutation_invariant_witness :
    ([((0 : Int), (0 : Int)), (1, 1)] : Positions).length = 2 ∧
    List.Perm ([((0 : Int), (0 : Int)), (1, 1)] : Positions) [(1, 1), (0, 0)] ∧
    isValidSolution 2 [(1, 1), (0, 0)] = isValidSolution 2 [(0, 0), (1, 1)] :=
  ⟨rfl, List.Perm.swap _ _ _,
    isValidSolution_permutation_invariant 2 [(0, 0), (1, 1)] [(1, 1), (0, 0)] rfl
      (List.Perm.swap _ _ _)⟩

/-- C12: for every `N ≥ 2` and the `N × N` board whose only queen is at `(0, 0)`, the
checker at column 1 returns 0 for row 0 and row 1 and returns 1 for every row with
`2 ≤ row < N`; for `N = 4` the table for the rows 0, 1, 2, 3 is reject, reject, accept,
accept. -/
theorem isValidBacktracking_second_column (N : Nat) (hN : 2 ≤ N) :
    (∀ r c, r < N → c < N →
      (cell (setCell (createChessBoard N) 0 0 1) r c = 1 ↔ r = 0 ∧ c = 0)) ∧
    isValidBacktracking N (setCell (createChessBoard N) 0 0 1) 0 1 = 0 ∧
    isValidBacktracking N (setCell (createChessBoard N) 0 0 1) 1 1 = 0 ∧
    (∀ row, 2 ≤ row → row < N →
      isValidBacktracking N (setCell (createChessBoard N) 0 0 1) row 1 = 1) ∧
    (List.range 4).map
      (fun row => isValidBacktracking 4 (setCell (createChessBoard 4) 0 0 1) row 1) =
        [0, 0, 1, 1] := by
  have hrep : Represents N (setCell (createChessBoard N) 0 0 1) [0] :=
    represents_setCell N (createChessBoard N) [] (represents_createChessBoard N) 0
      (by omega) (by simp only [List.length_nil]; omega)
  have hsafe : ∀ row, safe [0] row ↔ 2 ≤ row := by
    intro row
    unfold safe
    constructor
    · intro h
      have := h 0 (by simp)
      simp only [List.getD_cons_zero, List.length_singleton] at this
      omega
    · intro h c hc
      simp only [List.length_singleton] at hc ⊢
      have hc0 : c = 0 := by omega
      subst hc0
      simp only [List.getD_cons_zero]
      omega
  have hiff : ∀ row, row < N →
      (isValidBacktracking N (setCell (createChessBoard N) 0 0 1) row 1 ≠ 0 ↔ 2 ≤ row) := by
    intro row hrow
    rw [← hsafe row]
    exact isValidBacktracking_represents N _ [0] hrep row hrow
      (by simp only [List.length_singleton]; omega)
  refine ⟨?_, ?_, ?_, ?_, by decide⟩
  · intro r c hr hc
    rw [cell_setCell N _ (isBoard_createChessBoard N) 0 0 1 (by omega) (by omega),
      cell_createChessBoard]
    by_cases h : r = 0 ∧ c = 0
    · simp [h]
    · simp only [h, if_false, iff_false]
      decide
  · by_contra h
    have := (hiff 0 (by omega)).1 h
    omega
  · by_contra h
    have := (hiff 1 (by omega)).1 h
    omega
  · intro row h2 hrow
    rcases isValidBacktracking_zero_or_one N (setCell (createChessBoard N) 0 0 1) row 1
      with h | h
    · exact absurd h ((hiff row hrow).2 h2)
    · exact h

/-- Witness for C12 at `N = 2`. -/
theorem isValidBacktracking_second_column_witness :
    2 ≤ 2 ∧ isValidBacktracking 2 (setCell (createChessBoard 2) 0 0 1) 1 1 = 0 :=
  ⟨by decide, (isValidBacktracking_second_column 2 (by decide)).2.2.1⟩

/-- C13: for every `N`, every column `col ≤ N` and every `N × N` board whose cells are 0
or 1, `solveBacktracking` returns with the board it was called with; in particular
`backtracking` started on the empty board returns with the board empty. -/
theorem solveBacktracking_restores_board (N : Nat) (board : Board) (col : Nat)
    (solutionCount : Int)
    (hb : IsBoard N board) (hbin : Binary N board) (hcol : col ≤ N) :
    (∃ ret c2, solveBacktracking N board col solutionCount = some (ret, board, c2)) ∧
    (backtracking N (createChessBoard N)).map Prod.fst = some (createChessBoard N) := by
  constructor
  · exact solveBacktrackingFuel_frame N board col solutionCount (N - col + 1) hb hbin hcol
      (by omega)
  · rw [backtracking_eq]
    rfl

/-- Witness for C13: the `1 × 1` board that holds a queen, searched from column 0. -/
theorem solveBacktracking_restores_board_witness :
    IsBoard 1 [[1]] ∧ Binary 1 [[1]] ∧ 0 ≤ 1 ∧
      ∃ ret c2, solveBacktracking 1 [[1]] 0 0 = some (ret, [[1]], c2) :=
  have hb : IsBoard 1 [[1]] := by simp [IsBoard]
  have hbin : Binary 1 [[1]] := by
    intro r c hr hc
    have hr0 : r = 0 := by omega
    have hc0 : c = 0 := by omega
    subst hr0 hc0
    exact Or.inr rfl
  ⟨hb, hbin, by decide, (solveBacktracking_restores_board 1 [[1]] 0 0 hb hbin (by decide)).1⟩

/-- C14: for every `N ≥ 0` and every `N × N` board with arbitrary cell contents,
`resetChessBoard` leaves every cell `(i, j)` with `i, j < N` equal to 0, so the result is
the all-zero board that `createChessBoard` produces. -/
theorem resetChessBoard_clears_board (N : Nat) (board : Board) (hb : IsBoard N board) :
    (∀ i j, i < N → j < N → cell (resetChessBoard N board) i j = 0) ∧
    resetChessBoard N board = createChessBoard N :=
  ⟨(resetChessBoard_spec N board hb).2, resetChessBoard_eq N board hb⟩

/-- Witness for C14: a `2 × 2` board with arbitrary contents. -/
theorem resetChessBoard_clears_board_witness :
    IsBoard 2 [[5, -3], [7, 1]] ∧ resetChessBoard 2 [[5, -3], [7, 1]] = createChessBoard 2 :=
  have hb : IsBoard 2 [[5, -3], [7, 1]] := by simp [IsBoard]
  ⟨hb, (resetChessBoard_clears_board 2 [[5, -3], [7, 1]] hb).2⟩

/-- C15: for every input size `N ≤ 3` and whatever the mode, `main` returns -1 without
creating a board and without running a strategy; for every `N ≥ 4` the size check passes,
that is `main` goes on to create the board. -/
theorem main_rejects_small_sizes (N mode : Int) (allocated : Bool) :
    (N ≤ 3 → main N mode allocated = (-1, [])) ∧
    (4 ≤ N → ∃ rest, (main N mode allocated).2 = Call.createChessBoard N.toNat :: rest) := by
  constructor
  · intro h
    unfold main
    rw [if_pos h]
  · intro h
    unfold main
    rw [if_neg (by omega)]
    split_ifs <;> exact ⟨_, rfl⟩

/-- Witness for C15: the size 3 is rejected. -/
theorem main_rejects_small_sizes_witness : main 3 0 true = (-1, []) :=
  (main_rejects_small_sizes 3 0 true).1 (by decide)

/-- C16: at every invocation of `solveBacktracking` reached from `backtracking` on the
empty board, `col ≤ N`, every column `c < col` holds exactly one queen, every column
`c ≥ col` is empty, and no two queens on the board share a row or a diagonal. -/
theorem backtracking_search_invariant (N : Nat) :
    ∃ ret c log,
      solveBacktrackingLog N (N + 1) (createChessBoard N) 0 0 =
        some (ret, createChessBoard N, c, log) ∧
      solveBacktracking N (createChessBoard N) 0 0 = some (ret, createChessBoard N, c) ∧
      ∀ e ∈ log, SearchInvariant N e.1 e.2 := by
  obtain ⟨ret, c, log, h1, h2⟩ := solveBacktrackingLog_invariant N
  refine ⟨ret, c, log, h1, ?_, h2⟩
  unfold solveBacktracking
  rw [Nat.sub_zero, ← solveBacktrackingLog_erase, h1]
  rfl

/-- C17: for every `N ≥ 0` and every `col ≤ N`, `solveBacktracking` terminates: `N - col + 1`
levels of recursion are enough (so a call at column 0 never nests more than `N` calls
below the initial one) and more levels give the same result; every nested invocation has
a column index above `col` and at most `N`. -/
theorem solveBacktracking_terminates (N : Nat) (board : Board) (col : Nat)
    (solutionCount : Int)
    (_hb : IsBoard N board) (hcol : col ≤ N) :
    (∃ r, solveBacktracking N board col solutionCount = some r ∧
      ∀ fuel, N - col < fuel → solveBacktrackingFuel N fuel board col solutionCount = some r) ∧
    (∃ ret b2 c2 rest,
      solveBacktrackingLog N (N - col + 1) board col solutionCount =
        some (ret, b2, c2, (board, col) :: rest) ∧
      ∀ e ∈ rest, col < e.2 ∧ e.2 ≤ N) := by
  have hlog := solveBacktrackingLog_total N (N - col + 1) board col solutionCount hcol
    (by omega)
  refine ⟨?_, hlog⟩
  obtain ⟨ret, b2, c2, rest, h1, -⟩ := hlog
  have hr : solveBacktracking N board col solutionCount = some (ret, b2, c2) := by
    unfold solveBacktracking
    rw [← solveBacktrackingLog_erase, h1]
    rfl
  refine ⟨(ret, b2, c2), hr, ?_⟩
  intro fuel hfuel
  exact solveBacktrackingFuel_mono N (N - col + 1) fuel (by omega) board col solutionCount _ hr

/-- Witness for C17: the empty `1 × 1` board, searched from column 0. -/
theorem solveBacktracking_terminates_witness :
    IsBoard 1 [[0]] ∧ 0 ≤ 1 ∧
      ∃ r, solveBacktracking 1 [[0]] 0 0 = some r ∧
        ∀ fuel, 1 - 0 < fuel → solveBacktrackingFuel 1 fuel [[0]] 0 0 = some r :=
  have hb : IsBoard 1 [[0]] := by simp [IsBoard]
  ⟨hb, by decide, (solveBacktracking_terminates 1 [[0]] 0 0 hb (by decide)).1⟩

/-- C18: for every `N` and every array of length `N`, `nextCombination` changes only column
fields: the array keeps its length and every row field, whether the call returns 1 or 0;
so in every array that the enumerators hand to `isValidSolution` entry `i` has row `i`. -/
theorem nextCombination_keeps_rows (N : Nat) (positions : Positions)
    (hlen : positions.length = N) :
    (nextCombination positions N).2.length = N ∧
    (∀ i, i < N → (posAt (nextCombination positions N).2 i).1 = (posAt positions i).1) ∧
    ((nextCombination positions N).1 = 0 ∨ (nextCombination positions N).1 = 1) ∧
    (∀ c log, bruteForceRun (N ^ N) N = some (c, log) →
      ∀ p ∈ log, p.length = N ∧ ∀ i, i < N → (posAt p i).1 = (i : Int)) ∧
    (∀ c log, optimizedOneRun (N ^ N) N = some (c, log) →
      ∀ p ∈ log, p.length = N ∧ ∀ i, i < N → (posAt p i).1 = (i : Int)) ∧
    (∀ c log, optimizedTwoRun (N ^ N) N = some (c, log) →
      ∀ p ∈ log, p.length = N ∧ ∀ i, i < N → (posAt p i).1 = (i : Int)) := by
  obtain ⟨h1, h2, h3⟩ := nextCombinationFrom_rows N N positions
  have hbrute : ∀ c log, bruteForceRun (N ^ N) N = some (c, log) →
      ∀ p ∈ log, p.length = N ∧ ∀ i, i < N → (posAt p i).1 = (i : Int) := by
    intro c log hrun p hp
    rw [bruteForceRun_eq N _ (le_refl _)] at hrun
    simp only [Option.some.injEq, Prod.mk.injEq] at hrun
    rw [← hrun.2] at hp
    have hwf := (mem_trail_seedZero N p).1 hp
    exact ⟨hwf.1, fun i hi => wellFormed_posAt_fst N p hwf i hi⟩
  refine ⟨by rw [nextCombination, h1, hlen], ?_, h3, hbrute, hbrute, ?_⟩
  · intro i _
    rw [posAt_fst, posAt_fst, nextCombination, h2]
  · intro c log hrun p hp
    rw [optimizedTwoRun_eq N _ (le_refl _)] at hrun
    simp only [Option.some.injEq, Prod.mk.injEq] at hrun
    rw [← hrun.2] at hp
    have hwf := ((mem_trail_seedDiag N p).1 hp).1
    exact ⟨hwf.1, fun i hi => wellFormed_posAt_fst N p hwf i hi⟩

/-- Witness for C18: an array of length 1 with arbitrary fields. -/
theorem nextCombination_keeps_rows_witness :
    ([((5 : Int), (7 : Int))] : Positions).length = 1 ∧
    (nextCombination [(5, 7)] 1).2.length = 1 ∧
    (∀ i, i < 1 → (posAt (nextCombination [(5, 7)] 1).2 i).1 = (posAt [(5, 7)] i).1) :=
  ⟨rfl, (nextCombination_keeps_rows 1 [(5, 7)] rfl).1,
    (nextCombination_keeps_rows 1 [(5, 7)] rfl).2.1⟩

/-- C19: for every `N`, every `row, col < N` and every `N × N` 0/1 board whose queens all
lie in columns `< col`, `isValidBacktracking` returns 1 if and only if no queen anywhere
on the board attacks `(row, col)`, that is no occupied cell `(r, c)` has `r = row`,
`c = col` or `|r - row| = |c - col|`. -/
theorem isValidBacktracking_full_attack_test (N : Nat) (board : Board) (row col : Nat)
    (_hb : IsBoard N board) (_hbin : Binary N board) (hrow : row < N) (hcol : col < N)
    (hq : ∀ r c, r < N → c < N → cell board r c = 1 → c < col) :
    isValidBacktracking N board row col = 1 ↔ ¬ attackedByAny N board row col := by
  rw [← attackedFromLeft_iff_attackedByAny N board row col hrow hcol hq,
    ← isValidBacktracking_eq_zero_iff]
  rcases isValidBacktracking_zero_or_one N board row col with h | h
  · rw [h]
    simp
  · rw [h]
    simp

/-- Witness for C19: the `2 × 2` board with a queen at `(0, 0)`, asked about `(1, 1)`. -/
theorem isValidBacktracking_full_attack_test_witness :
    IsBoard 2 [[1, 0], [0, 0]] ∧ Binary 2 [[1, 0], [0, 0]] ∧ 1 < 2 ∧
    (∀ r c, r < 2 → c < 2 → cell [[1, 0], [0, 0]] r c = 1 → c < 1) ∧
    (isValidBacktracking 2 [[1, 0], [0, 0]] 1 1 = 1 ↔
      ¬ attackedByAny 2 [[1, 0], [0, 0]] 1 1) :=
  have hb : IsBoard 2 [[1, 0], [0, 0]] := by simp [IsBoard]
  have hbin : Binary 2 [[1, 0], [0, 0]] := by
    intro r c hr hc
    interval_cases r <;> interval_cases c <;> decide
  have hq : ∀ r c, r < 2 → c < 2 → cell [[1, 0], [0, 0]] r c = 1 → c < 1 := by
    intro r c hr hc
    interval_cases r <;> interval_cases c <;> decide
  ⟨hb, hbin, by decide, hq,
    isValidBacktracking_full_attack_test 2 [[1, 0], [0, 0]] 1 1 hb hbin (by decide)
      (by decide) hq⟩

/-- C20: for every `N ≥ 1`, the candidates that `optimizedTwo` passes to `isValidSolution`
are exactly the column vectors of `[0, N)^N` whose base-`N` value is at least the value of
the seed `(0, 1, ..., N - 1)`, each tested once, in increasing order of value; these are
`N ^ N - Σ_{i < N} i * N ^ (N - 1 - i)` candidates (229 for `N = 4`), and every candidate
that is never tested is rejected by `isValidSolution`. -/
theorem optimizedTwo_candidates (N : Nat) (_hN : 1 ≤ N) :
    ∃ c log, optimizedTwoRun (N ^ N) N = some (c, log) ∧
      (∀ p ∈ log, WellFormed N p) ∧
      (∀ q, WellFormed N q →
        occurrences q log = if value N (seedDiag N) ≤ value N q then 1 else 0) ∧
      log.map (value N) =
        (List.range log.length).map (fun (k : Nat) => value N (seedDiag N) + (k : Int)) ∧
      (log.length : Int) =
        (N : Int) ^ N - ∑ i in Finset.range N, (i : Int) * (N : Int) ^ (N - 1 - i) ∧
      (N = 4 → log.length = 229) ∧
      (∀ q, WellFormed N q → q ∉ log → isValidSolution N q = 0) := by
  have hseed := wellFormed_seedDiag N
  have hsb := wellFormed_bounds N _ hseed
  have hsv := wellFormed_value N _ hseed
  have hd : horner N (colsOf (seedDiag N)) +
      (((((N : Int) ^ N - horner N (colsOf (seedDiag N)) - 1).toNat + 1 : Nat)) : Int) ≤
        (N : Int) ^ N := by
    push_cast; omega
  have hlen : ((trail N (((N : Int) ^ N - horner N (colsOf (seedDiag N)) - 1).toNat + 1)
      (seedDiag N)).length : Int) =
        (N : Int) ^ N - ∑ i in Finset.range N, (i : Int) * (N : Int) ^ (N - 1 - i) := by
    rw [← value_seedDiag, hsv, length_trail]
    push_cast; omega
  refine ⟨_, _, optimizedTwoRun_eq N _ (le_refl _), ?_, ?_, ?_, hlen, ?_, ?_⟩
  · intro p hp
    exact ((mem_trail_seedDiag N p).1 hp).1
  · intro q hq
    rw [occurrences_of_nodup q _ (nodup_trail N _ _ hseed hd), hsv, wellFormed_value N q hq]
    by_cases hle : horner N (colsOf (seedDiag N)) ≤ horner N (colsOf q)
    · rw [if_pos hle, if_pos ((mem_trail_seedDiag N q).2 ⟨hq, hle⟩)]
    · rw [if_neg hle, if_neg (fun hm => hle ((mem_trail_seedDiag N q).1 hm).2)]
  · rw [length_trail]
    exact trail_values N _ _ hseed hd
  · intro h4
    subst h4
    have h27 : ∑ i in Finset.range 4, (i : Int) * ((4 : Nat) : Int) ^ (4 - 1 - i) = 27 := by
      decide
    rw [h27] at hlen
    have : (((4 : Nat) : Int)) ^ 4 = 256 := by decide
    omega
  · intro q hq hnot
    by_contra hv
    exact hnot ((mem_trail_seedDiag N q).2 ⟨hq, seedDiag_le_of_valid N q hq hv⟩)

/-- Witness for C20 at `N = 4`: 229 candidates are tested. -/
theorem optimizedTwo_candidates_witness :
    1 ≤ 4 ∧ ∃ c log, optimizedTwoRun (4 ^ 4) 4 = some (c, log) ∧ log.length = 229 := by
  obtain ⟨c, log, h1, -, -, -, -, h6, -⟩ := optimizedTwo_candidates 4 (by decide)
  exact ⟨by decide, c, log, h1, h6 rfl⟩

end NQueens
